import Mathlib

/-!
# Optima: stability classifier and interior-point stepper

A shallow embedding of `Optima/Stability2.cpp` and `Optima/Stepper.cpp`.

Eigen vectors are lists of scalars, scalars are idealised as rationals, index
vectors are lists of naturals.  Reading a coefficient outside a vector yields
`0` and writing outside a vector leaves it unchanged.
-/

namespace Optima

/-! ## Dense vectors, matrices and index vectors -/

/-- Scalar type of the library (`double` in the source), idealised. -/
abbrev Scalar := ℚ

/-- Matrices of Mathlib with `r` rows and `c` columns over the scalars, in which
invertibility and rank are stated. -/
abbrev Mat (r c : Nat) : Type := Matrix (Fin r) (Fin c) Scalar

/-- Dense column vector (`Vector`, `VectorConstRef`). -/
abbrev Vector := List Scalar

/-- Vector of indices (`Indices`, `IndicesConstRef`). -/
abbrev Indices := List Nat

/-- Dense matrix (`Matrix`, `MatrixConstRef`), stored by rows. -/
structure Matrix where
  rows : Nat
  cols : Nat
  data : List (List Scalar)
deriving DecidableEq

/-- Coefficient `v[i]`. -/
def coeff (v : Vector) (i : Nat) : Scalar := v.getD i 0

/-- Coefficient `M(i, j)`. -/
def Matrix.coeff (M : Matrix) (i j : Nat) : Scalar := (M.data.getD i []).getD j 0

/-- Eigen `zeros(n)`. -/
def zeros (n : Nat) : Vector := List.replicate n 0

/-- Eigen `ones(n)`. -/
def ones (n : Nat) : Vector := List.replicate n 1

/-- View `v.head(k)`: the first `k` entries. -/
def head {α : Type} (v : List α) (k : Nat) : List α := v.take k

/-- View `v.tail(k)`: the last `k` entries. -/
def tail {α : Type} (v : List α) (k : Nat) : List α := v.drop (v.length - k)

/-- Indexed view `v(idx)` read as a value: `[v[idx[0]], v[idx[1]], …]`. -/
def select (v : Vector) (idx : Indices) : Vector := idx.map (coeff v)

/-- Indexed assignment `v(idx) = rhs` through an offset view: entry `k` of the
right-hand side is written to `v[off + idx[k]]`, in order, starting at `k`. -/
def assignFrom (v : Vector) (off : Nat) : Indices → Nat → (Nat → Scalar) → Vector
  | [], _, _ => v
  | i :: is, k, rhs => assignFrom (v.set (off + i) (rhs k)) off is (k + 1) rhs

/-- Indexed assignment `v(idx) = rhs`. -/
def assignIndexed (v : Vector) (idx : Indices) (rhs : Nat → Scalar) : Vector :=
  assignFrom v 0 idx 0 rhs

/-- Indexed fill `v(idx).fill(a)`. -/
def fillIndexed (v : Vector) (idx : Indices) (a : Scalar) : Vector :=
  assignFrom v 0 idx 0 (fun _ => a)

/-- Block assignment `v.segment(off, len) = rhs`. -/
def assignSegment (v : Vector) (off len : Nat) (rhs : Nat → Scalar) : Vector :=
  assignFrom v off (List.range len) 0 rhs

/-- Loop `for(Index i : idx) v[off + i] = f(v, i)` over an offset view. -/
def forEachIndex (v : Vector) (off : Nat) (idx : Indices) (f : Vector → Nat → Scalar) : Vector :=
  idx.foldl (fun acc i => acc.set (off + i) (f acc i)) v

/-- Product `M * v`. -/
def mulVec (M : Matrix) (v : Vector) : Vector :=
  (List.range M.rows).map (fun i => ((List.range M.cols).map (fun j => M.coeff i j * coeff v j)).sum)

/-- Product `tr(M) * v`. -/
def trMulVec (M : Matrix) (v : Vector) : Vector :=
  (List.range M.cols).map (fun j => ((List.range M.rows).map (fun i => M.coeff i j * coeff v i)).sum)

/-- Modelled from the spec: `indices(n)` of `Optima/IndexUtils.hpp`, which is not among the
sources; §3 describes `jsu` as the ordered index vector of length `n` over `{0…n−1}`. -/
def indices (n : Nat) : Indices := List.range n

/-- Modelled from the spec: `moveRightIf(base, pred)` of `Optima/IndexUtils.hpp`, which is
not among the sources; §4.4 has it partition the index vector stably, pushing the entries
that satisfy the predicate to the tail.  Returns the reordered vector and the position of
the first moved entry. -/
def moveRightIf (base : Indices) (pred : Nat → Bool) : Indices × Nat :=
  (base.filter (fun i => !pred i) ++ base.filter pred, (base.filter (fun i => !pred i)).length)

/-! ## Stability2 -/

/-- Arguments of `Stability2::update`; the canonical form `(R, Sbn, Sbp, jb, jn)` of the
Jacobian block `W` is supplied with them. -/
structure StabilityUpdateArgs where
  R : Matrix
  Sbn : Matrix
  Sbp : Matrix
  jb : Indices
  jn : Indices
  x : Vector
  g : Vector
  xlower : Vector
  xupper : Vector

/-- State of a `Stability2` object. -/
structure Stability2 where
  jsu : Indices
  ns : Nat
  nlu : Nat
  nuu : Nat
  s : Vector
  lambda : Vector
deriving DecidableEq

/-- Result of `Stability2::status`. -/
structure StabilityStatus where
  js : Indices
  ju : Indices
  jlu : Indices
  juu : Indices
  s : Vector
  lambda : Vector
deriving DecidableEq

/-- Constructor `Stability2::Stability2(Index nx)`. -/
def Stability2.new (nx : Nat) : Stability2 :=
  { jsu := indices nx, ns := nx, nlu := 0, nuu := 0, s := zeros nx, lambda := [] }

/-- The instability vector `s` written by `Stability2::update`. -/
def Stability2.updateS (self : Stability2) (args : StabilityUpdateArgs) : Vector :=
  let gb := select args.g args.jb
  let gn := select args.g args.jn
  let s1 := assignIndexed self.s args.jn (fun k => coeff gn k - coeff (trMulVec args.Sbn gb) k)
  fillIndexed s1 args.jb 0

/-- Lambda `is_lower_unstable` of `Stability2::update`. -/
def is_lower_unstable (args : StabilityUpdateArgs) (s : Vector) (i : Nat) : Bool :=
  decide (coeff args.x i = coeff args.xlower i) && decide (coeff s i > 0)

/-- Lambda `is_upper_unstable` of `Stability2::update`. -/
def is_upper_unstable (args : StabilityUpdateArgs) (s : Vector) (i : Nat) : Bool :=
  decide (coeff args.x i = coeff args.xupper i) && decide (coeff s i < 0)

/-- Method `Stability2::update`. -/
def Stability2.update (self : Stability2) (args : StabilityUpdateArgs) : Stability2 :=
  let gb := select args.g args.jb
  let lambda := trMulVec args.R gb
  let s := self.updateS args
  let nx := self.jsu.length
  let m1 := moveRightIf self.jsu (is_upper_unstable args s)
  let pos1 := m1.2
  let m2 := moveRightIf (head m1.1 pos1) (is_lower_unstable args s)
  let pos2 := m2.2
  { jsu := m2.1 ++ m1.1.drop pos1
    ns := pos2
    nuu := nx - pos1
    nlu := pos1 - pos2
    s := s
    lambda := lambda }

/-- Method `Stability2::status`. -/
def Stability2.status (self : Stability2) : StabilityStatus :=
  let js := head self.jsu self.ns
  let ju := tail self.jsu (self.nlu + self.nuu)
  let jlu := head ju self.nlu
  let juu := tail ju self.nuu
  { js := js, ju := ju, jlu := jlu, juu := juu, s := self.s, lambda := self.lambda }

/-- States reached from `Stability2(nx)` by any sequence of `update` calls. -/
inductive Stability2.Reachable (nx : Nat) : Stability2 → Prop
  | new : Reachable nx (Stability2.new nx)
  | update (st : Stability2) (args : StabilityUpdateArgs) :
      Reachable nx st → Reachable nx (st.update args)

/-! ## Stepper -/

/-- Enumeration `SaddlePointMethod`. -/
inductive SaddlePointMethod where
  | PartialPivLU
  | FullPivLU
  | Nullspace
  | RangespaceDiagonal
deriving DecidableEq, Repr

/-- Record `SaddlePointOptions` with its default member initialisers. -/
structure SaddlePointOptions where
  method : SaddlePointMethod := SaddlePointMethod.PartialPivLU
  rationalize : Bool := false
deriving DecidableEq, Repr

/-- The members of `Options` used by the stepper: the perturbation `mu` and the
saddle-point options `kkt`. -/
structure Options where
  mu : Scalar
  kkt : SaddlePointOptions := {}
deriving DecidableEq

/-- The accessors of `Constraints` called by the stepper, as the values they return. -/
structure Constraints where
  numVariables : Nat
  numLinearEqualityConstraints : Nat
  equalityConstraintMatrix : Matrix
  variablesWithLowerBounds : Indices
  variablesWithUpperBounds : Indices
  variablesWithFixedValues : Indices
deriving DecidableEq

/-- Every index handed out by the constraints is a variable index. -/
def Constraints.indicesInRange (c : Constraints) : Prop :=
  (∀ i ∈ c.variablesWithLowerBounds, i < c.numVariables) ∧
  (∀ i ∈ c.variablesWithUpperBounds, i < c.numVariables) ∧
  (∀ i ∈ c.variablesWithFixedValues, i < c.numVariables)

instance (c : Constraints) : Decidable c.indicesInRange := by
  unfold Constraints.indicesInRange; infer_instance

/-- Record `StepperProblem`; `xlower` and `xupper` list the bounds of the variables with
lower and upper bounds, in the order of the corresponding index vectors. -/
structure StepperProblem where
  x : Vector
  y : Vector
  z : Vector
  w : Vector
  g : Vector
  H : Matrix
  b : Vector
  xlower : Vector
  xupper : Vector

/-- Record `IpSaddlePointMatrix` as assembled by the stepper. -/
structure IpSaddlePointMatrix where
  H : Matrix
  A : Matrix
  Z : Vector
  W : Vector
  L : Vector
  U : Vector
  ifixed : Indices

/-- Interface of `IpSaddlePointSolver` over a solver state `σ`: the default-constructed
solver and its methods as called by the stepper (`setup` is the method `initialize`).
`solve` receives the right-hand side `(r, n, m)`, which it only reads, and the current
solution storage `s`, and returns the new storage. -/
structure IpSaddlePointSolver (σ : Type) where
  default : σ
  setOptions : σ → SaddlePointOptions → σ
  setup : σ → Matrix → σ
  decompose : σ → IpSaddlePointMatrix → σ
  solve : σ → Vector → Nat → Nat → Vector → σ × Vector

/-- State of `Stepper::Impl`. -/
structure Stepper (σ : Type) where
  constraints : Constraints
  options : Options
  s : Vector
  r : Vector
  Z : Vector
  W : Vector
  L : Vector
  U : Vector
  n : Nat
  nx : Nat
  nf : Nat
  m : Nat
  t : Nat
  solver : σ

variable {σ : Type}

/-- Constructor `Stepper::Impl::Impl(const Constraints&)`; `options` is the
default-constructed `Options` member. -/
def Stepper.new (slv : IpSaddlePointSolver σ) (options : Options) (constraints : Constraints) :
    Stepper σ :=
  let n := constraints.numVariables
  let m := constraints.numLinearEqualityConstraints
  let nf := constraints.variablesWithFixedValues.length
  let nx := n - nf
  let t := 3 * n + m
  let A := constraints.equalityConstraintMatrix
  { constraints := constraints
    options := options
    n := n, m := m, nf := nf, nx := nx, t := t
    Z := zeros n
    W := zeros n
    L := ones n
    U := ones n
    r := zeros t
    s := zeros t
    solver := slv.setup slv.default A }

/-- Method `Stepper::setOptions`. -/
def Stepper.setOptions (slv : IpSaddlePointSolver σ) (self : Stepper σ) (options : Options) :
    Stepper σ :=
  { self with options := options, solver := slv.setOptions self.solver options.kkt }

/-- The update `L[i] > 0.0 ? L[i] : mu` of the loop over the lower-bounded variables. -/
def clampLower (mu a : Scalar) : Scalar := if a > 0 then a else mu

/-- The update `U[i] < 0.0 ? U[i] : -mu` of the loop over the upper-bounded variables. -/
def clampUpper (mu a : Scalar) : Scalar := if a < 0 then a else -mu

/-- Method `Stepper::Impl::decompose`. -/
def Stepper.decompose (slv : IpSaddlePointSolver σ) (self : Stepper σ)
    (problem : StepperProblem) : Stepper σ :=
  let x := problem.x
  let z := problem.z
  let w := problem.w
  let H := problem.H
  let xlower := problem.xlower
  let xupper := problem.xupper
  let ilower := self.constraints.variablesWithLowerBounds
  let iupper := self.constraints.variablesWithUpperBounds
  let ifixed := self.constraints.variablesWithFixedValues
  let Z := assignIndexed self.Z ilower (fun k => coeff (select z ilower) k)
  let L := assignIndexed self.L ilower (fun k => coeff (select x ilower) k - coeff xlower k)
  let W := assignIndexed self.W iupper (fun k => coeff (select w iupper) k)
  let U := assignIndexed self.U iupper (fun k => coeff (select x iupper) k - coeff xupper k)
  let L := forEachIndex L 0 ilower (fun L i => clampLower self.options.mu (coeff L i))
  let U := forEachIndex U 0 iupper (fun U i => clampUpper self.options.mu (coeff U i))
  let A := self.constraints.equalityConstraintMatrix
  let spm : IpSaddlePointMatrix :=
    { H := H, A := A, Z := Z, W := W, L := L, U := U, ifixed := ifixed }
  { self with Z := Z, W := W, L := L, U := U, solver := slv.decompose self.solver spm }

/-- The residual vector `r = [a b c d]` written by `Stepper::Impl::solve`. -/
def Stepper.solveR (self : Stepper σ) (problem : StepperProblem) : Vector :=
  let x := problem.x
  let y := problem.y
  let z := problem.z
  let w := problem.w
  let g := problem.g
  let A := self.constraints.equalityConstraintMatrix
  let ilower := self.constraints.variablesWithLowerBounds
  let iupper := self.constraints.variablesWithUpperBounds
  let ifixed := self.constraints.variablesWithFixedValues
  let n := self.n
  let m := self.m
  -- a = r.head(n), b = r.segment(n, m), c = r.segment(n + m, n), d = r.tail(n)
  let r := assignSegment self.r 0 n
    (fun i => -(coeff g i + coeff (trMulVec A y) i - coeff z i - coeff w i))
  let r := assignFrom r 0 ifixed 0 (fun _ => 0)
  let r := assignSegment r n m (fun i => -(coeff (mulVec A x) i - coeff problem.b i))
  let r := forEachIndex r (n + m) ilower
    (fun _ i => self.options.mu - coeff self.L i * coeff z i)
  forEachIndex r (r.length - n) iupper
    (fun _ i => self.options.mu - coeff self.U i * coeff w i)

/-- Method `Stepper::Impl::solve`. -/
def Stepper.solve (slv : IpSaddlePointSolver σ) (self : Stepper σ)
    (problem : StepperProblem) : Stepper σ :=
  let r := self.solveR problem
  let sol := slv.solve self.solver r self.n self.m self.s
  { self with r := r, s := sol.2, solver := sol.1 }

/-- Method `Stepper::Impl::step`: the vector `s` with its dimensions `(s, n, m)`. -/
def Stepper.step (self : Stepper σ) : Vector × Nat × Nat := (self.s, self.n, self.m)

/-- Method `Stepper::Impl::residual`: the vector `r` with its dimensions `(r, n, m)`. -/
def Stepper.residual (self : Stepper σ) : Vector × Nat × Nat := (self.r, self.n, self.m)

/-- Blocks of the residual vector: `a = r.head(n)`. -/
def Stepper.a (self : Stepper σ) (i : Nat) : Scalar := coeff self.r i

/-- Blocks of the residual vector: `b = r.segment(n, m)`. -/
def Stepper.b (self : Stepper σ) (i : Nat) : Scalar := coeff self.r (self.n + i)

/-- Blocks of the residual vector: `c = r.segment(n + m, n)`. -/
def Stepper.c (self : Stepper σ) (i : Nat) : Scalar := coeff self.r (self.n + self.m + i)

/-- Blocks of the residual vector: `d = r.tail(n)`. -/
def Stepper.d (self : Stepper σ) (i : Nat) : Scalar := coeff self.r (self.r.length - self.n + i)

/-- States reached from `Stepper(constraints)` by any sequence of `setOptions`, `decompose`
and `solve` calls whose options satisfy `P`; the flag records whether `decompose` has been
called. -/
inductive Stepper.Reachable (slv : IpSaddlePointSolver σ) (P : Options → Prop)
    (c : Constraints) : Stepper σ → Bool → Prop
  | new (o : Options) : P o → Reachable slv P c (Stepper.new slv o c) false
  | setOptions (st : Stepper σ) (ready : Bool) (o : Options) :
      P o → Reachable slv P c st ready → Reachable slv P c (st.setOptions slv o) ready
  | decompose (st : Stepper σ) (ready : Bool) (p : StepperProblem) :
      Reachable slv P c st ready → Reachable slv P c (st.decompose slv p) true
  | solve (st : Stepper σ) (ready : Bool) (p : StepperProblem) :
      Reachable slv P c st ready → Reachable slv P c (st.solve slv p) ready

/-- A solver that does nothing, for evaluating the stepper on concrete inputs. -/
def idleSolver : IpSaddlePointSolver Unit :=
  { default := (), setOptions := fun _ _ => (), setup := fun _ _ => ()
    decompose := fun _ _ => (), solve := fun _ _ _ _ s => ((), s) }

/-- Method `Stepper::Impl::matrix`. -/
def Stepper.matrix (self : Stepper σ) (problem : StepperProblem) : IpSaddlePointMatrix :=
  let H := problem.H
  let ifixed := self.constraints.variablesWithFixedValues
  let A := self.constraints.equalityConstraintMatrix
  { H := H, A := A, Z := self.Z, W := self.W, L := self.L, U := self.U, ifixed := ifixed }

/-- Blocks of the step vector `s = [dx dy dz dw]`: entry `i` of `dx`. -/
def Stepper.dx (self : Stepper σ) (i : Nat) : Scalar := coeff self.s i

/-- Blocks of the step vector `s = [dx dy dz dw]`: entry `i` of `dy`. -/
def Stepper.dy (self : Stepper σ) (i : Nat) : Scalar := coeff self.s (self.n + i)

/-- Blocks of the step vector `s = [dx dy dz dw]`: entry `i` of `dz`. -/
def Stepper.dz (self : Stepper σ) (i : Nat) : Scalar := coeff self.s (self.n + self.m + i)

/-- Blocks of the step vector `s = [dx dy dz dw]`: entry `i` of `dw`. -/
def Stepper.dw (self : Stepper σ) (i : Nat) : Scalar :=
  coeff self.s (2 * self.n + self.m + i)

/-- The saddle-point solver honours its fixed-variable mask: once decomposed with a matrix
whose fixed variables are `ifixed`, `solve` returns `x[i] = a[i]` on every fixed variable. -/
def IpSaddlePointSolver.HonoursFixedMask (slv : IpSaddlePointSolver σ) : Prop :=
  ∀ (st : σ) (M : IpSaddlePointMatrix) (r s : Vector) (n m i : Nat),
    i ∈ M.ifixed → i < n → coeff (slv.solve (slv.decompose st M) r n m s).2 i = coeff r i

/-- A solver of the identity system: it returns the right-hand side as the solution. -/
def echoSolver : IpSaddlePointSolver Unit :=
  { default := (), setOptions := fun _ _ => (), setup := fun _ _ => ()
    decompose := fun _ _ => (), solve := fun _ r _ _ _ => ((), r) }

/-- Block view `v.segment(off, len)` read as a value. -/
def segment (v : Vector) (off len : Nat) : Vector := (v.drop off).take len

/-- Modelled from the spec: the linear system that an `IpSaddlePointMatrix` stands for
(`Optima/IpSaddlePointMatrix.hpp` and the solver are not among the sources).  §4.3 gives the
block rows `[H Aᵀ −I −I]`, `[A 0 0 0]`, `[Z 0 L 0]`, `[W 0 0 U]` acting on `[Δx Δy Δz Δw]`,
and §3 replaces the rows and columns of the fixed variables in the first block by an
identity block.  `s` solves the system with right-hand side `r = [a b c d]`. -/
def IpSaddlePointMatrix.Solves (M : IpSaddlePointMatrix) (n m : Nat) (r s : Vector) : Prop :=
  (∀ i, i < n → i ∉ M.ifixed →
    coeff (mulVec M.H (fillIndexed (head s n) M.ifixed 0)) i
      + coeff (trMulVec M.A (segment s n m)) i
      - coeff s (n + m + i) - coeff s (2 * n + m + i) = coeff r i) ∧
  (∀ i, i < n → i ∈ M.ifixed → coeff s i = coeff r i) ∧
  (∀ k, k < m → coeff (mulVec M.A (head s n)) k = coeff r (n + k)) ∧
  (∀ i, i < n →
    coeff M.Z i * coeff s i + coeff M.L i * coeff s (n + m + i) = coeff r (n + m + i)) ∧
  (∀ i, i < n →
    coeff M.W i * coeff s i + coeff M.U i * coeff s (2 * n + m + i)
      = coeff r (2 * n + m + i))

instance (M : IpSaddlePointMatrix) (n m : Nat) (r s : Vector) : Decidable (M.Solves n m r s) := by
  unfold IpSaddlePointMatrix.Solves; infer_instance

/-- The map `G` overwrites entries of the vectors of length `len` with values that do not
depend on the vector it is applied to, and keeps their length: `table j` is the value
written at `j`, if any. -/
def Overlay (len : Nat) (G : Vector → Vector) : Prop :=
  ∃ table : Nat → Option Scalar, ∀ v : Vector, v.length = len →
    (G v).length = len ∧ ∀ j, j < len → coeff (G v) j = (table j).getD (coeff v j)

/-! ## Coefficient-wise and matrix operations (`Optima/Math/Matrix.hpp`, Eigen) -/

/-- Vector of length `n` with coefficients `f 0, …, f (n-1)`. -/
def vecOfFn (n : Nat) (f : Nat → Scalar) : Vector := (List.range n).map f

/-- Matrix of size `r × c` with coefficients `f i j`. -/
def matOfFn (r c : Nat) (f : Nat → Nat → Scalar) : Matrix :=
  { rows := r, cols := c, data := (List.range r).map (fun i => (List.range c).map (f i)) }

/-- A default-constructed (unassigned) matrix. -/
def Matrix.empty : Matrix := { rows := 0, cols := 0, data := [] }

/-- Difference `a - b` of vectors. -/
def vsub (a b : Vector) : Vector := vecOfFn a.length (fun i => coeff a i - coeff b i)

/-- Sum `a + b` of vectors. -/
def vadd (a b : Vector) : Vector := vecOfFn a.length (fun i => coeff a i + coeff b i)

/-- Opposite `-a` of a vector. -/
def vneg (a : Vector) : Vector := vecOfFn a.length (fun i => -coeff a i)

/-- Coefficient-wise product `a % b`. -/
def cwiseMul (a b : Vector) : Vector := vecOfFn a.length (fun i => coeff a i * coeff b i)

/-- Coefficient-wise quotient `a / b`. -/
def cwiseDiv (a b : Vector) : Vector := vecOfFn a.length (fun i => coeff a i / coeff b i)

/-- Coefficient-wise inverse `inv(a)`. -/
def cwiseInv (a : Vector) : Vector := vecOfFn a.length (fun i => 1 / coeff a i)

/-- Diagonal matrix `diag(v)`. -/
def diag (v : Vector) : Matrix :=
  matOfFn v.length v.length (fun i j => if i = j then coeff v i else 0)

/-- Transpose `tr(M)`. -/
def tr (M : Matrix) : Matrix := matOfFn M.cols M.rows (fun i j => M.coeff j i)

/-- Product `A * B` of matrices. -/
def Matrix.mul (A B : Matrix) : Matrix :=
  matOfFn A.rows B.cols
    (fun i j => ((List.range A.cols).map (fun k => A.coeff i k * B.coeff k j)).sum)

/-- Difference `A - B` of matrices. -/
def Matrix.sub (A B : Matrix) : Matrix :=
  matOfFn A.rows A.cols (fun i j => A.coeff i j - B.coeff i j)

/-- The square system `M·y = r` has a solution for every right-hand side `r`. -/
def Matrix.Nonsingular (M : Matrix) : Prop :=
  M.rows = M.cols ∧
    ∀ r : Vector, r.length = M.rows → ∃ y : Vector, y.length = M.cols ∧ mulVec M y = r

/-- The linear solve `M.lu().solve(r)` of Eigen, passed as `lu`, is exact on the nonsingular
systems of size `n`. -/
def LuSolves (lu : Matrix → Vector → Vector) (n : Nat) : Prop :=
  ∀ (M : Matrix) (r : Vector), M.rows = n → M.cols = n → M.Nonsingular → r.length = n →
    (lu M r).length = n ∧ mulVec M (lu M r) = r

/-- A linear solve for systems of size one: `y = r₀ / M₀₀`. -/
def luSolve1 (M : Matrix) (r : Vector) : Vector := [coeff r 0 / M.coeff 0 0]

/-! ## The canonical saddle-point solver (`Optima/Core/SaddlePointSolver.cpp`) -/

/-- Left-hand side of the canonical problem, `problem.lhs`: the diagonals `G`, `E` and the
matrix `B = [diag(Bb) Bs Bu]`, split into the ranges `b`, `s`, `u`. -/
structure SaddlePointMatrixCanonical where
  Gb : Vector
  Gs : Vector
  Gu : Vector
  Bb : Vector
  Bs : Matrix
  Bu : Matrix
  Eb : Vector
  Es : Vector
  Eu : Vector

/-- Right-hand side of the canonical problem, `problem.rhs`. -/
structure SaddlePointRhsCanonical where
  ab : Vector
  as : Vector
  au : Vector
  b : Vector
  cb : Vector
  cs : Vector
  cu : Vector

/-- Record `SaddlePointProblemCanonical`. -/
structure SaddlePointProblemCanonical where
  lhs : SaddlePointMatrixCanonical
  rhs : SaddlePointRhsCanonical

/-- Record `SaddlePointVectorCanonical`, the solution written by `solver`. -/
structure SaddlePointVectorCanonical where
  xb : Vector
  xs : Vector
  xu : Vector
  y : Vector
  zb : Vector
  zs : Vector
  zu : Vector
deriving DecidableEq

/-- Local `nb = Gb.rows()` of `solver`. -/
def SaddlePointProblemCanonical.nb (P : SaddlePointProblemCanonical) : Nat := P.lhs.Gb.length

/-- Local `ns = Gs.rows()` of `solver`. -/
def SaddlePointProblemCanonical.ns (P : SaddlePointProblemCanonical) : Nat := P.lhs.Gs.length

/-- Local `nu = Gu.rows()` of `solver`. -/
def SaddlePointProblemCanonical.nu (P : SaddlePointProblemCanonical) : Nat := P.lhs.Gu.length

/-- Local `Lb`: `if(nb) Lb = (Gb - Eb)/Bb`. -/
def solver.Lb (P : SaddlePointProblemCanonical) : Vector :=
  if P.nb ≠ 0 then cwiseDiv (vsub P.lhs.Gb P.lhs.Eb) P.lhs.Bb else []

/-- Local `Ts`: `if(ns) Ts = diag(-Lb) * Bs`. -/
def solver.Ts (P : SaddlePointProblemCanonical) : Matrix :=
  if P.ns ≠ 0 then (diag (vneg (solver.Lb P))).mul P.lhs.Bs else Matrix.empty

/-- Local `Tu`: `if(nu) Tu = diag(Lb) * Bu`. -/
def solver.Tu (P : SaddlePointProblemCanonical) : Matrix :=
  if P.nu ≠ 0 then (diag (solver.Lb P)).mul P.lhs.Bu else Matrix.empty

/-- Local `Ls`: `if(ns) Ls = Ts * diag(inv(Gs - Es))`. -/
def solver.Ls (P : SaddlePointProblemCanonical) : Matrix :=
  if P.ns ≠ 0 then (solver.Ts P).mul (diag (cwiseInv (vsub P.lhs.Gs P.lhs.Es)))
  else Matrix.empty

/-- Local `Tb`: `if(nb) Tb = diag(Bb); if(ns) Tb -= Ls * tr(Bs)`. -/
def solver.Tb (P : SaddlePointProblemCanonical) : Matrix :=
  let Tb := if P.nb ≠ 0 then diag P.lhs.Bb else Matrix.empty
  if P.ns ≠ 0 then Tb.sub ((solver.Ls P).mul (tr P.lhs.Bs)) else Tb

/-- Local `Lu`: `if(nu) Lu = Tu * diag(inv(Eu - Gu))`. -/
def solver.Lu (P : SaddlePointProblemCanonical) : Matrix :=
  if P.nu ≠ 0 then (solver.Tu P).mul (diag (cwiseInv (vsub P.lhs.Eu P.lhs.Gu)))
  else Matrix.empty

/-- Local `Ub`: `if(nb) Ub = Tb; if(nu) Ub -= Lu * tr(Bu)`. -/
def solver.Ub (P : SaddlePointProblemCanonical) : Matrix :=
  let Ub := if P.nb ≠ 0 then solver.Tb P else Matrix.empty
  if P.nu ≠ 0 then Ub.sub ((solver.Lu P).mul (tr P.lhs.Bu)) else Ub

/-- Local `ub`: `if(nb) ub = b; if(nu) ub -= Bu * (cu/Eu)`. -/
def solver.ub (P : SaddlePointProblemCanonical) : Vector :=
  let ub := if P.nb ≠ 0 then P.rhs.b else []
  if P.nu ≠ 0 then vsub ub (mulVec P.lhs.Bu (cwiseDiv P.rhs.cu P.lhs.Eu)) else ub

/-- Local `us`: `if(ns) us = as - cs`. -/
def solver.us (P : SaddlePointProblemCanonical) : Vector :=
  if P.ns ≠ 0 then vsub P.rhs.as P.rhs.cs else []

/-- Local `uu`: `if(nu) uu = au - Gu % (cu/Eu)`. -/
def solver.uu (P : SaddlePointProblemCanonical) : Vector :=
  if P.nu ≠ 0 then vsub P.rhs.au (cwiseMul P.lhs.Gu (cwiseDiv P.rhs.cu P.lhs.Eu)) else []

/-- Local `vb`: `if(nb) vb = ab - cb`. -/
def solver.vb (P : SaddlePointProblemCanonical) : Vector :=
  if P.nb ≠ 0 then vsub P.rhs.ab P.rhs.cb else []

/-- Local `r`: `if(nb) r = vb - Lb%ub; if(ns) r -= Ls*us; if(nu) r -= Lu*uu`. -/
def solver.r (P : SaddlePointProblemCanonical) : Vector :=
  let r := if P.nb ≠ 0 then vsub (solver.vb P) (cwiseMul (solver.Lb P) (solver.ub P)) else []
  let r := if P.ns ≠ 0 then vsub r (mulVec (solver.Ls P) (solver.us P)) else r
  if P.nu ≠ 0 then vsub r (mulVec (solver.Lu P) (solver.uu P)) else r

/-- Function `solver(problem, solution)`: the solution record after the call; `lu M r` stands
for `M.lu().solve(r)`. -/
def solver (lu : Matrix → Vector → Vector) (P : SaddlePointProblemCanonical)
    (solution : SaddlePointVectorCanonical) : SaddlePointVectorCanonical :=
  let nb := P.nb
  let ns := P.ns
  let nu := P.nu
  let y := if nb ≠ 0 then lu (solver.Ub P) (solver.r P) else solution.y
  let zu := if nu ≠ 0
    then cwiseDiv (vsub (solver.uu P) (trMulVec P.lhs.Bu y)) (vsub P.lhs.Eu P.lhs.Gu)
    else solution.zu
  let xs := if ns ≠ 0
    then cwiseDiv (vsub (solver.us P) (trMulVec P.lhs.Bs y)) (vsub P.lhs.Gs P.lhs.Es)
    else solution.xs
  let xb := if nb ≠ 0 then solver.ub P else solution.xb
  let xb := if ns ≠ 0 then vsub xb (mulVec P.lhs.Bs xs) else xb
  let xb := if nu ≠ 0 then vadd xb (mulVec P.lhs.Bu zu) else xb
  let xb := if nb ≠ 0 then cwiseDiv xb P.lhs.Bb else xb
  let zb := if nb ≠ 0 then vsub (cwiseDiv P.rhs.cb P.lhs.Eb) xb else solution.zb
  let zs := if ns ≠ 0 then vsub (cwiseDiv P.rhs.cs P.lhs.Es) xs else solution.zs
  let xu := if nu ≠ 0 then vsub (cwiseDiv P.rhs.cu P.lhs.Eu) zu else solution.xu
  { xb := xb, xs := xs, xu := xu, y := y, zb := zb, zs := zs, zu := zu }

/-- The dimensions of a canonical problem agree: every `b`-block has `nb` entries, every
`s`-block `ns`, every `u`-block `nu`, and `Bs`, `Bu` are `nb × ns` and `nb × nu`. -/
def SaddlePointProblemCanonical.WellFormed (P : SaddlePointProblemCanonical) : Prop :=
  P.lhs.Bb.length = P.nb ∧ P.lhs.Eb.length = P.nb ∧
  P.lhs.Es.length = P.ns ∧ P.lhs.Eu.length = P.nu ∧
  P.lhs.Bs.rows = P.nb ∧ P.lhs.Bs.cols = P.ns ∧
  P.lhs.Bu.rows = P.nb ∧ P.lhs.Bu.cols = P.nu ∧
  P.rhs.ab.length = P.nb ∧ P.rhs.b.length = P.nb ∧ P.rhs.cb.length = P.nb ∧
  P.rhs.as.length = P.ns ∧ P.rhs.cs.length = P.ns ∧
  P.rhs.au.length = P.nu ∧ P.rhs.cu.length = P.nu

instance (P : SaddlePointProblemCanonical) : Decidable P.WellFormed := by
  unfold SaddlePointProblemCanonical.WellFormed; infer_instance

/-! ## The reduced system of the canonical solver, as the specification writes it -/

/-- Spec §4.2, `Lb = (Gb − Eb)/Bb`: entry `i`. -/
def specLb (P : SaddlePointProblemCanonical) (i : Nat) : Scalar :=
  (coeff P.lhs.Gb i - coeff P.lhs.Eb i) / coeff P.lhs.Bb i

/-- Spec §4.2, `Ts = diag(−Lb)·Bs`: entry `(i, k)`. -/
def specTs (P : SaddlePointProblemCanonical) (i k : Nat) : Scalar :=
  -(specLb P i) * P.lhs.Bs.coeff i k

/-- Spec §4.2, `Tu = diag(Lb)·Bu`: entry `(i, k)`. -/
def specTu (P : SaddlePointProblemCanonical) (i k : Nat) : Scalar :=
  specLb P i * P.lhs.Bu.coeff i k

/-- Spec §4.2, `Ls = Ts·diag(1/(Gs − Es))`: entry `(i, k)`. -/
def specLs (P : SaddlePointProblemCanonical) (i k : Nat) : Scalar :=
  specTs P i k * (1 / (coeff P.lhs.Gs k - coeff P.lhs.Es k))

/-- Spec §4.2, `Lu = Tu·diag(1/(Eu − Gu))`: entry `(i, k)`. -/
def specLu (P : SaddlePointProblemCanonical) (i k : Nat) : Scalar :=
  specTu P i k * (1 / (coeff P.lhs.Eu k - coeff P.lhs.Gu k))

/-- Spec §4.2, `Ub = diag(Bb) − Ls·Bsᵀ − Lu·Buᵀ`. -/
def specUb (P : SaddlePointProblemCanonical) : Matrix :=
  matOfFn P.nb P.nb (fun i j =>
    (if i = j then coeff P.lhs.Bb i else 0)
      - (∑ k in Finset.range P.ns, specLs P i k * P.lhs.Bs.coeff j k)
      - (∑ k in Finset.range P.nu, specLu P i k * P.lhs.Bu.coeff j k))

/-- Claim C15, `ub = b − Bu·(cu/Eu)`: entry `i`. -/
def specub (P : SaddlePointProblemCanonical) (i : Nat) : Scalar :=
  coeff P.rhs.b i
    - ∑ k in Finset.range P.nu, P.lhs.Bu.coeff i k * (coeff P.rhs.cu k / coeff P.lhs.Eu k)

/-- Claim C15, `us = as − cs`: entry `k`. -/
def specus (P : SaddlePointProblemCanonical) (k : Nat) : Scalar :=
  coeff P.rhs.as k - coeff P.rhs.cs k

/-- Claim C15, `uu = au − Gu∘(cu/Eu)`: entry `k`. -/
def specuu (P : SaddlePointProblemCanonical) (k : Nat) : Scalar :=
  coeff P.rhs.au k - coeff P.lhs.Gu k * (coeff P.rhs.cu k / coeff P.lhs.Eu k)

/-- Claim C15, `vb = ab − cb`: entry `i`. -/
def specvb (P : SaddlePointProblemCanonical) (i : Nat) : Scalar :=
  coeff P.rhs.ab i - coeff P.rhs.cb i

/-- Spec §4.2, the right-hand side `vb − Lb∘ub − Ls·us − Lu·uu` of the reduced system. -/
def specRhs (P : SaddlePointProblemCanonical) : Vector :=
  vecOfFn P.nb (fun i =>
    specvb P i - specLb P i * specub P i
      - (∑ k in Finset.range P.ns, specLs P i k * specus P k)
      - (∑ k in Finset.range P.nu, specLu P i k * specuu P k))

/-! ## Structure (`Optima/Structure.cpp`) -/

/-- Modelled from the spec: the macro `Assert(condition, message, reason)` of
`Optima/Exception.hpp`, which is not among the sources; §7 makes a dimension mismatch fatal
("abort with diagnostic"), so a failed assertion ends the call with the diagnostic. -/
def Assert (condition : Bool) (message reason : String) : Except String Unit :=
  if condition then Except.ok () else Except.error (message ++ " " ++ reason)

/-- State of a `Structure` object (the objective function member is left out). -/
structure Structure where
  n : Nat
  nlower : Nat
  nupper : Nat
  nfixed : Nat
  lowerpartition : Indices
  upperpartition : Indices
  fixedpartition : Indices
  Ae : Matrix
  Ai : Matrix
deriving DecidableEq

/-- Constructor `Structure::Structure(Index n)`. -/
def Structure.new (n : Nat) : Structure :=
  { n := n, nlower := 0, nupper := 0, nfixed := 0
    lowerpartition := indices n
    upperpartition := indices n
    fixedpartition := indices n
    Ae := Matrix.empty, Ai := Matrix.empty }

/-- Method `Structure::setEqualityConstraintMatrix`. -/
def Structure.setEqualityConstraintMatrix (self : Structure) (Ae_ : Matrix) :
    Except String Structure := do
  Assert (Ae_.cols == self.n) "Could not set the equality constraint matrix."
    "Mismatch number of columns and number of variables."
  Assert (decide (Ae_.rows ≤ self.n)) "Could not set the equality constraint matrix."
    "More linear equality constraints than number of variables."
  pure { self with Ae := Ae_ }

/-- Method `Structure::setInequalityConstraintMatrix`. -/
def Structure.setInequalityConstraintMatrix (self : Structure) (Ai_ : Matrix) :
    Except String Structure := do
  Assert (Ai_.cols == self.n) "Could not set the inequality constraint matrix."
    "Mismatch number of columns and number of variables."
  Assert (decide (Ai_.rows ≤ self.n)) "Could not set the inequality constraint matrix."
    "More linear inequality constraints than number of variables."
  pure { self with Ai := Ai_ }

/-- Method `Structure::numVariables`. -/
def Structure.numVariables (self : Structure) : Nat := self.n

/-- Method `Structure::numEqualityConstraints`. -/
def Structure.numEqualityConstraints (self : Structure) : Nat := self.Ae.rows

/-- Method `Structure::numInequalityConstraints`. -/
def Structure.numInequalityConstraints (self : Structure) : Nat := self.Ai.rows

/-- Method `Structure::equalityConstraintMatrix`. -/
def Structure.equalityConstraintMatrix (self : Structure) : Matrix := self.Ae

/-- Method `Structure::inequalityConstraintMatrix`. -/
def Structure.inequalityConstraintMatrix (self : Structure) : Matrix := self.Ai

/-- The call ended in a failed assertion. -/
def Except.failed {α : Type} (r : Except String α) : Prop :=
  match r with
  | Except.error _ => True
  | Except.ok _ => False

/-! ## Saddle-point matrix and solver (`Optima/SaddlePointMatrix.hpp`, spec §4.2) -/

/-- Class `SaddlePointMatrix` (`Optima/SaddlePointMatrix.hpp`): the blocks `H`, `A`, `G` and
the numbers `nx`, `nf` of free and fixed variables.  The class records the fixed variables by
their number only: in the layout `[xx; xf; y]` of the header comment they are the last `nf`
variables. -/
structure SaddlePointMatrix where
  H : Matrix
  A : Matrix
  G : Matrix
  nx : Nat
  nf : Nat

/-- Number of variables `n = nx + nf`. -/
def SaddlePointMatrix.n (M : SaddlePointMatrix) : Nat := M.nx + M.nf

/-- Number of constraints `m`, the number of rows of `A`. -/
def SaddlePointMatrix.m (M : SaddlePointMatrix) : Nat := M.A.rows

/-- Modelled from the spec: the conversion `operator MatrixXd` of `SaddlePointMatrix`, which
is only declared in the header.  §3 and the header comment give the dense matrix
`[[Hx 0 Axᵀ]; [0 I 0]; [Ax Af G]]`: the rows and columns of the fixed variables are replaced
by an identity block. -/
def SaddlePointMatrix.array (M : SaddlePointMatrix) : Matrix :=
  matOfFn (M.n + M.m) (M.n + M.m) (fun i j =>
    if i < M.nx then
      (if j < M.nx then M.H.coeff i j else if j < M.n then 0 else M.A.coeff (j - M.n) i)
    else if i < M.n then (if j = i then 1 else 0)
    else (if j < M.n then M.A.coeff (i - M.n) j else M.G.coeff (i - M.n) (j - M.n)))

/-- Modelled from the spec: the state of the saddle-point solver after `decompose`, whose
implementation is not among the sources (`SaddlePointSolverLegacy.hpp` only declares it).
§4.2, methods PartialPivLU and FullPivLU: the full `(n+m)×(n+m)` matrix is factored. -/
structure SaddlePointSolver where
  n : Nat
  m : Nat
  mat : Matrix

/-- Modelled from the spec: `decompose(M)` of the saddle-point solver (§4.2), keeping the
full matrix to be factored. -/
def SaddlePointSolver.decompose (M : SaddlePointMatrix) : SaddlePointSolver :=
  { n := M.n, m := M.m, mat := M.array }

/-- Modelled from the spec: `solve(a, b, x, y)` of the saddle-point solver (§4.2): the
factored system is solved for the right-hand side `[a; b]` and the solution is split into
`x` and `y`; `lu` is the linear solve of the method selected by the options, `fullPivLU` for
the method FullPivLU. -/
def SaddlePointSolver.solve (lu : Matrix → Vector → Vector) (self : SaddlePointSolver)
    (a b : Vector) : Vector × Vector :=
  let s := lu self.mat (a ++ b)
  (head s self.n, segment s self.n self.m)

/-- The pair `(x, y)` satisfies `M·[x; y] = [a; b]` on the free rows and on the constraint
rows, and `x[i] = a[i]` on the fixed variables. -/
def SaddlePointMatrix.Solves (M : SaddlePointMatrix) (a b x y : Vector) : Prop :=
  (∀ i, i < M.nx →
    (∑ j in Finset.range M.nx, M.H.coeff i j * coeff x j)
      + (∑ k in Finset.range M.m, M.A.coeff k i * coeff y k) = coeff a i) ∧
  (∀ i, M.nx ≤ i → i < M.n → coeff x i = coeff a i) ∧
  (∀ k, k < M.m →
    (∑ j in Finset.range M.n, M.A.coeff k j * coeff x j)
      + (∑ l in Finset.range M.m, M.G.coeff k l * coeff y l) = coeff b k)

/-! ## Canonicalizer (`Optima/Math/Canonicalizer.hpp`, spec §4.1) -/

/-- Exchange of the indices `a` and `b`. -/
def swapIdx (a b i : Nat) : Nat := if i = a then b else if i = b then a else i

/-- Identity matrix `identity(n, n)`. -/
def identity (n : Nat) : Matrix := matOfFn n n (fun i j => if i = j then 1 else 0)

/-- Permutation matrix of a column ordering `q`: column `j` is the unit vector `e_(q[j])`, so
that `(W·Q)(i, j) = W(i, q[j])`. -/
def permutationMatrix (q : Indices) : Matrix :=
  matOfFn q.length q.length (fun l j => if l = q.getD j 0 then 1 else 0)

/-- Modelled from the spec: working state of the full-pivoting elimination of
`Canonicalizer::compute`, whose implementation is not among the sources (§4.1, Algorithm):
the current matrix `C = R·W·Q`, the accumulated row operations `R`, the row ordering `p`, the
column ordering `q` and the number `k` of pivots found so far. -/
structure Canonicalizer.Elim where
  C : Matrix
  R : Matrix
  p : Indices
  q : Indices
  k : Nat

/-- Modelled from the spec: full pivoting (§4.1), the position of an entry of largest
magnitude among the rows and columns from `k` on. -/
def Canonicalizer.findPivot (C : Matrix) (k : Nat) : Nat × Nat :=
  (List.product (List.range C.rows) (List.range C.cols)).foldl
    (fun best c =>
      if k ≤ c.1 ∧ k ≤ c.2 ∧ |C.coeff best.1 best.2| < |C.coeff c.1 c.2| then c else best)
    (k, k)

/-- Modelled from the spec: the row and column exchanges `P_row`, `P_col` (§4.1) that bring
the pivot at `(pi, pj)` to the position `(k, k)`. -/
def Canonicalizer.Elim.swap (e : Canonicalizer.Elim) (pi pj : Nat) : Canonicalizer.Elim :=
  { C := matOfFn e.C.rows e.C.cols
      (fun i j => e.C.coeff (swapIdx e.k pi i) (swapIdx e.k pj j))
    R := matOfFn e.R.rows e.R.cols (fun i l => e.R.coeff (swapIdx e.k pi i) l)
    p := (List.range e.p.length).map (fun i => e.p.getD (swapIdx e.k pi i) 0)
    q := (List.range e.q.length).map (fun j => e.q.getD (swapIdx e.k pj j) 0)
    k := e.k }

/-- Modelled from the spec: elimination with the pivot at `(k, k)` (§4.1): row `k` is divided
by the pivot and subtracted from every other row so that column `k` becomes a unit column,
which is what yields the leading `I` of `R·W·Q = [I S]`; the same row operations are applied
to `R`. -/
def Canonicalizer.Elim.eliminate (e : Canonicalizer.Elim) : Canonicalizer.Elim :=
  let a := e.C.coeff e.k e.k
  { C := matOfFn e.C.rows e.C.cols (fun i j =>
      if i = e.k then e.C.coeff e.k j / a
      else e.C.coeff i j - e.C.coeff i e.k * (e.C.coeff e.k j / a))
    R := matOfFn e.R.rows e.R.cols (fun i l =>
      if i = e.k then e.R.coeff e.k l / a
      else e.R.coeff i l - e.C.coeff i e.k * (e.R.coeff e.k l / a))
    p := e.p
    q := e.q
    k := e.k + 1 }

/-- Modelled from the spec: one step of the elimination (§4.1): stop when no row or column is
left or the largest remaining entry is zero (the remaining rows are linearly dependent),
otherwise exchange and eliminate. -/
def Canonicalizer.step (e : Canonicalizer.Elim) : Option Canonicalizer.Elim :=
  if e.k < e.C.rows ∧ e.k < e.C.cols then
    let pv := Canonicalizer.findPivot e.C e.k
    if e.C.coeff pv.1 pv.2 = 0 then none
    else some (e.swap pv.1 pv.2).eliminate
  else none

/-- Modelled from the spec: the elimination run for at most `fuel` steps. -/
def Canonicalizer.run : Nat → Canonicalizer.Elim → Canonicalizer.Elim
  | 0, e => e
  | fuel + 1, e =>
    match Canonicalizer.step e with
    | none => e
    | some e' => Canonicalizer.run fuel e'

/-- State of a `Canonicalizer`: the matrices `R` and `S`, the column ordering (the
permutation `Q`), the row ordering and the number of basic variables. -/
structure Canonicalizer where
  R : Matrix
  S : Matrix
  ordering : Indices
  rowordering : Indices
  nb : Nat

/-- Modelled from the spec: method `Canonicalizer::compute(A)`, declared in the header only.
§4.1: full-pivoting elimination selects the pivots; the pivot rows and columns define `ili`
and `jb`; `S` is the top rows of `R·W·Q` with the leading `I` stripped.  At most
`min(rows, cols)` pivots exist, which bounds the number of steps. -/
def Canonicalizer.compute (A : Matrix) : Canonicalizer :=
  let e := Canonicalizer.run (min A.rows A.cols)
    { C := matOfFn A.rows A.cols A.coeff, R := identity A.rows
      p := List.range A.rows, q := List.range A.cols, k := 0 }
  { R := e.R
    S := matOfFn e.k (A.cols - e.k) (fun i j => e.C.coeff i (e.k + j))
    ordering := e.q
    rowordering := e.p
    nb := e.k }

/-- Method `Canonicalizer::numVariables`. -/
def Canonicalizer.numVariables (self : Canonicalizer) : Nat := self.ordering.length

/-- Method `Canonicalizer::numBasicVariables`. -/
def Canonicalizer.numBasicVariables (self : Canonicalizer) : Nat := self.nb

/-- Method `Canonicalizer::numNonBasicVariables`. -/
def Canonicalizer.numNonBasicVariables (self : Canonicalizer) : Nat :=
  self.numVariables - self.nb

/-- Method `Canonicalizer::Q`, as a permutation matrix. -/
def Canonicalizer.Q (self : Canonicalizer) : Matrix := permutationMatrix self.ordering

/-- Method `Canonicalizer::C`: the canonical form `[I S]`. -/
def Canonicalizer.C (self : Canonicalizer) : Matrix :=
  matOfFn self.nb self.numVariables (fun i j =>
    if j < self.nb then (if i = j then 1 else 0) else self.S.coeff i (j - self.nb))

/-- Method `Canonicalizer::ili`: the indices of the linearly independent rows. -/
def Canonicalizer.ili (self : Canonicalizer) : Indices := head self.rowordering self.nb

/-- Method `Canonicalizer::ibasic`: the indices of the basic variables. -/
def Canonicalizer.ibasic (self : Canonicalizer) : Indices := head self.ordering self.nb

/-- Method `Canonicalizer::inonbasic`: the indices of the non-basic variables. -/
def Canonicalizer.inonbasic (self : Canonicalizer) : Indices :=
  tail self.ordering self.numNonBasicVariables

/-- Invariant of the elimination on `W`: shapes, a duplicate-free column ordering, the
relation `C = R·W·Q` and the unit columns already produced. -/
structure Canonicalizer.Inv (W : Matrix) (e : Canonicalizer.Elim) : Prop where
  rowsC : e.C.rows = W.rows
  colsC : e.C.cols = W.cols
  rowsR : e.R.rows = W.rows
  colsR : e.R.cols = W.rows
  lenp : e.p.length = W.rows
  lenq : e.q.length = W.cols
  nodupq : e.q.Nodup
  ltq : ∀ x ∈ e.q, x < W.cols
  kr : e.k ≤ W.rows
  kc : e.k ≤ W.cols
  rwq : ∀ i j, i < W.rows → j < W.cols →
    e.C.coeff i j = ∑ l in Finset.range W.rows, e.R.coeff i l * W.coeff l (e.q.getD j 0)
  unit : ∀ i j, i < W.rows → j < e.k → e.C.coeff i j = if i = j then 1 else 0

/-- No entry is left in the remaining block. -/
def Canonicalizer.Terminal (W : Matrix) (e : Canonicalizer.Elim) : Prop :=
  ∀ i j, e.k ≤ i → i < W.rows → e.k ≤ j → j < W.cols → e.C.coeff i j = 0

/-! ## Structure: the partitions of the variables -/

/-- Modelled from the spec: `partitionRightStable(base, inds)` of `Optima/IndexUtils.hpp`,
which is not among the sources; like the stable partition of §4.4 it pushes the selected
entries, here those listed in `inds`, to the tail of `base` and keeps the order of the
entries inside both groups. -/
def partitionRightStable (base inds : Indices) : Indices :=
  base.filter (fun i => !decide (i ∈ inds)) ++ base.filter (fun i => decide (i ∈ inds))

/-- Method `Structure::setVariablesWithLowerBounds`. -/
def Structure.setVariablesWithLowerBounds (self : Structure) (inds : Indices) : Structure :=
  { self with
    nlower := inds.length
    lowerpartition := partitionRightStable self.lowerpartition inds }

/-- Method `Structure::setVariablesWithUpperBounds`. -/
def Structure.setVariablesWithUpperBounds (self : Structure) (inds : Indices) : Structure :=
  { self with
    nupper := inds.length
    upperpartition := partitionRightStable self.upperpartition inds }

/-- Method `Structure::setVariablesWithFixedValues`. -/
def Structure.setVariablesWithFixedValues (self : Structure) (inds : Indices) : Structure :=
  { self with
    nfixed := inds.length
    fixedpartition := partitionRightStable self.fixedpartition inds }

/-- Method `Structure::variablesWithLowerBounds`. -/
def Structure.variablesWithLowerBounds (self : Structure) : Indices :=
  tail self.lowerpartition self.nlower

/-- Method `Structure::variablesWithUpperBounds`. -/
def Structure.variablesWithUpperBounds (self : Structure) : Indices :=
  tail self.upperpartition self.nupper

/-- Method `Structure::variablesWithFixedValues`. -/
def Structure.variablesWithFixedValues (self : Structure) : Indices :=
  tail self.fixedpartition self.nfixed

/-- Method `Structure::variablesWithoutLowerBounds`. -/
def Structure.variablesWithoutLowerBounds (self : Structure) : Indices :=
  head self.lowerpartition (self.n - self.nlower)

/-- Method `Structure::variablesWithoutUpperBounds`. -/
def Structure.variablesWithoutUpperBounds (self : Structure) : Indices :=
  head self.upperpartition (self.n - self.nupper)

/-- Method `Structure::variablesWithoutFixedValues`. -/
def Structure.variablesWithoutFixedValues (self : Structure) : Indices :=
  head self.fixedpartition (self.n - self.nfixed)

/-! ## NewtonStep (`Optima/NewtonStep.cpp`) -/

/-- Record `MasterDims`: the numbers of variables `x`, `p` and `w`. -/
structure MasterDims where
  nx : Nat
  np : Nat
  nw : Nat
deriving DecidableEq

/-- Record `MasterVector`: the master variables `u = (x, p, w)`. -/
structure MasterVector where
  x : Vector
  p : Vector
  w : Vector
deriving DecidableEq

/-- The accessors of `ResidualFunction` called by `apply`, as the values they return: the
canonical Jacobian matrix (of type `M`) and the canonical residual vector (of type `A`). -/
structure ResidualFunction (M A : Type) where
  canonicalJacobianMatrix : M
  canonicalResidualVector : A

/-- Interface of `LinearSolver` over a solver state `σ`: the methods called by `apply`.
`solve` receives the storage `du` and returns the new storage. -/
structure LinearSolver (σ M A : Type) where
  decompose : σ → M → σ
  solve : σ → M → A → MasterVector → σ × MasterVector

/-- State of `NewtonStep::Impl`. -/
structure NewtonStep (σ : Type) where
  dims : MasterDims
  linearsolver : σ
  du : MasterVector
  xlower : Vector
  xupper : Vector

/-- Coefficient-wise `max(a, b)`. -/
def cwiseMax (a b : Vector) : Vector :=
  vecOfFn a.length (fun i => max (coeff a i) (coeff b i))

/-- Coefficient-wise `min(a, b)`. -/
def cwiseMin (a b : Vector) : Vector :=
  vecOfFn a.length (fun i => min (coeff a i) (coeff b i))

/-- Method `NewtonStep::Impl::sanitycheck`: the conjunction of its two assertions. -/
def NewtonStep.sanitycheck (self : NewtonStep σ) : Bool :=
  decide (self.xlower.length = self.dims.nx) && decide (self.xupper.length = self.dims.nx)

/-- Method `NewtonStep::Impl::apply`: the state and the master vector `u` after the call,
`none` when an assertion of `sanitycheck` fails.  Every entry of `u` is assigned, so its
previous value is not an argument. -/
def NewtonStep.apply {M A : Type} (ls : LinearSolver σ M A) (self : NewtonStep σ)
    (F : ResidualFunction M A) (uo : MasterVector) : Option (NewtonStep σ × MasterVector) :=
  if self.sanitycheck then
    let Mc := F.canonicalJacobianMatrix
    let ac := F.canonicalResidualVector
    let ls1 := ls.decompose self.linearsolver Mc
    let sol := ls.solve ls1 Mc ac self.du
    let du := sol.2
    let ux := vadd uo.x du.x
    let up := vadd uo.p du.p
    let uw := vadd uo.w du.w
    let ux := cwiseMin (cwiseMax ux self.xlower) self.xupper
    some ({ self with linearsolver := sol.1, du := du }, { x := ux, p := up, w := uw })
  else none

/-- A linear solver that returns a fixed step, for evaluating `apply` on concrete inputs. -/
def fixedStepSolver (du : MasterVector) : LinearSolver Unit Unit Unit :=
  { decompose := fun _ _ => (), solve := fun _ _ _ _ => ((), du) }

/-- The lists `sel` and `rest` split the variables `0…n−1` along `inds`: `sel` holds
exactly the entries of `inds`, `rest` exactly the remaining indices, each once, the two are
disjoint and their lengths are `|inds|` and `n − |inds|`. -/
def SplitsVariables (n : Nat) (inds sel rest : Indices) : Prop :=
  sel.Perm inds ∧ (∀ i, i ∈ rest ↔ (i < n ∧ i ∉ inds)) ∧ rest.Nodup ∧
  List.Disjoint sel rest ∧ sel.length = inds.length ∧ rest.length = n - inds.length

/-! ## Matrices of Mathlib: invertibility and rank -/

/-- The entries of `A` as a matrix of Mathlib with `r` rows and `c` columns. -/
def toMat (A : Matrix) (r c : Nat) : Mat r c := fun i j => A.coeff i j

/-- The entries of `v` as a vector of Mathlib with `n` entries. -/
def toVec (v : Vector) (n : Nat) : Fin n → Scalar := fun i => coeff v i

/-- The rectangular identity with `r` rows and `c` columns, as a matrix of Mathlib. -/
def eyeMat (r c : Nat) : Mat r c := fun i j => if (i : Nat) = j then 1 else 0

/-- The function `Ri` gives a left inverse of the square matrix `R` of size `r`:
`Ri·R = I`. -/
def IsLeftInverse (r : Nat) (Ri : Nat → Nat → Scalar) (R : Matrix) : Prop :=
  ∀ i j, i < r → j < r →
    (∑ l in Finset.range r, Ri i l * R.coeff l j) = if i = j then 1 else 0

/-- Modelled from the spec: the linear solve of method FullPivLU (§4.2, "none;
full-pivoting"): the matrix is reduced by the elimination with full pivoting of §4.1, which
yields `R` and the column permutation `Q` with `R·M·Q = I` when `M` is nonsingular, and the
solution is `Q·(R·r)`. -/
def fullPivLU (M : Matrix) (r : Vector) : Vector :=
  mulVec (Canonicalizer.compute M).Q (mulVec (Canonicalizer.compute M).R r)

/-! ## The canonical solver in exact arithmetic -/

/-- The coefficients `solver` divides by: `Bb` in `Lb = (Gb - Eb)/Bb` and in
`xb.array() /= Bb.array()`, `Gs - Es` in `inv(Gs - Es)` and in `xs`, `Eu - Gu` in
`inv(Eu - Gu)` and in `zu`, `Eu` in `cu/Eu`, `Eb` in `cb/Eb` and `Es` in `cs/Es`; the
statements of a sub-range of size zero are skipped and contribute no divisor. -/
def solver.divisors (P : SaddlePointProblemCanonical) : List Scalar :=
  (if P.nb ≠ 0 then P.lhs.Bb else [])
    ++ (if P.ns ≠ 0 then vsub P.lhs.Gs P.lhs.Es else [])
    ++ (if P.nu ≠ 0 then vsub P.lhs.Eu P.lhs.Gu else [])
    ++ (if P.nu ≠ 0 then P.lhs.Eu else [])
    ++ (if P.nb ≠ 0 then P.lhs.Eb else [])
    ++ (if P.ns ≠ 0 then P.lhs.Es else [])

/-- The function `solver` in exact arithmetic, where a quotient by zero has no value: the
solution record after the call, `none` when one of the divisors is zero or when the linear
solve `lu`, which stands for `Ub.lu().solve(r)`, has no value. -/
def solver.exact (lu : Matrix → Vector → Option Vector) (P : SaddlePointProblemCanonical)
    (solution : SaddlePointVectorCanonical) : Option SaddlePointVectorCanonical :=
  if (solver.divisors P).all (fun d => decide (d ≠ 0)) then
    if P.nb ≠ 0 then
      (lu (solver.Ub P) (solver.r P)).map (fun y => solver (fun _ _ => y) P solution)
    else some (solver (fun _ _ => solution.y) P solution)
  else none

/-- The exact linear solve of a system of size one: `y = r₀ / M₀₀`, without a value when
`M₀₀ = 0`. -/
def luExact1 (M : Matrix) (r : Vector) : Option Vector :=
  if M.coeff 0 0 = 0 then none else some [coeff r 0 / M.coeff 0 0]

/-- Invariant of the elimination on `W` for the row ordering: it is duplicate-free with
entries below `r`, and the columns of `R` at the rows not yet used as pivot rows are still
unit columns. -/
structure Canonicalizer.RowInv (W : Matrix) (e : Canonicalizer.Elim) : Prop where
  nodupp : e.p.Nodup
  ltp : ∀ x ∈ e.p, x < W.rows
  unitR : ∀ i l, i < W.rows → e.k ≤ l → l < W.rows →
    e.R.coeff i (e.p.getD l 0) = if i = l then 1 else 0

/-! ## A saddle-point solver for the interior-point system -/

/-- Modelled from the spec: the conversion of an `IpSaddlePointMatrix` to a dense matrix
(`Matrix(self)` in the bindings; `Optima/IpSaddlePointMatrix.hpp` is not among the sources).
§4.3 gives the block rows `[H Aᵀ −I −I]`, `[A 0 0 0]`, `[Z 0 L 0]`, `[W 0 0 U]` on
`[Δx Δy Δz Δw]`, and §3 replaces the rows and columns of the fixed variables in the first
block by an identity block. -/
def IpSaddlePointMatrix.array (M : IpSaddlePointMatrix) (n m : Nat) : Matrix :=
  matOfFn (3 * n + m) (3 * n + m) (fun i j =>
    if i < n then
      if i ∈ M.ifixed then (if j = i then 1 else 0)
      else if j < n then (if j ∈ M.ifixed then 0 else M.H.coeff i j)
      else if j < n + m then M.A.coeff (j - n) i
      else if j < 2 * n + m then (if j - (n + m) = i then -1 else 0)
      else (if j - (2 * n + m) = i then -1 else 0)
    else if i < n + m then (if j < n then M.A.coeff (i - n) j else 0)
    else if i < 2 * n + m then
      (if j = i - (n + m) then coeff M.Z j
       else if j = i then coeff M.L (i - (n + m)) else 0)
    else
      (if j = i - (2 * n + m) then coeff M.W j
       else if j = i then coeff M.U (i - (2 * n + m)) else 0))

/-- Modelled from the spec: a saddle-point solver for the stepper that keeps the matrix given
to `decompose` and solves the dense system of §4.3 with full pivoting (§4.2, method
FullPivLU); before any `decompose` it leaves the solution storage as it is. -/
def denseSolver : IpSaddlePointSolver (Option IpSaddlePointMatrix) :=
  { default := none
    setOptions := fun st _ => st
    setup := fun st _ => st
    decompose := fun _ M => some M
    solve := fun st r n m s =>
      match st with
      | none => (st, s)
      | some M => (st, fullPivLU (M.array n m) r) }

/-! ## Sample inputs -/

/-- Sample arguments: two variables, one constraint `x₀ + x₁`, basic variable `0`. -/
def sampleArgs : StabilityUpdateArgs :=
  { R := ⟨1, 1, [[1]]⟩, Sbn := ⟨1, 1, [[1]]⟩, Sbp := ⟨1, 0, [[]]⟩
    jb := [0], jn := [1]
    x := [1/2, 1/2], g := [1, 3], xlower := [0, 0], xupper := [1, 1] }

/-- Sample constraints: three variables, one equality constraint `x₀ + x₁ + x₂`; variables
`0` and `1` have lower bounds, variable `1` has an upper bound, variable `2` is fixed. -/
def sampleConstraints : Constraints :=
  { numVariables := 3, numLinearEqualityConstraints := 1
    equalityConstraintMatrix := ⟨1, 3, [[1, 1, 1]]⟩
    variablesWithLowerBounds := [0, 1]
    variablesWithUpperBounds := [1]
    variablesWithFixedValues := [2] }

/-- Sample problem for `sampleConstraints`: variable `1` sits on its lower bound `0`. -/
def sampleProblem : StepperProblem :=
  { x := [2, 0, 5], y := [1], z := [4, 5, 0], w := [0, -2, 0], g := [1, 1, 1]
    H := ⟨3, 3, [[1, 0, 0], [0, 1, 0], [0, 0, 1]]⟩
    b := [6], xlower := [1, 0], xupper := [3] }

/-- Sample options with `mu = 1/10`. -/
def sampleOptions : Options := { mu := 1/10 }

/-- Constraints with a single variable that is fixed and also has a lower bound. -/
def fixedBoundedConstraints : Constraints :=
  { numVariables := 1, numLinearEqualityConstraints := 0
    equalityConstraintMatrix := ⟨0, 1, []⟩
    variablesWithLowerBounds := [0]
    variablesWithUpperBounds := []
    variablesWithFixedValues := [0] }

/-- Problem for `fixedBoundedConstraints`: `x = 3`, lower bound `1`, multiplier `z = 5`. -/
def fixedBoundedProblem : StepperProblem :=
  { x := [3], y := [], z := [5], w := [0], g := [0]
    H := ⟨1, 1, [[1]]⟩, b := [], xlower := [1], xupper := [] }

/-- Constraints of the all-stable scenario: one variable with a lower bound, one equality
constraint `x₀`, no upper bounds, no fixed variables. -/
def stableConstraints : Constraints :=
  { numVariables := 1, numLinearEqualityConstraints := 1
    equalityConstraintMatrix := ⟨1, 1, [[1]]⟩
    variablesWithLowerBounds := [0]
    variablesWithUpperBounds := []
    variablesWithFixedValues := [] }

/-- Problem of the all-stable scenario: `x = 1 > 0` with lower bound `0`. -/
def stableProblem : StepperProblem :=
  { x := [1], y := [1], z := [1], w := [0], g := [2]
    H := ⟨1, 1, [[1]]⟩, b := [1], xlower := [0], xupper := [] }

/-- Options of the all-stable scenario, `mu = 1`. -/
def stableOptions : Options := { mu := 1 }

/-- A canonical problem with `nb = ns = nu = 1`; its reduced matrix is `Ub = [2]`. -/
def sampleCanonical : SaddlePointProblemCanonical :=
  { lhs := { Gb := [3], Gs := [4], Gu := [1], Bb := [2]
             Bs := ⟨1, 1, [[1]]⟩, Bu := ⟨1, 1, [[1]]⟩
             Eb := [1], Es := [2], Eu := [3] }
    rhs := { ab := [5], as := [2], au := [3], b := [4], cb := [1], cs := [0], cu := [3] } }

/-- A canonical problem with `nb = ns = 1`, `nu = 0` whose reduced matrix is `Ub = [0]`,
no divisor being zero. -/
def singularCanonical : SaddlePointProblemCanonical :=
  { lhs := { Gb := [2], Gs := [0], Gu := [], Bb := [1]
             Bs := ⟨1, 1, [[1]]⟩, Bu := ⟨1, 0, [[]]⟩
             Eb := [1], Es := [1], Eu := [] }
    rhs := { ab := [1], as := [0], au := [], b := [0], cb := [0], cs := [0], cu := [] } }

/-- A solution record before the call. -/
def emptySolution : SaddlePointVectorCanonical :=
  { xb := [], xs := [], xu := [], y := [], zb := [], zs := [], zu := [] }

/-- The singular saddle-point matrix `[0]`: one free variable, no constraint, `H = [0]`. -/
def singularSaddle : SaddlePointMatrix :=
  { H := ⟨1, 1, [[0]]⟩, A := ⟨0, 1, []⟩, G := ⟨0, 0, []⟩, nx := 1, nf := 0 }

/-- A matrix of rank two with three rows, the third being the difference of the first two. -/
def sampleW : Matrix := ⟨3, 4, [[1, 1, 1, 1], [0, 1, 1, 1], [1, 0, 0, 0]]⟩

/-- A canonical problem with `nb = 1` and empty `s` and `u` sub-ranges. -/
def diagonalCanonical : SaddlePointProblemCanonical :=
  { lhs := { Gb := [3], Gs := [], Gu := [], Bb := [2]
             Bs := ⟨1, 0, [[]]⟩, Bu := ⟨1, 0, [[]]⟩
             Eb := [1], Es := [], Eu := [] }
    rhs := { ab := [7], as := [], au := [], b := [4], cb := [1], cs := [], cu := [] } }

/-- Arguments with both variables on a bound: the basic variable `0` on its lower bound, the
nonbasic variable `1` on its upper bound with `s[1] = 1 − 3 = −2`. -/
def boundArgs : StabilityUpdateArgs :=
  { R := ⟨1, 1, [[1]]⟩, Sbn := ⟨1, 1, [[1]]⟩, Sbp := ⟨1, 0, [[]]⟩
    jb := [0], jn := [1]
    x := [0, 1], g := [3, 1], xlower := [0, 0], xupper := [1, 1] }

/-- A Newton step object for two variables `x` with bounds `0 ≤ x ≤ 1`, one `p`, no `w`. -/
def sampleNewtonStep : NewtonStep Unit :=
  { dims := { nx := 2, np := 1, nw := 0 }, linearsolver := ()
    du := { x := [0, 0], p := [0], w := [] }
    xlower := [0, 0], xupper := [1, 1] }

/-- A master vector `uo` inside the bounds. -/
def sampleMaster : MasterVector := { x := [1/2, 1/2], p := [3], w := [] }

/-- A Newton step that takes `x₀` beyond its upper bound and keeps `x₁` inside. -/
def sampleNewton : MasterVector := { x := [1, 1/4], p := [-5], w := [] }

/-- A canonical problem with `nb = 1`, empty `s` and `u` sub-ranges and `Bb = [0]`. -/
def zeroDivisorCanonical : SaddlePointProblemCanonical :=
  { lhs := { Gb := [3], Gs := [], Gu := [], Bb := [0]
             Bs := ⟨1, 0, [[]]⟩, Bu := ⟨1, 0, [[]]⟩
             Eb := [1], Es := [], Eu := [] }
    rhs := { ab := [7], as := [], au := [], b := [4], cb := [1], cs := [], cu := [] } }

/-- The output of `solver` on `sampleCanonical`, computed with `y = 1/2`, the solution of the
reduced system `2·y = 1`. -/
def sampleSolution : SaddlePointVectorCanonical :=
  { xb := [3/2], xs := [3/4], xu := [1/4], y := [1/2], zb := [-1/2], zs := [-3/4],
    zu := [3/4] }

/-- The output of `solver` on `sampleCanonical` when the linear solve returns `y = 7`, which
does not solve the reduced system. -/
def offSolution : SaddlePointVectorCanonical :=
  { xb := [3/2], xs := [-5/2], xu := [7/2], y := [7], zb := [-1/2], zs := [5/2],
    zu := [-5/2] }

/-- A canonical problem with `nb = ns = 1`, `nu = 0`, every entry of `Bb` nonzero and
`Gs − Es = [0]`. -/
def zeroGapCanonical : SaddlePointProblemCanonical :=
  { lhs := { Gb := [1], Gs := [1], Gu := [], Bb := [1]
             Bs := ⟨1, 1, [[1]]⟩, Bu := ⟨1, 0, [[]]⟩
             Eb := [1], Es := [1], Eu := [] }
    rhs := { ab := [1], as := [1], au := [], b := [0], cb := [0], cs := [0], cu := [] } }

/-- A saddle-point matrix with two free variables, one fixed variable and one constraint;
its assembled matrix is `[[2, 1, 0, 1], [1, 3, 0, 1], [0, 0, 1, 0], [1, 1, 1, 0]]`. -/
def mixedSaddle : SaddlePointMatrix :=
  { H := ⟨3, 3, [[2, 1, 9], [1, 3, 9], [9, 9, 9]]⟩, A := ⟨1, 3, [[1, 1, 1]]⟩
    G := ⟨1, 1, [[0]]⟩, nx := 2, nf := 1 }

/-- Constraints of an all-stable scenario with two variables: both have a lower bound, one
equality constraint `x₀ + x₁`, no upper bounds, no fixed variables. -/
def pairConstraints : Constraints :=
  { numVariables := 2, numLinearEqualityConstraints := 1
    equalityConstraintMatrix := ⟨1, 2, [[1, 1]]⟩
    variablesWithLowerBounds := [0, 1]
    variablesWithUpperBounds := []
    variablesWithFixedValues := [] }

/-- Problem of the all-stable scenario with two variables: `x = (1, 2) > 0` with lower
bounds `0`. -/
def pairProblem : StepperProblem :=
  { x := [1, 2], y := [1], z := [1, 3], w := [0, 0], g := [2, 3]
    H := ⟨2, 2, [[2, 1], [1, 3]]⟩, b := [4], xlower := [0, 0], xupper := [] }

/-! # Properties -/

/-! ## Reading and writing coefficients -/

theorem coeff_set (v : Vector) (i j : Nat) (a : Scalar) :
    coeff (v.set i a) j = if i = j ∧ i < v.length then a else coeff v j := by
  unfold coeff
  simp only [List.getD_eq_getElem?_getD, List.getElem?_set]
  by_cases hij : i = j
  · subst hij
    by_cases hl : i < v.length
    · simp [hl]
    · have hn : v[i]? = none := by
        rw [List.getElem?_eq_none_iff]; omega
      simp [hl, hn]
  · simp [hij]

theorem coeff_of_length_le (v : Vector) (i : Nat) (h : v.length ≤ i) : coeff v i = 0 := by
  unfold coeff
  simp [List.getD_eq_getElem?_getD, List.getElem?_eq_none_iff.mpr h]

theorem coeff_zeros (n i : Nat) : coeff (zeros n) i = 0 := by
  unfold coeff zeros
  by_cases h : i < n
  · simp [List.getD_eq_getElem?_getD, List.getElem?_replicate, h]
  · simp [List.getD_eq_getElem?_getD, List.getElem?_replicate, h]

theorem coeff_ones (n i : Nat) (h : i < n) : coeff (ones n) i = 1 := by
  unfold coeff ones
  simp [List.getD_eq_getElem?_getD, List.getElem?_replicate, h]

theorem coeff_select (v : Vector) (idx : Indices) (k : Nat) (h : k < idx.length) :
    coeff (select v idx) k = coeff v (idx.getD k 0) := by
  unfold select
  conv_lhs => unfold coeff
  simp [List.getD_eq_getElem?_getD, List.getElem?_map, List.getElem?_eq_getElem h, coeff]

/-! ## Matrix-vector products, entry by entry -/

theorem sum_map_range (f : Nat → Scalar) (n : Nat) :
    ((List.range n).map f).sum = ∑ i in Finset.range n, f i := by
  induction n with
  | zero => simp
  | succ n ih => simp [List.range_succ, Finset.sum_range_succ, ih]

theorem coeff_map_range (f : Nat → Scalar) (n j : Nat) (hj : j < n) :
    coeff ((List.range n).map f) j = f j := by
  unfold coeff
  simp [List.getD_eq_getElem?_getD, List.getElem?_map, List.getElem?_range hj]

/-- Entry `j` of `tr(M) * v` is `Σ_i M(i, j) · v[i]`. -/
theorem coeff_trMulVec (M : Matrix) (v : Vector) (j : Nat) (hj : j < M.cols) :
    coeff (trMulVec M v) j = ∑ i in Finset.range M.rows, M.coeff i j * coeff v i := by
  unfold trMulVec
  rw [coeff_map_range _ _ _ hj, sum_map_range]

/-- Entry `i` of `M * v` is `Σ_j M(i, j) · v[j]`. -/
theorem coeff_mulVec (M : Matrix) (v : Vector) (i : Nat) (hi : i < M.rows) :
    coeff (mulVec M v) i = ∑ j in Finset.range M.cols, M.coeff i j * coeff v j := by
  unfold mulVec
  rw [coeff_map_range _ _ _ hi, sum_map_range]

/-! ## Indexed assignment -/

theorem length_assignFrom (idx : Indices) (v : Vector) (off k : Nat) (rhs : Nat → Scalar) :
    (assignFrom v off idx k rhs).length = v.length := by
  induction idx generalizing v k with
  | nil => rfl
  | cons i is ih => simp [assignFrom, ih]

theorem coeff_assignFrom_of_not_hit (idx : Indices) (v : Vector) (off k : Nat)
    (rhs : Nat → Scalar) (j : Nat) (h : ∀ i ∈ idx, off + i ≠ j) :
    coeff (assignFrom v off idx k rhs) j = coeff v j := by
  induction idx generalizing v k with
  | nil => rfl
  | cons i is ih =>
    have hi : off + i ≠ j := h i (List.mem_cons_self _ _)
    rw [assignFrom, ih _ _ (fun i' hi' => h i' (List.mem_cons_of_mem _ hi')), coeff_set]
    simp [hi]

theorem coeff_assignFrom_nodup (idx : Indices) (v : Vector) (off k : Nat)
    (rhs : Nat → Scalar) (t : Nat) (ht : t < idx.length) (hnd : idx.Nodup)
    (hr : off + idx.getD t 0 < v.length) :
    coeff (assignFrom v off idx k rhs) (off + idx.getD t 0) = rhs (k + t) := by
  induction idx generalizing v k t with
  | nil => simp at ht
  | cons i is ih =>
    rw [List.nodup_cons] at hnd
    cases t with
    | zero =>
      simp only [List.getD_cons_zero, assignFrom] at hr ⊢
      rw [coeff_assignFrom_of_not_hit, coeff_set]
      · simp [hr]
      · intro i' hi' he
        have : i' = i := by omega
        exact hnd.1 (this ▸ hi')
    | succ t =>
      simp only [List.getD_cons_succ, assignFrom] at hr ⊢
      have ht' : t < is.length := by simpa using ht
      rw [ih (v.set (off + i) (rhs k)) (k + 1) t ht' hnd.2 (by simpa using hr)]
      congr 1; omega

theorem coeff_assignFrom_const (idx : Indices) (v : Vector) (off k : Nat) (a : Scalar)
    (i : Nat) (hi : i ∈ idx) (hr : off + i < v.length) :
    coeff (assignFrom v off idx k (fun _ => a)) (off + i) = a := by
  induction idx generalizing v k with
  | nil => simp at hi
  | cons i' is ih =>
    rw [assignFrom]
    by_cases hmem : i ∈ is
    · exact ih _ _ hmem (by simpa using hr)
    · have he : i = i' := by
        rcases List.mem_cons.mp hi with h | h
        · exact h
        · exact absurd h hmem
      subst he
      rw [coeff_assignFrom_of_not_hit, coeff_set]
      · simp [hr]
      · intro j hj hje
        have : j = i := by omega
        exact hmem (this ▸ hj)

/-- Indexed assignment whose right-hand side is a function of the target index. -/
theorem coeff_assignFrom_consistent (G : Nat → Scalar) (idx : Indices) (v : Vector)
    (off k : Nat) (rhs : Nat → Scalar)
    (hG : ∀ t, t < idx.length → rhs (k + t) = G (idx.getD t 0))
    (i : Nat) (hi : i ∈ idx) (hr : off + i < v.length) :
    coeff (assignFrom v off idx k rhs) (off + i) = G i := by
  induction idx generalizing v k with
  | nil => simp at hi
  | cons i' is ih =>
    rw [assignFrom]
    have hG' : ∀ t, t < is.length → rhs (k + 1 + t) = G (is.getD t 0) := by
      intro t ht
      have := hG (t + 1) (by simpa using ht)
      rw [List.getD_cons_succ] at this
      rw [← this]; congr 1; omega
    by_cases hmem : i ∈ is
    · exact ih _ _ hG' hmem (by simpa using hr)
    · have he : i = i' := by
        rcases List.mem_cons.mp hi with h | h
        · exact h
        · exact absurd h hmem
      subst he
      rw [coeff_assignFrom_of_not_hit, coeff_set]
      · have := hG 0 (by simp)
        simp only [List.getD_cons_zero, Nat.add_zero] at this
        simp [hr, this]
      · intro j hj hje
        have : j = i := by omega
        exact hmem (this ▸ hj)

theorem length_assignSegment (v : Vector) (off len : Nat) (rhs : Nat → Scalar) :
    (assignSegment v off len rhs).length = v.length :=
  length_assignFrom _ _ _ _ _

theorem coeff_assignSegment_in (v : Vector) (off len : Nat) (rhs : Nat → Scalar) (j : Nat)
    (hj : j < len) (hl : off + j < v.length) :
    coeff (assignSegment v off len rhs) (off + j) = rhs j := by
  have hg : (List.range len).getD j 0 = j := by
    rw [List.getD_eq_getElem _ _ (by simpa using hj), List.getElem_range]
  have h := coeff_assignFrom_nodup (List.range len) v off 0 rhs j (by simpa using hj)
    (List.nodup_range len) (by rw [hg]; exact hl)
  rw [hg, Nat.zero_add] at h
  exact h

theorem coeff_assignSegment_out (v : Vector) (off len : Nat) (rhs : Nat → Scalar) (j : Nat)
    (hj : j < off ∨ off + len ≤ j) :
    coeff (assignSegment v off len rhs) j = coeff v j := by
  apply coeff_assignFrom_of_not_hit
  intro i hi
  have := List.mem_range.mp hi
  omega

/-! ## Loops over an index vector -/

theorem length_forEachIndex (idx : Indices) (v : Vector) (off : Nat)
    (f : Vector → Nat → Scalar) : (forEachIndex v off idx f).length = v.length := by
  induction idx generalizing v with
  | nil => rfl
  | cons i is ih =>
    simp only [forEachIndex, List.foldl_cons] at ih ⊢
    rw [ih]; simp

theorem coeff_forEachIndex_of_not_hit (idx : Indices) (v : Vector) (off : Nat)
    (f : Vector → Nat → Scalar) (j : Nat) (h : ∀ i ∈ idx, off + i ≠ j) :
    coeff (forEachIndex v off idx f) j = coeff v j := by
  induction idx generalizing v with
  | nil => rfl
  | cons i is ih =>
    have hi : off + i ≠ j := h i (List.mem_cons_self _ _)
    simp only [forEachIndex, List.foldl_cons] at ih ⊢
    rw [ih _ (fun i' hi' => h i' (List.mem_cons_of_mem _ hi')), coeff_set]
    simp [hi]

/-- A loop whose right-hand side does not read the vector being written. -/
theorem coeff_forEachIndex_pure (idx : Indices) (v : Vector) (off : Nat)
    (g : Nat → Scalar) (i : Nat) (hi : i ∈ idx) (hr : off + i < v.length) :
    coeff (forEachIndex v off idx (fun _ i => g i)) (off + i) = g i := by
  induction idx generalizing v with
  | nil => simp at hi
  | cons i' is ih =>
    simp only [forEachIndex, List.foldl_cons] at ih ⊢
    by_cases hmem : i ∈ is
    · exact ih _ hmem (by simpa using hr)
    · have he : i = i' := by
        rcases List.mem_cons.mp hi with h | h
        · exact h
        · exact absurd h hmem
      subst he
      have hnh := coeff_forEachIndex_of_not_hit is (v.set (off + i) (g i)) off
        (fun _ i => g i) (off + i) (by
          intro j hj hje
          have : j = i := by omega
          exact hmem (this ▸ hj))
      simp only [forEachIndex] at hnh
      rw [hnh, coeff_set]
      simp [hr]

/-- A loop that replaces each visited entry by `φ` of its current value, `φ` idempotent. -/
theorem coeff_forEachIndex_map (φ : Scalar → Scalar) (hφ : ∀ a, φ (φ a) = φ a)
    (idx : Indices) (v : Vector) (i : Nat) (hi : i ∈ idx) (hr : i < v.length) :
    coeff (forEachIndex v 0 idx (fun acc i => φ (coeff acc i))) i = φ (coeff v i) := by
  induction idx generalizing v with
  | nil => simp at hi
  | cons i' is ih =>
    simp only [forEachIndex, List.foldl_cons] at ih ⊢
    by_cases hmem : i ∈ is
    · rw [ih _ hmem (by simpa using hr), coeff_set]
      by_cases he : 0 + i' = i
      · have he' : i' = i := by omega
        subst he'
        simp [hr, hφ]
      · have he' : ¬ i' = i := by omega
        simp [he']
    · have he : i = i' := by
        rcases List.mem_cons.mp hi with h | h
        · exact h
        · exact absurd h hmem
      subst he
      have hnh := coeff_forEachIndex_of_not_hit is (v.set (0 + i) (φ (coeff v i))) 0
        (fun acc i => φ (coeff acc i)) i (by
          intro j hj hje
          have : j = i := by omega
          exact hmem (this ▸ hj))
      simp only [forEachIndex] at hnh
      rw [hnh, coeff_set]
      simp [hr]

/-! ## Lists split by a predicate -/

theorem length_filter_not_add (l : List Nat) (p : Nat → Bool) :
    (l.filter (fun i => !p i)).length + (l.filter p).length = l.length := by
  induction l with
  | nil => rfl
  | cons a l ih =>
    cases h : p a <;> simp [List.filter, h] <;> omega

theorem filter_not_append_perm (l : List Nat) (p : Nat → Bool) :
    (l.filter (fun i => !p i) ++ l.filter p).Perm l := by
  have h := List.filter_append_perm (fun i => !p i) l
  simpa using h

theorem take_length_append {α : Type} (a b : List α) (k : Nat) (h : k = a.length) :
    (a ++ b).take k = a := by
  subst h; simp

theorem drop_length_append {α : Type} (a b : List α) (k : Nat) (h : k = a.length) :
    (a ++ b).drop k = b := by
  subst h; simp

/-- The three ranges after `update`, as sublists of the previous `jsu`. -/
theorem Stability2.status_update (st : Stability2) (args : StabilityUpdateArgs)
    (s : Vector) (hs : s = st.updateS args)
    (keep : Indices) (hkeep : keep = st.jsu.filter (fun i => !is_upper_unstable args s i)) :
    (st.update args).status.js = keep.filter (fun i => !is_lower_unstable args s i) ∧
    (st.update args).status.jlu = keep.filter (is_lower_unstable args (st.updateS args)) ∧
    (st.update args).status.juu = st.jsu.filter (is_upper_unstable args (st.updateS args)) := by
  subst hs
  have h1 : keep.length + (st.jsu.filter (is_upper_unstable args (st.updateS args))).length
      = st.jsu.length := by
    rw [hkeep]; exact length_filter_not_add st.jsu (is_upper_unstable args (st.updateS args))
  have h2 := length_filter_not_add keep (is_lower_unstable args (st.updateS args))
  have hk : head (moveRightIf st.jsu (is_upper_unstable args (st.updateS args))).1
      (moveRightIf st.jsu (is_upper_unstable args (st.updateS args))).2 = keep := by
    simp [moveRightIf, head, hkeep]
  have hd : (moveRightIf st.jsu (is_upper_unstable args (st.updateS args))).1.drop
      (moveRightIf st.jsu (is_upper_unstable args (st.updateS args))).2
        = st.jsu.filter (is_upper_unstable args (st.updateS args)) := by
    simp [moveRightIf]
  have hp : (moveRightIf st.jsu (is_upper_unstable args (st.updateS args))).2 = keep.length := by
    rw [hkeep]; rfl
  simp only [Stability2.update, Stability2.status]
  rw [hk, hd, hp]
  simp only [moveRightIf, head, tail, List.length_append]
  refine ⟨?_, ?_, ?_⟩
  · rw [List.append_assoc]
    exact take_length_append _ _ _ rfl
  · rw [List.append_assoc, drop_length_append _ _ _ (by omega)]
    exact take_length_append _ _ _ (by omega)
  · rw [List.append_assoc, drop_length_append _ _ _ (by omega)]
    exact drop_length_append _ _ _ (by simp only [List.length_append]; omega)

/-- When the three counters add up to the length of `jsu`, the ranges of `status` are
consecutive slices of `jsu`. -/
theorem Stability2.status_slices (st : Stability2)
    (h : st.ns + st.nlu + st.nuu = st.jsu.length) :
    st.status.js = st.jsu.take st.ns ∧
    st.status.jlu = (st.jsu.drop st.ns).take st.nlu ∧
    st.status.juu = (st.jsu.drop st.ns).drop st.nlu ∧
    st.status.js ++ st.status.jlu ++ st.status.juu = st.jsu := by
  have e1 : st.jsu.length - (st.nlu + st.nuu) = st.ns := by omega
  have e2 : (st.jsu.drop st.ns).length - st.nuu = st.nlu := by
    rw [List.length_drop]; omega
  have hju : st.status.ju = st.jsu.drop st.ns := by
    simp only [Stability2.status, tail, e1]
  have hjs : st.status.js = st.jsu.take st.ns := rfl
  have hjlu : st.status.jlu = (st.jsu.drop st.ns).take st.nlu := by
    simp only [Stability2.status, tail, head, e1]
  have hjuu : st.status.juu = (st.jsu.drop st.ns).drop st.nlu := by
    simp only [Stability2.status, tail, head, e1, e2]
  refine ⟨hjs, hjlu, hjuu, ?_⟩
  rw [hjs, hjlu, hjuu, List.append_assoc, List.take_append_drop, List.take_append_drop]

/-- Invariant of `Stability2`: `jsu` is a reordering of `0…nx−1` and the counters add up. -/
theorem Stability2.reachable_inv (nx : Nat) (st : Stability2) (h : Stability2.Reachable nx st) :
    st.jsu.Perm (List.range nx) ∧ st.ns + st.nlu + st.nuu = st.jsu.length := by
  induction h with
  | new => 
    refine ⟨List.Perm.refl _, ?_⟩
    simp [Stability2.new, indices]
  | update st args _ ih =>
    obtain ⟨hp, _⟩ := ih
    have h1 := length_filter_not_add st.jsu (is_upper_unstable args (st.updateS args))
    have h2 := length_filter_not_add
      (st.jsu.filter (fun i => !is_upper_unstable args (st.updateS args) i))
      (is_lower_unstable args (st.updateS args))
    have q1 := filter_not_append_perm st.jsu (is_upper_unstable args (st.updateS args))
    have q2 := filter_not_append_perm
      (st.jsu.filter (fun i => !is_upper_unstable args (st.updateS args) i))
      (is_lower_unstable args (st.updateS args))
    constructor
    · refine List.Perm.trans ?_ hp
      refine List.Perm.trans ?_ q1
      simp only [Stability2.update, moveRightIf, head, List.take_left', List.drop_left']
      exact List.Perm.append_right _ q2
    · simp only [Stability2.update, moveRightIf, head, List.take_left', List.drop_left',
        List.length_append]
      omega

/-! ## Stability2: the claims -/

/-- C1: in every state reached from `Stability2(nx)` by `update` calls, `ns + nlu + nuu = nx`;
the ranges of `status()` are the first `ns`, the next `nlu` and the last `nuu` entries of
`jsu`; they are pairwise disjoint and together hold every index `0…nx−1` exactly once. -/
theorem Stability2.status_partition (nx : Nat) (st : Stability2)
    (h : Stability2.Reachable nx st) :
    st.ns + st.nlu + st.nuu = nx ∧
    st.status.js = st.jsu.take st.ns ∧
    st.status.jlu = (st.jsu.drop st.ns).take st.nlu ∧
    st.status.juu = st.jsu.drop (st.jsu.length - st.nuu) ∧
    st.status.js.length = st.ns ∧
    st.status.jlu.length = st.nlu ∧
    st.status.juu.length = st.nuu ∧
    List.Disjoint st.status.js st.status.jlu ∧
    List.Disjoint st.status.js st.status.juu ∧
    List.Disjoint st.status.jlu st.status.juu ∧
    (st.status.js ++ st.status.jlu ++ st.status.juu).Perm (List.range nx) ∧
    (∀ i, i < nx → (st.status.js ++ st.status.jlu ++ st.status.juu).count i = 1) := by
  obtain ⟨hperm, hsum⟩ := Stability2.reachable_inv nx st h
  obtain ⟨hjs, hjlu, hjuu, hcat⟩ := Stability2.status_slices st hsum
  have hlen : st.jsu.length = nx := by
    rw [hperm.length_eq, List.length_range]
  have hp : (st.status.js ++ st.status.jlu ++ st.status.juu).Perm (List.range nx) := by
    rw [hcat]; exact hperm
  have hnd : (st.status.js ++ st.status.jlu ++ st.status.juu).Nodup :=
    hp.nodup_iff.mpr (List.nodup_range nx)
  have hnd2 := hnd
  rw [List.append_assoc, List.nodup_append] at hnd2
  obtain ⟨_, hnd3, hd1⟩ := hnd2
  rw [List.nodup_append] at hnd3
  have hjuu' : st.status.juu = st.jsu.drop (st.jsu.length - st.nuu) := by
    rw [hjuu, List.drop_drop]
    congr 1; omega
  refine ⟨by omega, hjs, hjlu, hjuu', ?_, ?_, ?_, ?_, ?_, hnd3.2.2, hp, ?_⟩
  · rw [hjs, List.length_take]; omega
  · rw [hjlu, List.length_take, List.length_drop]; omega
  · rw [hjuu', List.length_drop]; omega
  · intro a ha hb
    exact hd1 ha (List.mem_append_left _ hb)
  · intro a ha hb
    exact hd1 ha (List.mem_append_right _ hb)
  · intro i hi
    rw [hp.count_eq, List.count_eq_one_of_mem (List.nodup_range nx) (List.mem_range.mpr hi)]

/-- Evaluation of C1 on the state reached by one `update` with the sample arguments. -/
theorem Stability2.status_partition_witness :
    Stability2.Reachable 2 ((Stability2.new 2).update sampleArgs) ∧
    ((Stability2.new 2).update sampleArgs).ns + ((Stability2.new 2).update sampleArgs).nlu
      + ((Stability2.new 2).update sampleArgs).nuu = 2 ∧
    (((Stability2.new 2).update sampleArgs).status.js
      ++ ((Stability2.new 2).update sampleArgs).status.jlu
      ++ ((Stability2.new 2).update sampleArgs).status.juu).Perm (List.range 2) :=
  have hr := Stability2.Reachable.update _ sampleArgs (Stability2.Reachable.new : Stability2.Reachable 2 (Stability2.new 2))
  have h := Stability2.status_partition 2 _ hr
  ⟨hr, h.1, h.2.2.2.2.2.2.2.2.2.2.1⟩

/-- C2: after `update`, every index of `jlu` sits on its lower bound with `s > 0` and every
index of `juu` sits on its upper bound with `s < 0`, `s` being the vector of that update. -/
theorem Stability2.unstable_ranges_at_bounds (st : Stability2) (args : StabilityUpdateArgs) :
    (∀ i ∈ (st.update args).status.jlu,
      coeff args.x i = coeff args.xlower i ∧ coeff (st.update args).status.s i > 0) ∧
    (∀ i ∈ (st.update args).status.juu,
      coeff args.x i = coeff args.xupper i ∧ coeff (st.update args).status.s i < 0) := by
  obtain ⟨_, hjlu, hjuu⟩ := Stability2.status_update st args _ rfl _ rfl
  have hs : (st.update args).status.s = st.updateS args := rfl
  rw [hjlu, hjuu, hs]
  constructor
  · intro i hi
    have := (List.mem_filter.mp hi).2
    simpa [is_lower_unstable] using this
  · intro i hi
    have := (List.mem_filter.mp hi).2
    simpa [is_upper_unstable] using this

theorem Stability2.update_s_basic (st : Stability2) (args : StabilityUpdateArgs)
    (i : Nat) (hi : i ∈ args.jb) : coeff (st.updateS args) i = 0 := by
  unfold Stability2.updateS fillIndexed
  simp only []
  by_cases hl : i < st.s.length
  · have h := coeff_assignFrom_const args.jb
      (assignIndexed st.s args.jn (fun k => coeff (select args.g args.jn) k
        - coeff (trMulVec args.Sbn (select args.g args.jb)) k)) 0 0 0 i hi
      (by simp only [assignIndexed, length_assignFrom]; omega)
    simpa using h
  · apply coeff_of_length_le
    simp only [assignIndexed, length_assignFrom]; omega

/-- C3, refuted as stated: with the sample arguments the interior nonbasic variable `1` is in
the stable range `js` while `s[1] = 2`. -/
theorem Stability2.stable_zero_counterexample :
    ¬ (∀ i ∈ ((Stability2.new 2).update sampleArgs).status.js,
        coeff ((Stability2.new 2).update sampleArgs).status.s i = 0) := by
  with_unfolding_all decide

/-- C3, amended: after `update`, `s[i] = 0` for every basic index `i` (element of `jb`), and
every index of the stable range `js` is neither lower-unstable (`x[i] = xlower[i]` with
`s[i] > 0`) nor upper-unstable (`x[i] = xupper[i]` with `s[i] < 0`). -/
theorem Stability2.stable_range_amended (st : Stability2) (args : StabilityUpdateArgs) :
    (∀ i ∈ args.jb, coeff (st.update args).status.s i = 0) ∧
    (∀ i ∈ (st.update args).status.js,
      ¬ (coeff args.x i = coeff args.xlower i ∧ coeff (st.update args).status.s i > 0) ∧
      ¬ (coeff args.x i = coeff args.xupper i ∧ coeff (st.update args).status.s i < 0)) := by
  obtain ⟨hjs, _, _⟩ := Stability2.status_update st args _ rfl _ rfl
  have hs : (st.update args).status.s = st.updateS args := rfl
  rw [hjs, hs]
  constructor
  · intro i hi
    exact Stability2.update_s_basic st args i hi
  · intro i hi
    obtain ⟨hi1, hlo⟩ := List.mem_filter.mp hi
    have hup := (List.mem_filter.mp hi1).2
    constructor
    · intro hc
      simp [is_lower_unstable, hc.1, hc.2] at hlo
    · intro hc
      simp [is_upper_unstable, hc.1, hc.2] at hup

/-- C4: `update` sets `lambda = tr(R) * g(jb)`, writes `s[jn[k]] = g[jn[k]] − (tr(Sbn) * g(jb))[k]`
on the nonbasic indices and `s = 0` on the basic indices, for a canonical form whose nonbasic
indices are distinct, in range and not basic. -/
theorem Stability2.update_lambda_s (st : Stability2) (args : StabilityUpdateArgs)
    (hnd : args.jn.Nodup) (hdisj : ∀ i ∈ args.jn, i ∉ args.jb)
    (hr : ∀ i ∈ args.jn, i < st.s.length) :
    (st.update args).lambda = trMulVec args.R (select args.g args.jb) ∧
    (∀ k, k < args.jn.length →
      coeff (st.update args).s (args.jn.getD k 0)
        = coeff args.g (args.jn.getD k 0)
          - coeff (trMulVec args.Sbn (select args.g args.jb)) k) ∧
    (∀ i ∈ args.jb, coeff (st.update args).s i = 0) := by
  refine ⟨rfl, ?_, fun i hi => Stability2.update_s_basic st args i hi⟩
  intro k hk
  have hmem : args.jn.getD k 0 ∈ args.jn := by
    rw [List.getD_eq_getElem _ _ hk]; exact List.getElem_mem _
  show coeff (st.updateS args) (args.jn.getD k 0) = _
  unfold Stability2.updateS fillIndexed
  simp only []
  rw [coeff_assignFrom_of_not_hit]
  · have h := coeff_assignFrom_nodup args.jn st.s 0 0
      (fun k => coeff (select args.g args.jn) k
        - coeff (trMulVec args.Sbn (select args.g args.jb)) k) k hk hnd
      (by have := hr _ hmem; omega)
    simp only [Nat.zero_add] at h
    rw [assignIndexed, h, coeff_select _ _ _ hk]
  · intro i hi he
    have : i = args.jn.getD k 0 := by omega
    exact hdisj _ hmem (this ▸ hi)

/-- Evaluation of C4 on the sample arguments: `lambda = [1]`, `s[1] = 3 − 1 = 2`, `s[0] = 0`. -/
theorem Stability2.update_lambda_s_witness :
    ((Stability2.new 2).update sampleArgs).lambda = [1] ∧
    coeff ((Stability2.new 2).update sampleArgs).s 1 = 2 ∧
    coeff ((Stability2.new 2).update sampleArgs).s 0 = 0 :=
  have h := Stability2.update_lambda_s (Stability2.new 2) sampleArgs
    (by decide) (by decide) (by decide)
  ⟨h.1.trans (by decide!), (h.2.1 0 (by decide)).trans (by decide!), h.2.2 0 (by decide)⟩

/-! ## Stepper: the residual vector written by `solve` -/

theorem Stepper.length_solveR (st : Stepper σ) (p : StepperProblem) :
    (st.solveR p).length = st.r.length := by
  simp only [Stepper.solveR, length_forEachIndex, length_assignSegment, length_assignFrom]

/-- Block `a` after `solve`. -/
theorem Stepper.solveR_a (st : Stepper σ) (p : StepperProblem)
    (hlen : st.r.length = 3 * st.n + st.m) (i : Nat) (hi : i < st.n) :
    coeff (st.solveR p) i =
      if i ∈ st.constraints.variablesWithFixedValues then 0
      else -(coeff p.g i + coeff (trMulVec st.constraints.equalityConstraintMatrix p.y) i
              - coeff p.z i - coeff p.w i) := by
  simp only [Stepper.solveR]
  rw [coeff_forEachIndex_of_not_hit, coeff_forEachIndex_of_not_hit, coeff_assignSegment_out]
  · by_cases hf : i ∈ st.constraints.variablesWithFixedValues
    · have h := coeff_assignFrom_const st.constraints.variablesWithFixedValues
        (assignSegment st.r 0 st.n (fun i => -(coeff p.g i
          + coeff (trMulVec st.constraints.equalityConstraintMatrix p.y) i
          - coeff p.z i - coeff p.w i))) 0 0 0 i hf
        (by rw [length_assignSegment]; omega)
      rw [Nat.zero_add] at h
      rw [h, if_pos hf]
    · rw [coeff_assignFrom_of_not_hit, if_neg hf]
      · have h := coeff_assignSegment_in st.r 0 st.n (fun i => -(coeff p.g i
          + coeff (trMulVec st.constraints.equalityConstraintMatrix p.y) i
          - coeff p.z i - coeff p.w i)) i hi (by omega)
        rw [Nat.zero_add] at h
        exact h
      · intro j hj he
        have : j = i := by omega
        exact hf (this ▸ hj)
  · left; exact hi
  · intro j _; omega
  · intro j _
    simp only [length_forEachIndex, length_assignSegment, length_assignFrom]
    omega

/-- Block `b` after `solve`. -/
theorem Stepper.solveR_b (st : Stepper σ) (p : StepperProblem)
    (hlen : st.r.length = 3 * st.n + st.m) (j : Nat) (hj : j < st.m) :
    coeff (st.solveR p) (st.n + j) =
      -(coeff (mulVec st.constraints.equalityConstraintMatrix p.x) j - coeff p.b j) := by
  simp only [Stepper.solveR]
  rw [coeff_forEachIndex_of_not_hit, coeff_forEachIndex_of_not_hit, coeff_assignSegment_in]
  · exact hj
  · simp only [length_assignSegment, length_assignFrom]; omega
  · intro i _; omega
  · intro i _
    simp only [length_forEachIndex, length_assignSegment, length_assignFrom]
    omega

/-- Block `c` after `solve`, on the variables with lower bounds. -/
theorem Stepper.solveR_c_lower (st : Stepper σ) (p : StepperProblem)
    (hlen : st.r.length = 3 * st.n + st.m) (i : Nat) (hi : i < st.n)
    (hmem : i ∈ st.constraints.variablesWithLowerBounds) :
    coeff (st.solveR p) (st.n + st.m + i) = st.options.mu - coeff st.L i * coeff p.z i := by
  simp only [Stepper.solveR]
  rw [coeff_forEachIndex_of_not_hit]
  · exact coeff_forEachIndex_pure _ _ _
      (fun i => st.options.mu - coeff st.L i * coeff p.z i) i hmem
      (by simp only [length_assignSegment, length_assignFrom]; omega)
  · intro j _
    simp only [length_forEachIndex, length_assignSegment, length_assignFrom]
    omega

/-- Block `c` after `solve`, off the variables with lower bounds: left as it was. -/
theorem Stepper.solveR_c_other (st : Stepper σ) (p : StepperProblem)
    (hlen : st.r.length = 3 * st.n + st.m)
    (hfix : ∀ j ∈ st.constraints.variablesWithFixedValues, j < st.n)
    (i : Nat) (hi : i < st.n)
    (hmem : i ∉ st.constraints.variablesWithLowerBounds) :
    coeff (st.solveR p) (st.n + st.m + i) = coeff st.r (st.n + st.m + i) := by
  simp only [Stepper.solveR]
  rw [coeff_forEachIndex_of_not_hit, coeff_forEachIndex_of_not_hit, coeff_assignSegment_out,
    coeff_assignFrom_of_not_hit, coeff_assignSegment_out]
  · right; omega
  · intro j hj
    have := hfix j hj
    omega
  · right; omega
  · intro j hj he
    have : j = i := by omega
    exact hmem (this ▸ hj)
  · intro j _
    simp only [length_forEachIndex, length_assignSegment, length_assignFrom]
    omega

/-- Block `d` after `solve`, on the variables with upper bounds. -/
theorem Stepper.solveR_d_upper (st : Stepper σ) (p : StepperProblem)
    (hlen : st.r.length = 3 * st.n + st.m) (i : Nat) (hi : i < st.n)
    (hmem : i ∈ st.constraints.variablesWithUpperBounds) :
    coeff (st.solveR p) (2 * st.n + st.m + i) = st.options.mu - coeff st.U i * coeff p.w i := by
  simp only [Stepper.solveR]
  have hoff : (forEachIndex
      (assignSegment
        (assignFrom
          (assignSegment st.r 0 st.n (fun i => -(coeff p.g i
            + coeff (trMulVec st.constraints.equalityConstraintMatrix p.y) i
            - coeff p.z i - coeff p.w i)))
          0 st.constraints.variablesWithFixedValues 0 (fun _ => 0))
        st.n st.m (fun i => -(coeff (mulVec st.constraints.equalityConstraintMatrix p.x) i
          - coeff p.b i)))
      (st.n + st.m) st.constraints.variablesWithLowerBounds
      (fun _ i => st.options.mu - coeff st.L i * coeff p.z i)).length - st.n
        = 2 * st.n + st.m := by
    simp only [length_forEachIndex, length_assignSegment, length_assignFrom]; omega
  rw [hoff]
  exact coeff_forEachIndex_pure _ _ _
    (fun i => st.options.mu - coeff st.U i * coeff p.w i) i hmem
    (by simp only [length_forEachIndex, length_assignSegment, length_assignFrom]; omega)

/-- Block `d` after `solve`, off the variables with upper bounds: left as it was. -/
theorem Stepper.solveR_d_other (st : Stepper σ) (p : StepperProblem)
    (hlen : st.r.length = 3 * st.n + st.m)
    (hfix : ∀ j ∈ st.constraints.variablesWithFixedValues, j < st.n)
    (hlow : ∀ j ∈ st.constraints.variablesWithLowerBounds, j < st.n)
    (i : Nat) (hi : i < st.n)
    (hmem : i ∉ st.constraints.variablesWithUpperBounds) :
    coeff (st.solveR p) (2 * st.n + st.m + i) = coeff st.r (2 * st.n + st.m + i) := by
  simp only [Stepper.solveR]
  rw [coeff_forEachIndex_of_not_hit, coeff_forEachIndex_of_not_hit, coeff_assignSegment_out,
    coeff_assignFrom_of_not_hit, coeff_assignSegment_out]
  · right; omega
  · intro j hj
    have := hfix j hj
    omega
  · right; omega
  · intro j hj
    have := hlow j hj
    omega
  · intro j hj he
    simp only [length_forEachIndex, length_assignSegment, length_assignFrom] at he
    have : j = i := by omega
    exact hmem (this ▸ hj)

/-! ## Stepper: the bound slacks written by `decompose` -/

theorem clampLower_idem (mu a : Scalar) : clampLower mu (clampLower mu a) = clampLower mu a := by
  unfold clampLower
  by_cases h : a > 0
  · simp [h]
  · simp [h]

theorem clampUpper_idem (mu a : Scalar) : clampUpper mu (clampUpper mu a) = clampUpper mu a := by
  unfold clampUpper
  by_cases h : a < 0
  · simp [h]
  · simp [h]

theorem clampLower_pos (mu a : Scalar) (hmu : 0 < mu) : 0 < clampLower mu a := by
  unfold clampLower
  by_cases h : a > 0
  · simp [h]
  · simp [h, hmu]

theorem clampUpper_neg (mu a : Scalar) (hmu : 0 < mu) : clampUpper mu a < 0 := by
  unfold clampUpper
  by_cases h : a < 0
  · simp [h]
  · simp [h, hmu]

theorem Stepper.decompose_lengths (slv : IpSaddlePointSolver σ) (st : Stepper σ)
    (p : StepperProblem) :
    (st.decompose slv p).Z.length = st.Z.length ∧ (st.decompose slv p).W.length = st.W.length ∧
    (st.decompose slv p).L.length = st.L.length ∧ (st.decompose slv p).U.length = st.U.length := by
  simp only [Stepper.decompose, assignIndexed, length_forEachIndex, length_assignFrom, and_self]

theorem Stepper.decompose_Z_lower (slv : IpSaddlePointSolver σ) (st : Stepper σ)
    (p : StepperProblem) (i : Nat) (hi : i ∈ st.constraints.variablesWithLowerBounds)
    (hr : i < st.Z.length) : coeff (st.decompose slv p).Z i = coeff p.z i := by
  have h := coeff_assignFrom_consistent (coeff p.z) st.constraints.variablesWithLowerBounds
    st.Z 0 0 (fun k => coeff (select p.z st.constraints.variablesWithLowerBounds) k)
    (fun t ht => by simp only [Nat.zero_add]; exact coeff_select _ _ _ ht) i hi (by omega)
  rw [Nat.zero_add] at h
  exact h

theorem Stepper.decompose_W_upper (slv : IpSaddlePointSolver σ) (st : Stepper σ)
    (p : StepperProblem) (i : Nat) (hi : i ∈ st.constraints.variablesWithUpperBounds)
    (hr : i < st.W.length) : coeff (st.decompose slv p).W i = coeff p.w i := by
  have h := coeff_assignFrom_consistent (coeff p.w) st.constraints.variablesWithUpperBounds
    st.W 0 0 (fun k => coeff (select p.w st.constraints.variablesWithUpperBounds) k)
    (fun t ht => by simp only [Nat.zero_add]; exact coeff_select _ _ _ ht) i hi (by omega)
  rw [Nat.zero_add] at h
  exact h

theorem Stepper.decompose_ZL_other (slv : IpSaddlePointSolver σ) (st : Stepper σ)
    (p : StepperProblem) (i : Nat) (hi : i ∉ st.constraints.variablesWithLowerBounds) :
    coeff (st.decompose slv p).Z i = coeff st.Z i ∧
    coeff (st.decompose slv p).L i = coeff st.L i := by
  have hnh : ∀ j ∈ st.constraints.variablesWithLowerBounds, 0 + j ≠ i := by
    intro j hj he
    have : j = i := by omega
    exact hi (this ▸ hj)
  constructor
  · exact coeff_assignFrom_of_not_hit _ _ _ _ _ _ hnh
  · simp only [Stepper.decompose]
    rw [coeff_forEachIndex_of_not_hit _ _ _ _ _ hnh]
    exact coeff_assignFrom_of_not_hit _ _ _ _ _ _ hnh

theorem Stepper.decompose_WU_other (slv : IpSaddlePointSolver σ) (st : Stepper σ)
    (p : StepperProblem) (i : Nat) (hi : i ∉ st.constraints.variablesWithUpperBounds) :
    coeff (st.decompose slv p).W i = coeff st.W i ∧
    coeff (st.decompose slv p).U i = coeff st.U i := by
  have hnh : ∀ j ∈ st.constraints.variablesWithUpperBounds, 0 + j ≠ i := by
    intro j hj he
    have : j = i := by omega
    exact hi (this ▸ hj)
  constructor
  · exact coeff_assignFrom_of_not_hit _ _ _ _ _ _ hnh
  · simp only [Stepper.decompose]
    rw [coeff_forEachIndex_of_not_hit _ _ _ _ _ hnh]
    exact coeff_assignFrom_of_not_hit _ _ _ _ _ _ hnh

/-- On a variable with a lower bound, `L` is the clamped value of the slack just assigned. -/
theorem Stepper.decompose_L_lower (slv : IpSaddlePointSolver σ) (st : Stepper σ)
    (p : StepperProblem) (i : Nat) (hi : i ∈ st.constraints.variablesWithLowerBounds)
    (hr : i < st.L.length) :
    coeff (st.decompose slv p).L i = clampLower st.options.mu
      (coeff (assignIndexed st.L st.constraints.variablesWithLowerBounds
        (fun k => coeff (select p.x st.constraints.variablesWithLowerBounds) k
          - coeff p.xlower k)) i) := by
  exact coeff_forEachIndex_map (clampLower st.options.mu) (clampLower_idem _) _ _ i hi
    (by simp only [assignIndexed, length_assignFrom]; exact hr)

/-- On a variable with an upper bound, `U` is the clamped value of the slack just assigned. -/
theorem Stepper.decompose_U_upper (slv : IpSaddlePointSolver σ) (st : Stepper σ)
    (p : StepperProblem) (i : Nat) (hi : i ∈ st.constraints.variablesWithUpperBounds)
    (hr : i < st.U.length) :
    coeff (st.decompose slv p).U i = clampUpper st.options.mu
      (coeff (assignIndexed st.U st.constraints.variablesWithUpperBounds
        (fun k => coeff (select p.x st.constraints.variablesWithUpperBounds) k
          - coeff p.xupper k)) i) := by
  exact coeff_forEachIndex_map (clampUpper st.options.mu) (clampUpper_idem _) _ _ i hi
    (by simp only [assignIndexed, length_assignFrom]; exact hr)

/-! ## Stepper: invariants of the reachable states -/

/-- Shape of every reachable state: the constraints and dimensions are those of construction,
the slack vectors have length `n` and the residual vector has length `3n + m`. -/
theorem Stepper.reachable_shape (slv : IpSaddlePointSolver σ) (P : Options → Prop)
    (c : Constraints) (st : Stepper σ) (ready : Bool)
    (h : Stepper.Reachable slv P c st ready) :
    st.constraints = c ∧ st.n = c.numVariables ∧ st.m = c.numLinearEqualityConstraints ∧
    st.Z.length = st.n ∧ st.W.length = st.n ∧ st.L.length = st.n ∧ st.U.length = st.n ∧
    st.r.length = 3 * st.n + st.m ∧ P st.options := by
  induction h with
  | new o ho =>
    simp [Stepper.new, zeros, ones, ho]
  | setOptions st ready o ho _ ih =>
    obtain ⟨h1, h2, h3, h4, h5, h6, h7, h8, _⟩ := ih
    exact ⟨h1, h2, h3, h4, h5, h6, h7, h8, ho⟩
  | decompose st ready p _ ih =>
    obtain ⟨h1, h2, h3, h4, h5, h6, h7, h8, h9⟩ := ih
    obtain ⟨l1, l2, l3, l4⟩ := Stepper.decompose_lengths slv st p
    exact ⟨h1, h2, h3, l1.trans h4, l2.trans h5, l3.trans h6, l4.trans h7, h8, h9⟩
  | solve st ready p _ ih =>
    obtain ⟨h1, h2, h3, h4, h5, h6, h7, h8, h9⟩ := ih
    exact ⟨h1, h2, h3, h4, h5, h6, h7, (Stepper.length_solveR st p).trans h8, h9⟩

/-- The blocks `c` and `d` of the residual vector stay zero off the bounded variables. -/
theorem Stepper.reachable_residual_zero (slv : IpSaddlePointSolver σ) (P : Options → Prop)
    (c : Constraints) (hc : c.indicesInRange) (st : Stepper σ) (ready : Bool)
    (h : Stepper.Reachable slv P c st ready) (i : Nat) (hi : i < c.numVariables) :
    (i ∉ c.variablesWithLowerBounds → coeff st.r (st.n + st.m + i) = 0) ∧
    (i ∉ c.variablesWithUpperBounds → coeff st.r (2 * st.n + st.m + i) = 0) := by
  induction h with
  | new o ho =>
    exact ⟨fun _ => coeff_zeros _ _, fun _ => coeff_zeros _ _⟩
  | setOptions st ready o ho _ ih => exact ih
  | decompose st ready p _ ih => exact ih
  | solve st ready p hst ih =>
    obtain ⟨h1, h2, _, _, _, _, _, h8, _⟩ := Stepper.reachable_shape slv P c st ready hst
    obtain ⟨hlow, _, hfix⟩ := hc
    have hi' : i < st.n := by omega
    constructor
    · intro hmem
      have := Stepper.solveR_c_other st p h8 (by rw [h1, h2]; exact hfix) i hi'
        (by rw [h1]; exact hmem)
      exact this.trans (ih.1 hmem)
    · intro hmem
      have := Stepper.solveR_d_other st p h8 (by rw [h1, h2]; exact hfix)
        (by rw [h1, h2]; exact hlow) i hi' (by rw [h1]; exact hmem)
      exact this.trans (ih.2 hmem)

/-! ## Stepper: the claims -/

/-- C5: after `decompose(problem)`, for the `k`-th variable `i` with a lower bound,
`L[i] = x[i] − xlower[k]` if that difference is positive and `L[i] = mu` otherwise; for the
`k`-th variable `i` with an upper bound, `U[i] = x[i] − xupper[k]` if that difference is
negative and `U[i] = −mu` otherwise (`xlower[k]`, `xupper[k]` being the bounds of that
variable, the bounded variables being listed without repetition). -/
theorem Stepper.decompose_bound_slacks (slv : IpSaddlePointSolver σ) (P : Options → Prop)
    (c : Constraints) (st : Stepper σ) (ready : Bool)
    (h : Stepper.Reachable slv P c st ready) (hc : c.indicesInRange)
    (hl : c.variablesWithLowerBounds.Nodup) (hu : c.variablesWithUpperBounds.Nodup)
    (p : StepperProblem) :
    (∀ k, k < c.variablesWithLowerBounds.length →
      coeff (st.decompose slv p).L (c.variablesWithLowerBounds.getD k 0) =
        if coeff p.x (c.variablesWithLowerBounds.getD k 0) - coeff p.xlower k > 0
        then coeff p.x (c.variablesWithLowerBounds.getD k 0) - coeff p.xlower k
        else st.options.mu) ∧
    (∀ k, k < c.variablesWithUpperBounds.length →
      coeff (st.decompose slv p).U (c.variablesWithUpperBounds.getD k 0) =
        if coeff p.x (c.variablesWithUpperBounds.getD k 0) - coeff p.xupper k < 0
        then coeff p.x (c.variablesWithUpperBounds.getD k 0) - coeff p.xupper k
        else -st.options.mu) := by
  obtain ⟨h1, h2, _, _, _, h6, h7, _, _⟩ := Stepper.reachable_shape slv P c st ready h
  subst h1
  obtain ⟨hlow, hupp, _⟩ := hc
  constructor
  · intro k hk
    have hmem : st.constraints.variablesWithLowerBounds.getD k 0
        ∈ st.constraints.variablesWithLowerBounds := by
      rw [List.getD_eq_getElem _ _ hk]; exact List.getElem_mem _
    have hr : st.constraints.variablesWithLowerBounds.getD k 0 < st.L.length := by
      have := hlow _ hmem; omega
    rw [Stepper.decompose_L_lower slv st p _ hmem hr]
    have ha := coeff_assignFrom_nodup st.constraints.variablesWithLowerBounds st.L 0 0
      (fun k => coeff (select p.x st.constraints.variablesWithLowerBounds) k
        - coeff p.xlower k) k hk hl (by omega)
    simp only [Nat.zero_add] at ha
    rw [assignIndexed, ha, coeff_select _ _ _ hk]
    rfl
  · intro k hk
    have hmem : st.constraints.variablesWithUpperBounds.getD k 0
        ∈ st.constraints.variablesWithUpperBounds := by
      rw [List.getD_eq_getElem _ _ hk]; exact List.getElem_mem _
    have hr : st.constraints.variablesWithUpperBounds.getD k 0 < st.U.length := by
      have := hupp _ hmem; omega
    rw [Stepper.decompose_U_upper slv st p _ hmem hr]
    have ha := coeff_assignFrom_nodup st.constraints.variablesWithUpperBounds st.U 0 0
      (fun k => coeff (select p.x st.constraints.variablesWithUpperBounds) k
        - coeff p.xupper k) k hk hu (by omega)
    simp only [Nat.zero_add] at ha
    rw [assignIndexed, ha, coeff_select _ _ _ hk]
    rfl

/-- Evaluation of C5 on a freshly constructed stepper with the sample constraints:
`L[0] = 2 − 1`, `L[1] = mu` (variable `1` sits on its lower bound), `U[1] = 0 − 3`. -/
theorem Stepper.decompose_bound_slacks_witness :
    coeff ((Stepper.new idleSolver sampleOptions sampleConstraints).decompose idleSolver sampleProblem).L 0 = 1 ∧
    coeff ((Stepper.new idleSolver sampleOptions sampleConstraints).decompose idleSolver sampleProblem).L 1 = 1/10 ∧
    coeff ((Stepper.new idleSolver sampleOptions sampleConstraints).decompose idleSolver sampleProblem).U 1 = -3 :=
  have h := Stepper.decompose_bound_slacks idleSolver (fun _ => True) sampleConstraints _ false
    (Stepper.Reachable.new sampleOptions trivial) (by decide) (by decide) (by decide)
    sampleProblem
  ⟨(h.1 0 (by decide)).trans (by decide!), (h.1 1 (by decide)).trans (by decide!),
    (h.2 0 (by decide)).trans (by decide!)⟩

/-- C6, refuted as stated: after `decompose` and `solve` on the sample constraints with
`mu = 1/10 > 0`, variable `0` (which has no upper bound) has `U[0] = 1 > 0`. -/
theorem Stepper.slack_signs_counterexample :
    Stepper.Reachable idleSolver (fun o => 0 < o.mu) sampleConstraints
      (((Stepper.new idleSolver sampleOptions sampleConstraints).decompose idleSolver
        sampleProblem).solve idleSolver sampleProblem) true ∧
    0 < sampleConstraints.numVariables ∧
    ¬ (coeff (((Stepper.new idleSolver sampleOptions sampleConstraints).decompose idleSolver
        sampleProblem).solve idleSolver sampleProblem).U 0 ≤ 0) :=
  ⟨Stepper.Reachable.solve _ _ _ (Stepper.Reachable.decompose _ _ _
      (Stepper.Reachable.new sampleOptions (by decide!))),
    by decide, by decide!⟩

/-- C6, amended: in every state reached with `mu > 0`, `L[i] > 0` for every variable `i`;
`U[i] = 1` for every variable without an upper bound and for every variable before the first
`decompose`; and once `decompose` has been called `U[i] < 0` for every variable with an
upper bound. -/
theorem Stepper.slack_signs_amended (slv : IpSaddlePointSolver σ) (c : Constraints)
    (st : Stepper σ) (ready : Bool)
    (h : Stepper.Reachable slv (fun o => 0 < o.mu) c st ready)
    (i : Nat) (hi : i < c.numVariables) :
    0 < coeff st.L i ∧
    (i ∉ c.variablesWithUpperBounds → coeff st.U i = 1) ∧
    (ready = false → coeff st.U i = 1) ∧
    (i ∈ c.variablesWithUpperBounds → ready = true → coeff st.U i < 0) := by
  induction h with
  | new o ho =>
    have h1 : coeff (Stepper.new slv o c).L i = 1 := coeff_ones _ _ hi
    have h2 : coeff (Stepper.new slv o c).U i = 1 := coeff_ones _ _ hi
    rw [h1, h2]
    exact ⟨by norm_num, fun _ => rfl, fun _ => rfl, fun _ hf => by simp at hf⟩
  | setOptions st ready o ho _ ih => exact ih
  | decompose st ready p hst ih =>
    obtain ⟨h1, h2, _, _, _, h6, h7, _, hmu⟩ :=
      Stepper.reachable_shape slv (fun o => 0 < o.mu) c st ready hst
    subst h1
    obtain ⟨ihL, ihU, _, _⟩ := ih
    refine ⟨?_, ?_, fun hf => by simp at hf, ?_⟩
    · by_cases hmem : i ∈ st.constraints.variablesWithLowerBounds
      · rw [Stepper.decompose_L_lower slv st p i hmem (by omega)]
        exact clampLower_pos _ _ hmu
      · rw [(Stepper.decompose_ZL_other slv st p i hmem).2]
        exact ihL
    · intro hmem
      rw [(Stepper.decompose_WU_other slv st p i hmem).2]
      exact ihU hmem
    · intro hmem _
      rw [Stepper.decompose_U_upper slv st p i hmem (by omega)]
      exact clampUpper_neg _ _ hmu
  | solve st ready p _ ih => exact ih

/-- Evaluation of the amended C6 after `decompose` on the sample constraints, variable `1`. -/
theorem Stepper.slack_signs_amended_witness :
    0 < coeff ((Stepper.new idleSolver sampleOptions sampleConstraints).decompose idleSolver sampleProblem).L 1 ∧
    coeff ((Stepper.new idleSolver sampleOptions sampleConstraints).decompose idleSolver sampleProblem).U 1 < 0 :=
  have h := Stepper.slack_signs_amended idleSolver sampleConstraints _ true
    (Stepper.Reachable.decompose _ _ sampleProblem
      (Stepper.Reachable.new sampleOptions (by decide!))) 1 (by decide)
  ⟨h.1, h.2.2.2 (by decide) rfl⟩

/-- C7: in every reachable state, a variable without a lower bound has `Z[i] = 0` and
`L[i] = 1`, and a variable without an upper bound has `W[i] = 0` and `U[i] = 1`. -/
theorem Stepper.unbounded_defaults (slv : IpSaddlePointSolver σ) (P : Options → Prop)
    (c : Constraints) (st : Stepper σ) (ready : Bool)
    (h : Stepper.Reachable slv P c st ready) (i : Nat) (hi : i < c.numVariables) :
    (i ∉ c.variablesWithLowerBounds → coeff st.Z i = 0 ∧ coeff st.L i = 1) ∧
    (i ∉ c.variablesWithUpperBounds → coeff st.W i = 0 ∧ coeff st.U i = 1) := by
  induction h with
  | new o ho =>
    exact ⟨fun _ => ⟨coeff_zeros _ _, coeff_ones _ _ hi⟩,
      fun _ => ⟨coeff_zeros _ _, coeff_ones _ _ hi⟩⟩
  | setOptions st ready o ho _ ih => exact ih
  | decompose st ready p hst ih =>
    obtain ⟨h1, _⟩ := Stepper.reachable_shape slv P c st ready hst
    subst h1
    constructor
    · intro hmem
      obtain ⟨e1, e2⟩ := Stepper.decompose_ZL_other slv st p i hmem
      rw [e1, e2]
      exact ih.1 hmem
    · intro hmem
      obtain ⟨e1, e2⟩ := Stepper.decompose_WU_other slv st p i hmem
      rw [e1, e2]
      exact ih.2 hmem
  | solve st ready p _ ih => exact ih

/-- Evaluation of C7 after `decompose` and `solve` on the sample constraints: variable `2` has
no bounds, variable `0` has no upper bound. -/
theorem Stepper.unbounded_defaults_witness :
    coeff (((Stepper.new idleSolver sampleOptions sampleConstraints).decompose idleSolver sampleProblem).solve idleSolver sampleProblem).Z 2 = 0 ∧
    coeff (((Stepper.new idleSolver sampleOptions sampleConstraints).decompose idleSolver sampleProblem).solve idleSolver sampleProblem).L 2 = 1 ∧
    coeff (((Stepper.new idleSolver sampleOptions sampleConstraints).decompose idleSolver sampleProblem).solve idleSolver sampleProblem).W 0 = 0 ∧
    coeff (((Stepper.new idleSolver sampleOptions sampleConstraints).decompose idleSolver sampleProblem).solve idleSolver sampleProblem).U 0 = 1 :=
  have hr := Stepper.Reachable.solve _ _ sampleProblem
    (Stepper.Reachable.decompose _ _ sampleProblem
      (@Stepper.Reachable.new Unit idleSolver (fun _ => True) sampleConstraints
        sampleOptions trivial))
  have h2 := Stepper.unbounded_defaults idleSolver (fun _ => True) sampleConstraints _ true hr
    2 (by decide)
  have h0 := Stepper.unbounded_defaults idleSolver (fun _ => True) sampleConstraints _ true hr
    0 (by decide)
  ⟨(h2.1 (by decide)).1, (h2.1 (by decide)).2, (h0.2 (by decide)).1, (h0.2 (by decide)).2⟩

/-- C8, evaluated on a fixed variable that also has a lower bound: after `decompose`,
variable `0` of `fixedBoundedConstraints` is fixed and yet `Z[0] = z[0] = 5` and
`L[0] = x[0] − xlower[0] = 2`, not the values `0` and `1` of a fixed variable. -/
theorem Stepper.fixed_bounded_evaluation :
    0 ∈ fixedBoundedConstraints.variablesWithFixedValues ∧
    coeff ((Stepper.new idleSolver sampleOptions fixedBoundedConstraints).decompose idleSolver
      fixedBoundedProblem).Z 0 = 5 ∧
    coeff ((Stepper.new idleSolver sampleOptions fixedBoundedConstraints).decompose idleSolver
      fixedBoundedProblem).L 0 = 2 := by
  decide!

/-- C9: after `solve(problem)`, the first block of the residual is
`a[i] = −(g + tr(A)·y − z − w)[i]` on every non-fixed variable and `a[i] = 0` on every fixed
variable, and the second block is `b = −(A·x − problem.b)`. -/
theorem Stepper.solve_residual_ab (slv : IpSaddlePointSolver σ) (P : Options → Prop)
    (c : Constraints) (st : Stepper σ) (ready : Bool)
    (h : Stepper.Reachable slv P c st ready) (p : StepperProblem) :
    (∀ i, i < c.numVariables →
      (i ∉ c.variablesWithFixedValues →
        (st.solve slv p).a i =
          -(coeff p.g i + coeff (trMulVec c.equalityConstraintMatrix p.y) i
            - coeff p.z i - coeff p.w i)) ∧
      (i ∈ c.variablesWithFixedValues → (st.solve slv p).a i = 0)) ∧
    (∀ j, j < c.numLinearEqualityConstraints →
      (st.solve slv p).b j = -(coeff (mulVec c.equalityConstraintMatrix p.x) j - coeff p.b j)) := by
  obtain ⟨h1, h2, h3, _, _, _, _, h8, _⟩ := Stepper.reachable_shape slv P c st ready h
  subst h1
  constructor
  · intro i hi
    have ha : (st.solve slv p).a i = coeff (st.solveR p) i := rfl
    rw [ha, Stepper.solveR_a st p h8 i (by omega)]
    constructor
    · intro hf; rw [if_neg hf]
    · intro hf; rw [if_pos hf]
  · intro j hj
    have hb : (st.solve slv p).b j = coeff (st.solveR p) (st.n + j) := rfl
    rw [hb, Stepper.solveR_b st p h8 j (by omega)]

/-- Evaluation of C9 on the sample constraints and problem: `a[0] = −(1 + 1 − 4 − 0)`,
`a[2] = 0` (fixed), `b[0] = −(7 − 6)`. -/
theorem Stepper.solve_residual_ab_witness :
    ((Stepper.new idleSolver sampleOptions sampleConstraints).solve idleSolver sampleProblem).a 0 = 2 ∧
    ((Stepper.new idleSolver sampleOptions sampleConstraints).solve idleSolver sampleProblem).a 2 = 0 ∧
    ((Stepper.new idleSolver sampleOptions sampleConstraints).solve idleSolver sampleProblem).b 0 = -1 :=
  have h := Stepper.solve_residual_ab idleSolver (fun _ => True) sampleConstraints _ false
    (Stepper.Reachable.new sampleOptions trivial) sampleProblem
  ⟨((h.1 0 (by decide)).1 (by decide)).trans (by decide!), (h.1 2 (by decide)).2 (by decide),
    (h.2 0 (by decide)).trans (by decide!)⟩

/-- C10: after `decompose(problem)` followed by `solve(problem)`, from any reachable state,
`c[i] = mu − L[i]·Z[i]` on every lower-bounded variable and `c[i] = 0` on every other one,
`d[i] = mu − U[i]·W[i]` on every upper-bounded variable and `d[i] = 0` on every other one,
`Z, W, L, U` being the slack vectors of the stepper and the constraints listing variable
indices only. -/
theorem Stepper.solve_residual_cd (slv : IpSaddlePointSolver σ) (P : Options → Prop)
    (c : Constraints) (st : Stepper σ) (ready : Bool)
    (h : Stepper.Reachable slv P c st ready) (hc : c.indicesInRange) (p : StepperProblem)
    (i : Nat) (hi : i < c.numVariables) :
    (i ∈ c.variablesWithLowerBounds →
      ((st.decompose slv p).solve slv p).c i =
        ((st.decompose slv p).solve slv p).options.mu
          - coeff ((st.decompose slv p).solve slv p).L i
            * coeff ((st.decompose slv p).solve slv p).Z i) ∧
    (i ∉ c.variablesWithLowerBounds → ((st.decompose slv p).solve slv p).c i = 0) ∧
    (i ∈ c.variablesWithUpperBounds →
      ((st.decompose slv p).solve slv p).d i =
        ((st.decompose slv p).solve slv p).options.mu
          - coeff ((st.decompose slv p).solve slv p).U i
            * coeff ((st.decompose slv p).solve slv p).W i) ∧
    (i ∉ c.variablesWithUpperBounds → ((st.decompose slv p).solve slv p).d i = 0) := by
  have hd := Stepper.Reachable.decompose st ready p h
  have hs := Stepper.Reachable.solve _ true p hd
  obtain ⟨h1, h2, h3, h4, h5, _, _, h8, _⟩ := Stepper.reachable_shape slv P c st ready h
  obtain ⟨_, _, _, _, _, _, _, d8, _⟩ :=
    Stepper.reachable_shape slv P c (st.decompose slv p) true hd
  obtain ⟨z1, z2⟩ := Stepper.reachable_residual_zero slv P c hc _ true hs i hi
  have hi' : i < (st.decompose slv p).n := by
    show i < st.n
    omega
  have hlen : ((st.decompose slv p).solve slv p).r.length - ((st.decompose slv p).solve slv p).n
      = 2 * (st.decompose slv p).n + (st.decompose slv p).m := by
    show ((st.decompose slv p).solveR p).length - (st.decompose slv p).n = _
    rw [Stepper.length_solveR, d8]; omega
  have hcE : ((st.decompose slv p).solve slv p).c i
      = coeff ((st.decompose slv p).solveR p)
          ((st.decompose slv p).n + (st.decompose slv p).m + i) := rfl
  have hdE : ((st.decompose slv p).solve slv p).d i
      = coeff ((st.decompose slv p).solveR p)
          (2 * (st.decompose slv p).n + (st.decompose slv p).m + i) := by
    unfold Stepper.d
    rw [hlen]
    rfl
  refine ⟨?_, ?_, ?_, ?_⟩
  · intro hmem
    have hmem' : i ∈ (st.decompose slv p).constraints.variablesWithLowerBounds := by
      show i ∈ st.constraints.variablesWithLowerBounds
      rw [h1]; exact hmem
    rw [hcE, Stepper.solveR_c_lower _ p d8 i hi' hmem']
    have hZ : coeff ((st.decompose slv p).solve slv p).Z i = coeff p.z i :=
      Stepper.decompose_Z_lower slv st p i (by rw [h1]; exact hmem) (by omega)
    rw [hZ]
    rfl
  · intro hmem
    exact z1 hmem
  · intro hmem
    have hmem' : i ∈ (st.decompose slv p).constraints.variablesWithUpperBounds := by
      show i ∈ st.constraints.variablesWithUpperBounds
      rw [h1]; exact hmem
    rw [hdE, Stepper.solveR_d_upper _ p d8 i hi' hmem']
    have hW : coeff ((st.decompose slv p).solve slv p).W i = coeff p.w i :=
      Stepper.decompose_W_upper slv st p i (by rw [h1]; exact hmem) (by omega)
    rw [hW]
    rfl
  · intro hmem
    rw [hdE]
    exact z2 hmem

/-- Evaluation of C10 on the sample constraints and problem after an earlier `decompose` and
`solve`: `c[1] = mu − mu·5`, `d[1] = mu − (−3)·(−2)`, `c[2] = 0` and `d[0] = 0`. -/
theorem Stepper.solve_residual_cd_witness :
    (((((Stepper.new idleSolver sampleOptions sampleConstraints).decompose idleSolver fixedBoundedProblem).solve idleSolver
      fixedBoundedProblem).decompose idleSolver sampleProblem).solve idleSolver
      sampleProblem).c 1 = 1/10 - (1/10) * 5 ∧
    (((((Stepper.new idleSolver sampleOptions sampleConstraints).decompose idleSolver fixedBoundedProblem).solve idleSolver
      fixedBoundedProblem).decompose idleSolver sampleProblem).solve idleSolver
      sampleProblem).d 1 = 1/10 - (-3) * (-2) ∧
    (((((Stepper.new idleSolver sampleOptions sampleConstraints).decompose idleSolver fixedBoundedProblem).solve idleSolver
      fixedBoundedProblem).decompose idleSolver sampleProblem).solve idleSolver
      sampleProblem).c 2 = 0 ∧
    (((((Stepper.new idleSolver sampleOptions sampleConstraints).decompose idleSolver fixedBoundedProblem).solve idleSolver
      fixedBoundedProblem).decompose idleSolver sampleProblem).solve idleSolver
      sampleProblem).d 0 = 0 :=
  have hr := Stepper.Reachable.solve _ _ fixedBoundedProblem
    (Stepper.Reachable.decompose _ _ fixedBoundedProblem
      (@Stepper.Reachable.new Unit idleSolver (fun _ => True) sampleConstraints
        sampleOptions trivial))
  have h0 := Stepper.solve_residual_cd idleSolver (fun _ => True) sampleConstraints _ true hr
    (by decide) sampleProblem 0 (by decide)
  have h1 := Stepper.solve_residual_cd idleSolver (fun _ => True) sampleConstraints _ true hr
    (by decide) sampleProblem 1 (by decide)
  have h2 := Stepper.solve_residual_cd idleSolver (fun _ => True) sampleConstraints _ true hr
    (by decide) sampleProblem 2 (by decide)
  ⟨(h1.1 (by decide)).trans (by decide!), (h1.2.2.1 (by decide)).trans (by decide!),
    h2.2.1 (by decide), h0.2.2.2 (by decide)⟩

/-! ## Stepper: the step on the fixed variables -/

/-- C11: for every problem and every set of fixed variables, after `decompose` and `solve`
the step has `Δx[i] = 0` on every fixed variable `i`, the saddle-point solver honouring its
fixed-variable mask (it returns `x[f] = a[f]` on the fixed rows). -/
theorem Stepper.fixed_step_zero (slv : IpSaddlePointSolver σ) (P : Options → Prop)
    (c : Constraints) (st : Stepper σ) (ready : Bool)
    (h : Stepper.Reachable slv P c st ready) (hmask : slv.HonoursFixedMask)
    (p q : StepperProblem) (i : Nat) (hi : i ∈ c.variablesWithFixedValues)
    (hn : i < c.numVariables) :
    ((st.decompose slv p).solve slv q).dx i = 0 := by
  obtain ⟨h1, h2, _, _, _, _, _, h8, _⟩ := Stepper.reachable_shape slv P c st ready h
  subst h1
  have hm := hmask st.solver (st.decompose slv p |>.matrix p)
    ((st.decompose slv p).solveR q) (st.decompose slv p).s st.n st.m i hi (by omega)
  have hs : ((st.decompose slv p).solve slv q).dx i
      = coeff (slv.solve (slv.decompose st.solver ((st.decompose slv p).matrix p))
          ((st.decompose slv p).solveR q) st.n st.m (st.decompose slv p).s).2 i := rfl
  rw [hs, hm, Stepper.solveR_a (st.decompose slv p) q h8 i (by show i < st.n; omega)]
  exact if_pos hi

/-- Evaluation of C11 on the sample constraints, whose variable `2` is fixed. -/
theorem Stepper.fixed_step_zero_witness :
    (((Stepper.new echoSolver sampleOptions sampleConstraints).decompose echoSolver
      sampleProblem).solve echoSolver sampleProblem).dx 2 = 0 :=
  Stepper.fixed_step_zero echoSolver (fun _ => True) sampleConstraints _ false
    (Stepper.Reachable.new sampleOptions trivial) (fun _ _ _ _ _ _ _ _ _ => rfl)
    sampleProblem sampleProblem 2 (by decide) (by decide)

/-! ## Stepper: the step of the all-stable scenario -/

theorem getD_range (n i : Nat) (hi : i < n) : (List.range n).getD i 0 = i := by
  rw [List.getD_eq_getElem _ _ (by simpa using hi), List.getElem_range]

/-- Slack vectors after `decompose` on a fresh stepper whose variables all have a lower bound
`0 < x`, none an upper bound. -/
theorem Stepper.fresh_decompose_stable (slv : IpSaddlePointSolver σ) (o : Options)
    (n m : Nat) (A : Matrix) (ifixed : Indices) (p : StepperProblem)
    (hx : ∀ i, i < n → 0 < coeff p.x i) (hxl : ∀ i, i < n → coeff p.xlower i = 0)
    (i : Nat) (hi : i < n) :
    coeff ((Stepper.new slv o ⟨n, m, A, List.range n, [], ifixed⟩).decompose slv p).Z i
      = coeff p.z i ∧
    coeff ((Stepper.new slv o ⟨n, m, A, List.range n, [], ifixed⟩).decompose slv p).L i
      = coeff p.x i ∧
    coeff ((Stepper.new slv o ⟨n, m, A, List.range n, [], ifixed⟩).decompose slv p).W i = 0 ∧
    coeff ((Stepper.new slv o ⟨n, m, A, List.range n, [], ifixed⟩).decompose slv p).U i = 1 := by
  have hmem : i ∈ (Stepper.new slv o
      ⟨n, m, A, List.range n, [], ifixed⟩).constraints.variablesWithLowerBounds :=
    List.mem_range.mpr hi
  have hlen : i < (List.replicate n (1 : Scalar)).length := by simpa using hi
  refine ⟨?_, ?_, ?_, ?_⟩
  · exact Stepper.decompose_Z_lower slv _ p i hmem (by simpa [Stepper.new, zeros] using hi)
  · rw [Stepper.decompose_L_lower slv _ p i hmem (by simpa [Stepper.new, ones] using hi)]
    have ha := coeff_assignFrom_nodup (List.range n) (ones n) 0 0
      (fun k => coeff (select p.x (List.range n)) k - coeff p.xlower k) i
      (by simpa using hi) (List.nodup_range n)
      (by rw [getD_range n i hi]; simpa [ones] using hi)
    rw [getD_range n i hi] at ha
    simp only [Nat.zero_add] at ha
    have hb : coeff (assignIndexed (Stepper.new slv o ⟨n, m, A, List.range n, [], ifixed⟩).L
        (Stepper.new slv o
          ⟨n, m, A, List.range n, [], ifixed⟩).constraints.variablesWithLowerBounds
        (fun k => coeff (select p.x (Stepper.new slv o
          ⟨n, m, A, List.range n, [], ifixed⟩).constraints.variablesWithLowerBounds) k
            - coeff p.xlower k)) i = coeff p.x i := by
      show coeff (assignFrom (ones n) 0 (List.range n) 0
        (fun k => coeff (select p.x (List.range n)) k - coeff p.xlower k)) i = coeff p.x i
      rw [ha, coeff_select _ _ _ (by simpa using hi), getD_range n i hi, hxl i hi, sub_zero]
    rw [hb]
    unfold clampLower
    rw [if_pos (hx i hi)]
  · rw [(Stepper.decompose_WU_other slv _ p i (by simp [Stepper.new])).1]
    exact coeff_zeros _ _
  · rw [(Stepper.decompose_WU_other slv _ p i (by simp [Stepper.new])).2]
    exact coeff_ones _ _ hi

/-- On a freshly constructed stepper whose variables all have the lower bound `0 < x`, none
an upper bound and none fixed, after `decompose` and `solve` the step `[Δx Δy Δz Δw]` (blocks
at offsets `0`, `n`, `n + m`, `2n + m`) satisfies `H·Δx + Aᵀ·Δy − Δz = −(g + Aᵀ·y − z − w)`,
`A·Δx = −(A·x − b)`, `z∘Δx + x∘Δz = −(x∘z − mu)` and `Δw = 0`, when the vector written by the
saddle-point solver solves the interior-point system it was handed. -/
theorem Stepper.step_solves_rows (slv : IpSaddlePointSolver σ) (o : Options)
    (c : Constraints) (p : StepperProblem)
    (hlow : c.variablesWithLowerBounds = List.range c.numVariables)
    (hupp : c.variablesWithUpperBounds = [])
    (hfix : c.variablesWithFixedValues = [])
    (hx : ∀ i, i < c.numVariables → 0 < coeff p.x i)
    (hxl : ∀ i, i < c.numVariables → coeff p.xlower i = 0)
    (hsol : (((Stepper.new slv o c).decompose slv p).matrix p).Solves
      c.numVariables c.numLinearEqualityConstraints
      (((Stepper.new slv o c).decompose slv p).solve slv p).r
      (((Stepper.new slv o c).decompose slv p).solve slv p).s) :
    (∀ i, i < c.numVariables →
      coeff (mulVec p.H
          (head (((Stepper.new slv o c).decompose slv p).solve slv p).s c.numVariables)) i
        + coeff (trMulVec c.equalityConstraintMatrix
          (segment (((Stepper.new slv o c).decompose slv p).solve slv p).s
            c.numVariables c.numLinearEqualityConstraints)) i
        - (((Stepper.new slv o c).decompose slv p).solve slv p).dz i
      = -(coeff p.g i + coeff (trMulVec c.equalityConstraintMatrix p.y) i
          - coeff p.z i - coeff p.w i)) ∧
    (∀ k, k < c.numLinearEqualityConstraints →
      coeff (mulVec c.equalityConstraintMatrix
          (head (((Stepper.new slv o c).decompose slv p).solve slv p).s c.numVariables)) k
      = -(coeff (mulVec c.equalityConstraintMatrix p.x) k - coeff p.b k)) ∧
    (∀ i, i < c.numVariables →
      coeff p.z i * (((Stepper.new slv o c).decompose slv p).solve slv p).dx i
        + coeff p.x i * (((Stepper.new slv o c).decompose slv p).solve slv p).dz i
      = -(coeff p.x i * coeff p.z i - o.mu)) ∧
    (∀ i, i < c.numVariables →
      (((Stepper.new slv o c).decompose slv p).solve slv p).dw i = 0) := by
  obtain ⟨n, m, A, il, iu, ifx⟩ := c
  simp only at hlow hupp hfix hx hxl hsol ⊢
  subst hlow hupp hfix
  obtain ⟨s1, _, s3, s4, s5⟩ := hsol
  have hr1 := Stepper.Reachable.decompose _ false p
    (@Stepper.Reachable.new σ slv (fun _ => True) ⟨n, m, A, List.range n, [], []⟩ o trivial)
  obtain ⟨_, _, _, _, _, _, _, h8, _⟩ := Stepper.reachable_shape slv (fun _ => True) _ _ _ hr1
  have hrE : (((Stepper.new slv o ⟨n, m, A, List.range n, [], []⟩).decompose slv p).solve
      slv p).r = ((Stepper.new slv o ⟨n, m, A, List.range n, [], []⟩).decompose
        slv p).solveR p := rfl
  rw [hrE] at s1 s3 s4 s5
  have hw : ∀ i, i < n → (((Stepper.new slv o ⟨n, m, A, List.range n, [], []⟩).decompose
      slv p).solve slv p).dw i = 0 := by
    intro i hi
    obtain ⟨_, _, eW, eU⟩ := Stepper.fresh_decompose_stable slv o n m A [] p hx hxl i hi
    have h5 := s5 i hi
    have hd := Stepper.solveR_d_other
      ((Stepper.new slv o ⟨n, m, A, List.range n, [], []⟩).decompose slv p) p h8
      (by intro j hj; simp [Stepper.decompose, Stepper.new] at hj)
      (by intro j hj; exact List.mem_range.mp hj) i hi
      (by simp [Stepper.decompose, Stepper.new])
    have hd0 : coeff ((Stepper.new slv o ⟨n, m, A, List.range n, [], []⟩).decompose
        slv p).r (2 * n + m + i) = 0 := coeff_zeros _ _
    have hd' : coeff (((Stepper.new slv o ⟨n, m, A, List.range n, [], []⟩).decompose
        slv p).solveR p) (2 * n + m + i) = 0 := hd.trans hd0
    have eW' : coeff (((Stepper.new slv o ⟨n, m, A, List.range n, [], []⟩).decompose
        slv p).matrix p).W i = 0 := eW
    have eU' : coeff (((Stepper.new slv o ⟨n, m, A, List.range n, [], []⟩).decompose
        slv p).matrix p).U i = 1 := eU
    rw [eW', eU', hd'] at h5
    simpa using h5
  refine ⟨?_, ?_, ?_, hw⟩
  · intro i hi
    have h1 := s1 i hi (by simp [Stepper.matrix, Stepper.decompose, Stepper.new])
    have ha := Stepper.solveR_a
      ((Stepper.new slv o ⟨n, m, A, List.range n, [], []⟩).decompose slv p) p h8 i hi
    rw [if_neg (by simp [Stepper.decompose, Stepper.new])] at ha
    have hwi := hw i hi
    simp only [Stepper.dw] at hwi
    have hwi' : coeff (((Stepper.new slv o ⟨n, m, A, List.range n, [], []⟩).decompose
        slv p).solve slv p).s (2 * n + m + i) = 0 := hwi
    rw [ha, hwi', sub_zero] at h1
    exact h1
  · intro k hk
    have h3 := s3 k hk
    have hb := Stepper.solveR_b
      ((Stepper.new slv o ⟨n, m, A, List.range n, [], []⟩).decompose slv p) p h8 k hk
    exact h3.trans hb
  · intro i hi
    obtain ⟨eZ, eL, _, _⟩ := Stepper.fresh_decompose_stable slv o n m A [] p hx hxl i hi
    have h4 := s4 i hi
    have hc := Stepper.solveR_c_lower
      ((Stepper.new slv o ⟨n, m, A, List.range n, [], []⟩).decompose slv p) p h8 i hi
      (List.mem_range.mpr hi)
    have eZ' : coeff (((Stepper.new slv o ⟨n, m, A, List.range n, [], []⟩).decompose
        slv p).matrix p).Z i = coeff p.z i := eZ
    have eL' : coeff (((Stepper.new slv o ⟨n, m, A, List.range n, [], []⟩).decompose
        slv p).matrix p).L i = coeff p.x i := eL
    have hc' : coeff (((Stepper.new slv o ⟨n, m, A, List.range n, [], []⟩).decompose
        slv p).solveR p) (n + m + i) = o.mu - coeff p.x i * coeff p.z i := by
      rw [← eL]; exact hc
    rw [eZ', eL', hc'] at h4
    show coeff p.z i * coeff _ i + coeff p.x i * coeff _ (n + m + i) = _
    rw [h4]; ring

/-! ## Writes that do not read: overlays -/

theorem vector_ext (v w : Vector) (hl : v.length = w.length)
    (h : ∀ j, j < v.length → coeff v j = coeff w j) : v = w := by
  apply List.ext_getElem hl
  intro j h1 h2
  have := h j h1
  unfold coeff at this
  rwa [List.getD_eq_getElem _ _ h1, List.getD_eq_getElem _ _ h2] at this

theorem overlay_id (len : Nat) : Overlay len (fun v => v) :=
  ⟨fun _ => none, fun _ hv => ⟨hv, fun _ _ => rfl⟩⟩

theorem overlay_set (len i : Nat) (a : Scalar) : Overlay len (fun v => v.set i a) := by
  refine ⟨fun j => if i = j then some a else none, fun v hv => ⟨by simpa using hv, ?_⟩⟩
  intro j hj
  rw [coeff_set]
  by_cases hij : i = j
  · subst hij; simp [hv, hj]
  · simp [hij]

theorem overlay_comp (len : Nat) (G1 G2 : Vector → Vector)
    (h1 : Overlay len G1) (h2 : Overlay len G2) : Overlay len (fun v => G2 (G1 v)) := by
  obtain ⟨t1, p1⟩ := h1
  obtain ⟨t2, p2⟩ := h2
  refine ⟨fun j => match t2 j with | some a => some a | none => t1 j, fun v hv => ?_⟩
  obtain ⟨l1, c1⟩ := p1 v hv
  obtain ⟨l2, c2⟩ := p2 (G1 v) l1
  refine ⟨l2, fun j hj => ?_⟩
  rw [c2 j hj, c1 j hj]
  cases h : t2 j <;> simp [h]

theorem overlay_congr (len : Nat) (G G' : Vector → Vector) (h : Overlay len G')
    (he : ∀ v : Vector, v.length = len → G v = G' v) : Overlay len G := by
  obtain ⟨t, p⟩ := h
  refine ⟨t, fun v hv => ?_⟩
  rw [he v hv]
  exact p v hv

theorem overlay_assignFrom (len off : Nat) (idx : Indices) (k : Nat) (rhs : Nat → Scalar) :
    Overlay len (fun v => assignFrom v off idx k rhs) := by
  induction idx generalizing k with
  | nil => exact overlay_id len
  | cons i is ih =>
    exact overlay_comp len (fun v => v.set (off + i) (rhs k))
      (fun v => assignFrom v off is (k + 1) rhs) (overlay_set len _ _) (ih (k + 1))

theorem overlay_forEachIndex (len off : Nat) (idx : Indices) (g : Nat → Scalar) :
    Overlay len (fun v => forEachIndex v off idx (fun _ i => g i)) := by
  induction idx with
  | nil => exact overlay_id len
  | cons i is ih =>
    exact overlay_comp len (fun v => v.set (off + i) (g i))
      (fun v => forEachIndex v off is (fun _ i => g i)) (overlay_set len _ _) ih

/-- An overlay applied twice writes the same values again. -/
theorem overlay_idem (len : Nat) (G : Vector → Vector) (h : Overlay len G)
    (v : Vector) (hv : v.length = len) : G (G v) = G v := by
  obtain ⟨t, p⟩ := h
  obtain ⟨l1, c1⟩ := p v hv
  obtain ⟨l2, c2⟩ := p (G v) l1
  apply vector_ext _ _ (l2.trans l1.symm)
  intro j hj
  rw [l2] at hj
  rw [c2 j hj, c1 j hj]
  cases t j <;> rfl

/-! ## Stepper: `solve` is read-only and repeatable -/

/-- As a function of the previous residual vector, `solve` writes `r` as an overlay. -/
theorem Stepper.solveR_overlay (st : Stepper σ) (p : StepperProblem) (len : Nat) :
    Overlay len (fun v => ({ st with r := v } : Stepper σ).solveR p) := by
  have hG1 := overlay_assignFrom len 0 (List.range st.n) 0
    (fun i => -(coeff p.g i + coeff (trMulVec st.constraints.equalityConstraintMatrix p.y) i
      - coeff p.z i - coeff p.w i))
  have hG2 := overlay_assignFrom len 0 st.constraints.variablesWithFixedValues 0 (fun _ => 0)
  have hG3 := overlay_assignFrom len st.n (List.range st.m) 0
    (fun i => -(coeff (mulVec st.constraints.equalityConstraintMatrix p.x) i - coeff p.b i))
  have hG4 := overlay_forEachIndex len (st.n + st.m) st.constraints.variablesWithLowerBounds
    (fun i => st.options.mu - coeff st.L i * coeff p.z i)
  have hG5 := overlay_forEachIndex len (len - st.n) st.constraints.variablesWithUpperBounds
    (fun i => st.options.mu - coeff st.U i * coeff p.w i)
  have h12 := overlay_comp len _ _ hG1 hG2
  have h123 := overlay_comp len _ _ h12 hG3
  have h1234 := overlay_comp len _ _ h123 hG4
  have h12345 := overlay_comp len _ _ h1234 hG5
  refine overlay_congr len _ _ h12345 ?_
  intro v hv
  simp only [Stepper.solveR, assignSegment, length_forEachIndex, length_assignFrom, hv]

/-- Running `solve` again on its own residual vector rewrites the same vector. -/
theorem Stepper.solveR_idem (slv : IpSaddlePointSolver σ) (st : Stepper σ)
    (p : StepperProblem) : (st.solve slv p).solveR p = st.solveR p := by
  have h := overlay_idem st.r.length _ (Stepper.solveR_overlay st p st.r.length) st.r rfl
  exact h

/-- C13: `solve(problem)` leaves `Z`, `W`, `L` and `U` unchanged, and two consecutive `solve`
calls with the same problem after one `decompose` give the identical residual vector `r` and,
the saddle-point solve being a function of its decomposition and right-hand side only, the
identical step. -/
theorem Stepper.solve_read_only_repeatable (slv : IpSaddlePointSolver σ) (st : Stepper σ)
    (p q : StepperProblem)
    (hro : ∀ (s0 : σ) (r : Vector) (n m : Nat) (s : Vector), (slv.solve s0 r n m s).1 = s0)
    (hfn : ∀ (s0 : σ) (r : Vector) (n m : Nat) (s s' : Vector),
      (slv.solve s0 r n m s).2 = (slv.solve s0 r n m s').2) :
    ((st.decompose slv p).solve slv q).Z = (st.decompose slv p).Z ∧
    ((st.decompose slv p).solve slv q).W = (st.decompose slv p).W ∧
    ((st.decompose slv p).solve slv q).L = (st.decompose slv p).L ∧
    ((st.decompose slv p).solve slv q).U = (st.decompose slv p).U ∧
    (((st.decompose slv p).solve slv q).solve slv q).r
      = ((st.decompose slv p).solve slv q).r ∧
    (((st.decompose slv p).solve slv q).solve slv q).s
      = ((st.decompose slv p).solve slv q).s := by
  refine ⟨rfl, rfl, rfl, rfl, ?_, ?_⟩
  · exact Stepper.solveR_idem slv (st.decompose slv p) q
  · show (slv.solve ((st.decompose slv p).solve slv q).solver
        (((st.decompose slv p).solve slv q).solveR q) _ _ _).2 = _
    rw [Stepper.solveR_idem slv (st.decompose slv p) q]
    have hs : ((st.decompose slv p).solve slv q).solver = (st.decompose slv p).solver :=
      hro _ _ _ _ _
    rw [hs]
    exact hfn _ _ _ _ _ _

/-- Evaluation of C13 on the sample constraints and problem. -/
theorem Stepper.solve_read_only_repeatable_witness :
    (((Stepper.new echoSolver sampleOptions sampleConstraints).decompose echoSolver
      sampleProblem).solve echoSolver sampleProblem).L = [1, 1/10, 1] ∧
    ((((Stepper.new echoSolver sampleOptions sampleConstraints).decompose echoSolver
      sampleProblem).solve echoSolver sampleProblem).solve echoSolver sampleProblem).r
      = (((Stepper.new echoSolver sampleOptions sampleConstraints).decompose echoSolver
        sampleProblem).solve echoSolver sampleProblem).r ∧
    ((((Stepper.new echoSolver sampleOptions sampleConstraints).decompose echoSolver
      sampleProblem).solve echoSolver sampleProblem).solve echoSolver sampleProblem).s
      = (((Stepper.new echoSolver sampleOptions sampleConstraints).decompose echoSolver
        sampleProblem).solve echoSolver sampleProblem).s :=
  have h := Stepper.solve_read_only_repeatable echoSolver
    (Stepper.new echoSolver sampleOptions sampleConstraints) sampleProblem sampleProblem
    (fun _ _ _ _ _ => rfl) (fun _ _ _ _ _ _ => rfl)
  ⟨h.2.2.1.trans (by decide!), h.2.2.2.2.1, h.2.2.2.2.2⟩

/-! ## Stepper: `solve` before any `decompose` -/

/-- As long as `decompose` has not been called the slack vectors hold their defaults. -/
theorem Stepper.reachable_not_ready (slv : IpSaddlePointSolver σ) (P : Options → Prop)
    (c : Constraints) (st : Stepper σ) (ready : Bool)
    (h : Stepper.Reachable slv P c st ready) (hr : ready = false) :
    st.Z = zeros c.numVariables ∧ st.W = zeros c.numVariables ∧
    st.L = ones c.numVariables ∧ st.U = ones c.numVariables := by
  induction h with
  | new o ho => exact ⟨rfl, rfl, rfl, rfl⟩
  | setOptions st ready o ho _ ih => exact ih hr
  | decompose st ready p _ _ => simp at hr
  | solve st ready p _ ih => exact ih hr

/-- C14, refuted as stated: on a freshly constructed stepper, on which `decompose` was never
called, `solve` is accepted and produces a step (here the vector returned by the solver, which
differs from the zero step of construction). -/
theorem Stepper.solve_not_ready_counterexample :
    Stepper.Reachable echoSolver (fun _ => True) sampleConstraints
      ((Stepper.new echoSolver sampleOptions sampleConstraints).solve echoSolver
        sampleProblem) false ∧
    ((Stepper.new echoSolver sampleOptions sampleConstraints).solve echoSolver
      sampleProblem).step.1 = [2, 1, 0, -1, -39/10, -49/10, 0, 0, 21/10, 0] ∧
    ((Stepper.new echoSolver sampleOptions sampleConstraints).solve echoSolver
      sampleProblem).step.1 ≠ (Stepper.new echoSolver sampleOptions sampleConstraints).step.1 :=
  ⟨Stepper.Reachable.solve _ _ _ (Stepper.Reachable.new sampleOptions trivial),
    by decide!, by decide!⟩

/-- C14, amended: `solve` has no Ready-state guard.  On a stepper on which `decompose` has not
been called since construction, `solve(problem)` is carried out like in any other state: it
stores as the step whatever the saddle-point solver returns for the residual `r`, and builds
`r` with the construction defaults `L = U = 1`, so that `c[i] = mu − z[i]` on the lower-bounded
and `d[i] = mu − w[i]` on the upper-bounded variables. -/
theorem Stepper.solve_without_decompose (slv : IpSaddlePointSolver σ) (P : Options → Prop)
    (c : Constraints) (st : Stepper σ)
    (h : Stepper.Reachable slv P c st false) (p : StepperProblem) :
    (st.solve slv p).step.1
      = (slv.solve st.solver (st.solveR p) c.numVariables c.numLinearEqualityConstraints
          st.s).2 ∧
    (∀ i, i < c.numVariables → i ∈ c.variablesWithLowerBounds →
      (st.solve slv p).c i = st.options.mu - coeff p.z i) ∧
    (∀ i, i < c.numVariables → i ∈ c.variablesWithUpperBounds →
      (st.solve slv p).d i = st.options.mu - coeff p.w i) := by
  obtain ⟨h1, h2, h3, _, _, _, _, h8, _⟩ := Stepper.reachable_shape slv P c st false h
  obtain ⟨_, _, hL, hU⟩ := Stepper.reachable_not_ready slv P c st false h rfl
  subst h1
  refine ⟨?_, ?_, ?_⟩
  · show (slv.solve st.solver (st.solveR p) st.n st.m st.s).2 = _
    rw [h2, h3]
  · intro i hi hmem
    have hc : (st.solve slv p).c i = coeff (st.solveR p) (st.n + st.m + i) := rfl
    rw [hc, Stepper.solveR_c_lower st p h8 i (by omega) hmem, hL, coeff_ones _ _ hi, one_mul]
  · intro i hi hmem
    have hlen : (st.solve slv p).r.length - (st.solve slv p).n = 2 * st.n + st.m := by
      show (st.solveR p).length - st.n = _
      rw [Stepper.length_solveR, h8]; omega
    have hd : (st.solve slv p).d i = coeff (st.solveR p) (2 * st.n + st.m + i) := by
      unfold Stepper.d
      rw [hlen]
      rfl
    rw [hd, Stepper.solveR_d_upper st p h8 i (by omega) hmem, hU, coeff_ones _ _ hi, one_mul]

/-- Evaluation of the amended C14 on a freshly constructed stepper with the sample inputs. -/
theorem Stepper.solve_without_decompose_witness :
    ((Stepper.new echoSolver sampleOptions sampleConstraints).solve echoSolver
      sampleProblem).c 0 = 1/10 - 4 ∧
    ((Stepper.new echoSolver sampleOptions sampleConstraints).solve echoSolver
      sampleProblem).d 1 = 1/10 - (-2) :=
  have h := Stepper.solve_without_decompose echoSolver (fun _ => True) sampleConstraints _
    (Stepper.Reachable.new sampleOptions trivial) sampleProblem
  ⟨(h.2.1 0 (by decide) (by decide)).trans (by decide!),
    (h.2.2 1 (by decide) (by decide)).trans (by decide!)⟩

/-! ## Coefficients of the vector and matrix operations -/

theorem length_vecOfFn (n : Nat) (f : Nat → Scalar) : (vecOfFn n f).length = n := by
  simp [vecOfFn]

theorem coeff_vecOfFn (n : Nat) (f : Nat → Scalar) (i : Nat) (hi : i < n) :
    coeff (vecOfFn n f) i = f i :=
  coeff_map_range f n i hi

theorem vecOfFn_ext (n : Nat) (f g : Nat → Scalar) (h : ∀ i, i < n → f i = g i) :
    vecOfFn n f = vecOfFn n g := by
  unfold vecOfFn
  apply List.map_congr_left
  intro i hi
  exact h i (List.mem_range.mp hi)

theorem Matrix.coeff_matOfFn (r c : Nat) (f : Nat → Nat → Scalar) (i j : Nat)
    (hi : i < r) (hj : j < c) : (matOfFn r c f).coeff i j = f i j := by
  unfold Matrix.coeff matOfFn
  simp [List.getD_eq_getElem?_getD, List.getElem?_map, List.getElem?_range hi,
    List.getElem?_range hj]

theorem matOfFn_ext (r c : Nat) (f g : Nat → Nat → Scalar)
    (h : ∀ i j, i < r → j < c → f i j = g i j) : matOfFn r c f = matOfFn r c g := by
  unfold matOfFn
  congr 1
  apply List.map_congr_left
  intro i hi
  apply List.map_congr_left
  intro j hj
  exact h i j (List.mem_range.mp hi) (List.mem_range.mp hj)

theorem coeff_vsub (a b : Vector) (i : Nat) (hi : i < a.length) :
    coeff (vsub a b) i = coeff a i - coeff b i := coeff_vecOfFn _ _ i hi

theorem coeff_vadd (a b : Vector) (i : Nat) (hi : i < a.length) :
    coeff (vadd a b) i = coeff a i + coeff b i := coeff_vecOfFn _ _ i hi

theorem coeff_vneg (a : Vector) (i : Nat) (hi : i < a.length) :
    coeff (vneg a) i = -coeff a i := coeff_vecOfFn _ _ i hi

theorem coeff_cwiseMul (a b : Vector) (i : Nat) (hi : i < a.length) :
    coeff (cwiseMul a b) i = coeff a i * coeff b i := coeff_vecOfFn _ _ i hi

theorem coeff_cwiseDiv (a b : Vector) (i : Nat) (hi : i < a.length) :
    coeff (cwiseDiv a b) i = coeff a i / coeff b i := coeff_vecOfFn _ _ i hi

theorem coeff_cwiseInv (a : Vector) (i : Nat) (hi : i < a.length) :
    coeff (cwiseInv a) i = 1 / coeff a i := coeff_vecOfFn _ _ i hi

theorem length_mulVec (M : Matrix) (v : Vector) : (mulVec M v).length = M.rows := by
  simp [mulVec]

theorem length_trMulVec (M : Matrix) (v : Vector) : (trMulVec M v).length = M.cols := by
  simp [trMulVec]

theorem Matrix.coeff_mul (A B : Matrix) (i j : Nat) (hi : i < A.rows) (hj : j < B.cols) :
    (A.mul B).coeff i j = ∑ k in Finset.range A.cols, A.coeff i k * B.coeff k j := by
  unfold Matrix.mul
  rw [Matrix.coeff_matOfFn _ _ _ i j hi hj, sum_map_range]

theorem Matrix.coeff_sub (A B : Matrix) (i j : Nat) (hi : i < A.rows) (hj : j < A.cols) :
    (A.sub B).coeff i j = A.coeff i j - B.coeff i j :=
  Matrix.coeff_matOfFn _ _ _ i j hi hj

theorem coeff_diag (v : Vector) (i j : Nat) (hi : i < v.length) (hj : j < v.length) :
    (diag v).coeff i j = if i = j then coeff v i else 0 :=
  Matrix.coeff_matOfFn _ _ _ i j hi hj

theorem coeff_tr (M : Matrix) (i j : Nat) (hi : i < M.cols) (hj : j < M.rows) :
    (tr M).coeff i j = M.coeff j i :=
  Matrix.coeff_matOfFn _ _ _ i j hi hj

/-- Entry of `diag(v) * B`. -/
theorem coeff_diag_mul (v : Vector) (B : Matrix) (i j : Nat) (hi : i < v.length)
    (hj : j < B.cols) : ((diag v).mul B).coeff i j = coeff v i * B.coeff i j := by
  rw [Matrix.coeff_mul _ _ i j hi hj]
  have hc : (diag v).cols = v.length := rfl
  rw [hc, Finset.sum_eq_single i]
  · rw [coeff_diag v i i hi hi, if_pos rfl]
  · intro k hk hne
    rw [coeff_diag v i k hi (Finset.mem_range.mp hk), if_neg (Ne.symm hne), zero_mul]
  · intro hni
    exact absurd (Finset.mem_range.mpr hi) hni

/-- Entry of `A * diag(v)`. -/
theorem coeff_mul_diag (A : Matrix) (v : Vector) (i j : Nat) (hi : i < A.rows)
    (hc : A.cols = v.length) (hj : j < v.length) :
    (A.mul (diag v)).coeff i j = A.coeff i j * coeff v j := by
  rw [Matrix.coeff_mul _ _ i j hi hj, hc, Finset.sum_eq_single j]
  · rw [coeff_diag v j j hj hj, if_pos rfl]
  · intro k hk hne
    rw [coeff_diag v k j (Finset.mem_range.mp hk) hj, if_neg hne, mul_zero]
  · intro hnj
    exact absurd (Finset.mem_range.mpr hj) hnj

/-- Entry of `A * tr(B)`. -/
theorem coeff_mul_tr (A B : Matrix) (i j : Nat) (hi : i < A.rows) (hj : j < B.rows)
    (hc : A.cols = B.cols) :
    (A.mul (tr B)).coeff i j = ∑ k in Finset.range B.cols, A.coeff i k * B.coeff j k := by
  rw [Matrix.coeff_mul _ _ i j hi hj, hc]
  apply Finset.sum_congr rfl
  intro k hk
  rw [coeff_tr B k j (Finset.mem_range.mp hk) hj]

/-! ## The canonical solver: its intermediate quantities, entry by entry -/

theorem matOfFn_eta (r c : Nat) (f : Nat → Nat → Scalar) :
    matOfFn r c f = matOfFn r c (matOfFn r c f).coeff :=
  matOfFn_ext r c _ _ (fun i j hi hj => (Matrix.coeff_matOfFn r c f i j hi hj).symm)

theorem solver.length_Lb (P : SaddlePointProblemCanonical) :
    (solver.Lb P).length = P.nb := by
  unfold solver.Lb
  by_cases h : P.nb = 0
  · simp [h]
  · simp only [ne_eq, h, not_false_eq_true, if_true, cwiseDiv, vsub, length_vecOfFn]
    rfl

theorem solver.coeff_Lb (P : SaddlePointProblemCanonical) (i : Nat) (hi : i < P.nb) :
    coeff (solver.Lb P) i = specLb P i := by
  have hnb : P.nb ≠ 0 := by omega
  unfold solver.Lb
  rw [if_pos hnb, coeff_cwiseDiv _ _ i (by simpa [vsub, length_vecOfFn] using hi),
    coeff_vsub _ _ i hi]
  rfl

theorem solver.shape_Ts (P : SaddlePointProblemCanonical) (hns : P.ns ≠ 0) :
    (solver.Ts P).rows = P.nb ∧ (solver.Ts P).cols = P.lhs.Bs.cols := by
  unfold solver.Ts
  rw [if_pos hns]
  exact ⟨by show (vneg (solver.Lb P)).length = _
            rw [vneg, length_vecOfFn, solver.length_Lb], rfl⟩

theorem solver.coeff_Ts (P : SaddlePointProblemCanonical) (hns : P.ns ≠ 0)
    (i k : Nat) (hi : i < P.nb) (hk : k < P.lhs.Bs.cols) :
    (solver.Ts P).coeff i k = specTs P i k := by
  have hl : i < (vneg (solver.Lb P)).length := by
    rw [vneg, length_vecOfFn, solver.length_Lb]; exact hi
  unfold solver.Ts
  rw [if_pos hns, coeff_diag_mul _ _ i k hl hk,
    coeff_vneg _ i (by rw [solver.length_Lb]; exact hi), solver.coeff_Lb P i hi]
  rfl

theorem solver.shape_Tu (P : SaddlePointProblemCanonical) (hnu : P.nu ≠ 0) :
    (solver.Tu P).rows = P.nb ∧ (solver.Tu P).cols = P.lhs.Bu.cols := by
  unfold solver.Tu
  rw [if_pos hnu]
  exact ⟨by show (solver.Lb P).length = _
            rw [solver.length_Lb], rfl⟩

theorem solver.coeff_Tu (P : SaddlePointProblemCanonical) (hnu : P.nu ≠ 0)
    (i k : Nat) (hi : i < P.nb) (hk : k < P.lhs.Bu.cols) :
    (solver.Tu P).coeff i k = specTu P i k := by
  unfold solver.Tu
  rw [if_pos hnu, coeff_diag_mul _ _ i k (by rw [solver.length_Lb]; exact hi) hk,
    solver.coeff_Lb P i hi]
  rfl

theorem solver.shape_Ls (P : SaddlePointProblemCanonical) (hns : P.ns ≠ 0) :
    (solver.Ls P).rows = P.nb ∧ (solver.Ls P).cols = P.ns := by
  unfold solver.Ls
  rw [if_pos hns]
  refine ⟨(solver.shape_Ts P hns).1, ?_⟩
  show (cwiseInv (vsub P.lhs.Gs P.lhs.Es)).length = _
  simp only [cwiseInv, vsub, length_vecOfFn]
  rfl

theorem solver.coeff_Ls (P : SaddlePointProblemCanonical) (hwf : P.WellFormed)
    (hns : P.ns ≠ 0) (i k : Nat) (hi : i < P.nb) (hk : k < P.ns) :
    (solver.Ls P).coeff i k = specLs P i k := by
  obtain ⟨_, _, _, _, _, hBsc, _⟩ := hwf
  have hlen : (cwiseInv (vsub P.lhs.Gs P.lhs.Es)).length = P.ns := by
    simp only [cwiseInv, vsub, length_vecOfFn]; rfl
  have hv : (vsub P.lhs.Gs P.lhs.Es).length = P.ns := by
    simp only [vsub, length_vecOfFn]; rfl
  unfold solver.Ls
  rw [if_pos hns, coeff_mul_diag _ _ i k (by rw [(solver.shape_Ts P hns).1]; exact hi)
      (by rw [(solver.shape_Ts P hns).2, hBsc, hlen]) (by rw [hlen]; exact hk),
    solver.coeff_Ts P hns i k hi (by rw [hBsc]; exact hk),
    coeff_cwiseInv _ k (by rw [hv]; exact hk), coeff_vsub _ _ k hk]
  rfl

theorem solver.shape_Lu (P : SaddlePointProblemCanonical) (hwf : P.WellFormed)
    (hnu : P.nu ≠ 0) : (solver.Lu P).rows = P.nb ∧ (solver.Lu P).cols = P.nu := by
  obtain ⟨_, _, _, hEu, _⟩ := hwf
  unfold solver.Lu
  rw [if_pos hnu]
  refine ⟨(solver.shape_Tu P hnu).1, ?_⟩
  show (cwiseInv (vsub P.lhs.Eu P.lhs.Gu)).length = _
  simp only [cwiseInv, vsub, length_vecOfFn]
  exact hEu

theorem solver.coeff_Lu (P : SaddlePointProblemCanonical) (hwf : P.WellFormed)
    (hnu : P.nu ≠ 0) (i k : Nat) (hi : i < P.nb) (hk : k < P.nu) :
    (solver.Lu P).coeff i k = specLu P i k := by
  obtain ⟨_, _, _, hEu, _, _, _, hBuc, _⟩ := hwf
  have hv : (vsub P.lhs.Eu P.lhs.Gu).length = P.nu := by
    simp only [vsub, length_vecOfFn]; exact hEu
  have hlen : (cwiseInv (vsub P.lhs.Eu P.lhs.Gu)).length = P.nu := by
    simp only [cwiseInv, length_vecOfFn]; exact hv
  unfold solver.Lu
  rw [if_pos hnu, coeff_mul_diag _ _ i k (by rw [(solver.shape_Tu P hnu).1]; exact hi)
      (by rw [(solver.shape_Tu P hnu).2, hBuc, hlen]) (by rw [hlen]; exact hk),
    solver.coeff_Tu P hnu i k hi (by rw [hBuc]; exact hk),
    coeff_cwiseInv _ k (by rw [hv]; exact hk), coeff_vsub _ _ k (by rw [hEu]; exact hk)]
  rfl

theorem solver.Tb_eq (P : SaddlePointProblemCanonical) (hwf : P.WellFormed)
    (hnb : P.nb ≠ 0) :
    solver.Tb P = matOfFn P.nb P.nb (fun i j =>
      (if i = j then coeff P.lhs.Bb i else 0)
        - ∑ k in Finset.range P.ns, specLs P i k * P.lhs.Bs.coeff j k) := by
  have hwf' := hwf
  obtain ⟨hBb, _, _, _, hBsr, hBsc, _⟩ := hwf'
  unfold solver.Tb
  simp only [if_pos hnb]
  by_cases hns : P.ns = 0
  · rw [if_neg (by simpa using hns)]
    unfold diag
    rw [hBb]
    apply matOfFn_ext
    intro i j _ _
    simp [hns]
  · rw [if_pos hns]
    unfold Matrix.sub
    have hr : (diag P.lhs.Bb).rows = P.nb := hBb
    have hc : (diag P.lhs.Bb).cols = P.nb := hBb
    rw [hr, hc]
    apply matOfFn_ext
    intro i j hi hj
    rw [coeff_diag _ i j (by rw [hBb]; exact hi) (by rw [hBb]; exact hj),
      coeff_mul_tr _ _ i j (by rw [(solver.shape_Ls P hns).1]; exact hi)
        (by rw [hBsr]; exact hj) (by rw [(solver.shape_Ls P hns).2, hBsc]), hBsc]
    congr 1
    apply Finset.sum_congr rfl
    intro k hk
    rw [solver.coeff_Ls P hwf hns i k hi (Finset.mem_range.mp hk)]

/-- The matrix `Ub` assembled by `solver` is the matrix `Ub` of the specification. -/
theorem solver.Ub_eq (P : SaddlePointProblemCanonical) (hwf : P.WellFormed)
    (hnb : P.nb ≠ 0) : solver.Ub P = specUb P := by
  have hwf' := hwf
  obtain ⟨_, _, _, _, _, _, hBur, hBuc, _⟩ := hwf'
  unfold solver.Ub specUb
  simp only [if_pos hnb]
  rw [solver.Tb_eq P hwf hnb]
  by_cases hnu : P.nu = 0
  · rw [if_neg (by simpa using hnu)]
    apply matOfFn_ext
    intro i j _ _
    simp [hnu]
  · rw [if_pos hnu]
    unfold Matrix.sub
    show matOfFn P.nb P.nb _ = _
    apply matOfFn_ext
    intro i j hi hj
    rw [Matrix.coeff_matOfFn _ _ _ i j hi hj,
      coeff_mul_tr _ _ i j (by rw [(solver.shape_Lu P hwf hnu).1]; exact hi)
        (by rw [hBur]; exact hj) (by rw [(solver.shape_Lu P hwf hnu).2, hBuc]), hBuc]
    congr 1
    apply Finset.sum_congr rfl
    intro k hk
    rw [solver.coeff_Lu P hwf hnu i k hi (Finset.mem_range.mp hk)]

theorem coeff_mulVec_sum (M : Matrix) (v : Vector) (i : Nat) (hi : i < M.rows) :
    coeff (mulVec M v) i = ∑ j in Finset.range M.cols, M.coeff i j * coeff v j :=
  coeff_mulVec M v i hi

theorem solver.length_ub (P : SaddlePointProblemCanonical) (hwf : P.WellFormed)
    (hnb : P.nb ≠ 0) : (solver.ub P).length = P.nb := by
  obtain ⟨_, _, _, _, _, _, _, _, _, hb, _⟩ := hwf
  unfold solver.ub
  simp only [if_pos hnb]
  by_cases hnu : P.nu = 0
  · rw [if_neg (by simpa using hnu)]; exact hb
  · rw [if_pos hnu, vsub, length_vecOfFn]; exact hb

theorem solver.coeff_ub (P : SaddlePointProblemCanonical) (hwf : P.WellFormed)
    (i : Nat) (hi : i < P.nb) : coeff (solver.ub P) i = specub P i := by
  have hnb : P.nb ≠ 0 := by omega
  obtain ⟨_, _, _, _, _, _, hBur, hBuc, _, hb, _, _, _, _, hcu⟩ := hwf
  unfold solver.ub specub
  simp only [if_pos hnb]
  by_cases hnu : P.nu = 0
  · rw [if_neg (by simpa using hnu)]
    simp [hnu]
  · rw [if_pos hnu, coeff_vsub _ _ i (by rw [hb]; exact hi),
      coeff_mulVec_sum _ _ i (by rw [hBur]; exact hi), hBuc]
    congr 1
    apply Finset.sum_congr rfl
    intro k hk
    rw [coeff_cwiseDiv _ _ k (by rw [hcu]; exact Finset.mem_range.mp hk)]

theorem solver.coeff_us (P : SaddlePointProblemCanonical) (hwf : P.WellFormed)
    (k : Nat) (hk : k < P.ns) : coeff (solver.us P) k = specus P k := by
  have hns : P.ns ≠ 0 := by omega
  obtain ⟨_, _, _, _, _, _, _, _, _, _, _, has, _⟩ := hwf
  unfold solver.us specus
  rw [if_pos hns, coeff_vsub _ _ k (by rw [has]; exact hk)]

theorem solver.coeff_uu (P : SaddlePointProblemCanonical) (hwf : P.WellFormed)
    (k : Nat) (hk : k < P.nu) : coeff (solver.uu P) k = specuu P k := by
  have hnu : P.nu ≠ 0 := by omega
  obtain ⟨_, _, _, _, _, _, _, _, _, _, _, _, _, hau, hcu⟩ := hwf
  unfold solver.uu specuu
  rw [if_pos hnu, coeff_vsub _ _ k (by rw [hau]; exact hk), coeff_cwiseMul _ _ k hk,
    coeff_cwiseDiv _ _ k (by rw [hcu]; exact hk)]

theorem solver.coeff_vb (P : SaddlePointProblemCanonical) (hwf : P.WellFormed)
    (i : Nat) (hi : i < P.nb) : coeff (solver.vb P) i = specvb P i := by
  have hnb : P.nb ≠ 0 := by omega
  obtain ⟨_, _, _, _, _, _, _, _, hab, _⟩ := hwf
  unfold solver.vb specvb
  rw [if_pos hnb, coeff_vsub _ _ i (by rw [hab]; exact hi)]

theorem solver.length_vb (P : SaddlePointProblemCanonical) (hwf : P.WellFormed)
    (hnb : P.nb ≠ 0) : (solver.vb P).length = P.nb := by
  obtain ⟨_, _, _, _, _, _, _, _, hab, _⟩ := hwf
  unfold solver.vb
  rw [if_pos hnb, vsub, length_vecOfFn]; exact hab

/-- The right-hand side `r` assembled by `solver` is the one of the specification. -/
theorem solver.r_eq (P : SaddlePointProblemCanonical) (hwf : P.WellFormed)
    (hnb : P.nb ≠ 0) : solver.r P = specRhs P := by
  have hvb := solver.length_vb P hwf hnb
  have h0len : (vsub (solver.vb P) (cwiseMul (solver.Lb P) (solver.ub P))).length = P.nb := by
    rw [vsub, length_vecOfFn]; exact hvb
  have h0 : ∀ i, i < P.nb →
      coeff (vsub (solver.vb P) (cwiseMul (solver.Lb P) (solver.ub P))) i
        = specvb P i - specLb P i * specub P i := by
    intro i hi
    rw [coeff_vsub _ _ i (by rw [hvb]; exact hi),
      coeff_cwiseMul _ _ i (by rw [solver.length_Lb]; exact hi),
      solver.coeff_vb P hwf i hi, solver.coeff_Lb P i hi, solver.coeff_ub P hwf i hi]
  have h1len : (if P.ns ≠ 0
      then vsub (vsub (solver.vb P) (cwiseMul (solver.Lb P) (solver.ub P)))
        (mulVec (solver.Ls P) (solver.us P))
      else vsub (solver.vb P) (cwiseMul (solver.Lb P) (solver.ub P))).length = P.nb := by
    by_cases hns : P.ns = 0
    · rw [if_neg (by simpa using hns)]; exact h0len
    · rw [if_pos hns, vsub, length_vecOfFn]; exact h0len
  have h1 : ∀ i, i < P.nb →
      coeff (if P.ns ≠ 0
        then vsub (vsub (solver.vb P) (cwiseMul (solver.Lb P) (solver.ub P)))
          (mulVec (solver.Ls P) (solver.us P))
        else vsub (solver.vb P) (cwiseMul (solver.Lb P) (solver.ub P))) i
        = specvb P i - specLb P i * specub P i
          - ∑ k in Finset.range P.ns, specLs P i k * specus P k := by
    intro i hi
    by_cases hns : P.ns = 0
    · rw [if_neg (by simpa using hns), h0 i hi]
      simp [hns]
    · rw [if_pos hns, coeff_vsub _ _ i (by rw [h0len]; exact hi), h0 i hi,
        coeff_mulVec_sum _ _ i (by rw [(solver.shape_Ls P hns).1]; exact hi),
        (solver.shape_Ls P hns).2]
      congr 1
      apply Finset.sum_congr rfl
      intro k hk
      rw [solver.coeff_Ls P hwf hns i k hi (Finset.mem_range.mp hk),
        solver.coeff_us P hwf k (Finset.mem_range.mp hk)]
  unfold solver.r specRhs
  simp only [if_pos hnb]
  apply vector_ext
  · rw [length_vecOfFn]
    by_cases hnu : P.nu = 0
    · rw [if_neg (by simpa using hnu)]; exact h1len
    · rw [if_pos hnu, vsub, length_vecOfFn]; exact h1len
  · intro i hi
    have hi' : i < P.nb := by
      by_cases hnu : P.nu = 0
      · rw [if_neg (by simpa using hnu), h1len] at hi; exact hi
      · rw [if_pos hnu, vsub, length_vecOfFn, h1len] at hi; exact hi
    rw [coeff_vecOfFn _ _ i hi']
    by_cases hnu : P.nu = 0
    · rw [if_neg (by simpa using hnu), h1 i hi']
      simp [hnu]
    · rw [if_pos hnu, coeff_vsub _ _ i (by rw [h1len]; exact hi'), h1 i hi',
        coeff_mulVec_sum _ _ i (by rw [(solver.shape_Lu P hwf hnu).1]; exact hi'),
        (solver.shape_Lu P hwf hnu).2]
      congr 1
      apply Finset.sum_congr rfl
      intro k hk
      rw [solver.coeff_Lu P hwf hnu i k hi' (Finset.mem_range.mp hk),
        solver.coeff_uu P hwf k (Finset.mem_range.mp hk)]

/-! ## Systems of size one -/

theorem mulVec_one (M : Matrix) (hr : M.rows = 1) (hc : M.cols = 1) (y : Vector) :
    mulVec M y = [M.coeff 0 0 * coeff y 0] := by
  simp [mulVec, hr, hc, List.range_succ]

theorem nonsingular_one (M : Matrix) (hr : M.rows = 1) (hc : M.cols = 1)
    (h : M.coeff 0 0 ≠ 0) : M.Nonsingular := by
  refine ⟨by rw [hr, hc], fun r hl => ⟨[coeff r 0 / M.coeff 0 0], by simp [hc], ?_⟩⟩
  rw [mulVec_one M hr hc]
  apply vector_ext
  · simp [hl, hr]
  · intro j hj
    have hj0 : j = 0 := by simpa using hj
    subst hj0
    simp only [coeff, List.getD_cons_zero]
    field_simp

theorem coeff_ne_zero_of_nonsingular_one (M : Matrix) (hr : M.rows = 1) (hc : M.cols = 1)
    (h : M.Nonsingular) : M.coeff 0 0 ≠ 0 := by
  obtain ⟨y, _, hy⟩ := h.2 [1] (by simp [hr])
  rw [mulVec_one M hr hc] at hy
  intro h0
  rw [h0, zero_mul] at hy
  simp at hy

/-- The explicit solve `y = r₀ / M₀₀` is exact on the nonsingular systems of size one. -/
theorem luSolve1_solves : LuSolves luSolve1 1 := by
  intro M r hr hc hns hl
  have h0 := coeff_ne_zero_of_nonsingular_one M hr hc hns
  refine ⟨rfl, ?_⟩
  rw [mulVec_one M hr hc]
  apply vector_ext
  · simp [hl]
  · intro j hj
    have hj0 : j = 0 := by simpa using hj
    subst hj0
    simp only [coeff, luSolve1, List.getD_cons_zero]
    field_simp

/-! ## The canonical solver: the claims -/

/-- C15: with `nb > 0` and `Ub` invertible, the `y` returned by `solver` satisfies
`Ub·y = vb − Lb∘ub − Ls·us − Lu·uu`, with `Lb`, `Ts`, `Tu`, `Ls`, `Lu`, `Ub`, `ub`, `us`, `uu`,
`vb` as the specification writes them, the LU solve being exact on nonsingular systems. -/
theorem solver.reduced_system (lu : Matrix → Vector → Vector)
    (P : SaddlePointProblemCanonical) (solution : SaddlePointVectorCanonical)
    (hwf : P.WellFormed) (hnb : 0 < P.nb) (hlu : LuSolves lu P.nb)
    (hUb : (specUb P).Nonsingular) :
    mulVec (specUb P) (solver lu P solution).y = specRhs P := by
  have hnb' : P.nb ≠ 0 := by omega
  have hy : (solver lu P solution).y = lu (solver.Ub P) (solver.r P) := by
    show (if P.nb ≠ 0 then lu (solver.Ub P) (solver.r P) else solution.y) = _
    rw [if_pos hnb']
  rw [hy, solver.Ub_eq P hwf hnb', solver.r_eq P hwf hnb']
  exact (hlu (specUb P) (specRhs P) rfl rfl hUb (length_vecOfFn _ _)).2

/-- Evaluation of C15 on the sample problem: `Ub = [2]`, right-hand side `[1]`, `y = [1/2]`. -/
theorem solver.reduced_system_witness :
    mulVec (specUb sampleCanonical) (solver luSolve1 sampleCanonical emptySolution).y
      = specRhs sampleCanonical ∧
    (solver luSolve1 sampleCanonical emptySolution).y = [1/2] :=
  ⟨solver.reduced_system luSolve1 sampleCanonical emptySolution (by decide) (by decide)
      luSolve1_solves (nonsingular_one _ rfl rfl (by decide!)),
    by decide!⟩

/-- C16, refuted as stated: the reduced matrix of `singularCanonical` is singular (`Ub = [0]`,
right-hand side `[1]`), and `solver` nevertheless returns a solution record, whose `y` does
not solve `Ub·y = r`; there is no error code to return. -/
theorem solver.singular_counterexample :
    singularCanonical.WellFormed ∧
    ¬ (solver.Ub singularCanonical).Nonsingular ∧
    solver luSolve1 singularCanonical emptySolution
      = { xb := [0], xs := [0], xu := [], y := [0], zb := [0], zs := [0], zu := [] } ∧
    mulVec (solver.Ub singularCanonical) (solver luSolve1 singularCanonical emptySolution).y
      ≠ solver.r singularCanonical := by
  refine ⟨by decide, ?_, by decide!, by decide!⟩
  intro h
  exact coeff_ne_zero_of_nonsingular_one _ rfl rfl h (by decide!)

/-- C16, amended: `solver` has no error path.  For every well-formed problem with `nb > 0`,
singular or not, it returns a solution record whose `y` is whatever the LU solve yields for
the reduced matrix `Ub` and right-hand side of the specification, and whose `zb` is
back-substituted as `cb/Eb − xb`; when the reduced system has no solution that `y` does not
satisfy it. -/
theorem solver.no_error_path (lu : Matrix → Vector → Vector)
    (P : SaddlePointProblemCanonical) (solution : SaddlePointVectorCanonical)
    (hwf : P.WellFormed) (hnb : 0 < P.nb) :
    (solver lu P solution).y = lu (specUb P) (specRhs P) ∧
    (solver lu P solution).zb
      = vsub (cwiseDiv P.rhs.cb P.lhs.Eb) (solver lu P solution).xb ∧
    ((¬ ∃ y : Vector, mulVec (specUb P) y = specRhs P) →
      mulVec (specUb P) (solver lu P solution).y ≠ specRhs P) := by
  have hnb' : P.nb ≠ 0 := by omega
  refine ⟨?_, ?_, fun hno heq => hno ⟨_, heq⟩⟩
  · show (if P.nb ≠ 0 then lu (solver.Ub P) (solver.r P) else solution.y) = _
    rw [if_pos hnb', solver.Ub_eq P hwf hnb', solver.r_eq P hwf hnb']
  · simp only [solver, if_pos hnb']

/-- Evaluation of the amended C16 on the singular problem. -/
theorem solver.no_error_path_witness :
    (solver luSolve1 singularCanonical emptySolution).y
      = luSolve1 (specUb singularCanonical) (specRhs singularCanonical) ∧
    (solver luSolve1 singularCanonical emptySolution).zb = [0] :=
  have h := solver.no_error_path luSolve1 singularCanonical emptySolution
    (by decide) (by decide)
  ⟨h.1, h.2.1.trans (by decide!)⟩

/-! ## Structure: the constraint matrices -/

theorem Structure.setEquality_cases (self : Structure) (A : Matrix) :
    (A.cols = self.n ∧ A.rows ≤ self.n ∧
      self.setEqualityConstraintMatrix A = Except.ok { self with Ae := A }) ∨
    ((A.cols ≠ self.n ∨ self.n < A.rows) ∧
      ∃ e, self.setEqualityConstraintMatrix A = Except.error e) := by
  by_cases hc : A.cols = self.n
  · by_cases hr : A.rows ≤ self.n
    · left
      refine ⟨hc, hr, ?_⟩
      simp [Structure.setEqualityConstraintMatrix, Assert, hc, hr]
      rfl
    · right
      refine ⟨Or.inr (by omega), ?_⟩
      simp [Structure.setEqualityConstraintMatrix, Assert, hc, hr]
      exact ⟨_, rfl⟩
  · right
    refine ⟨Or.inl hc, ?_⟩
    simp [Structure.setEqualityConstraintMatrix, Assert, hc]
    exact ⟨_, rfl⟩

theorem Structure.setInequality_cases (self : Structure) (A : Matrix) :
    (A.cols = self.n ∧ A.rows ≤ self.n ∧
      self.setInequalityConstraintMatrix A = Except.ok { self with Ai := A }) ∨
    ((A.cols ≠ self.n ∨ self.n < A.rows) ∧
      ∃ e, self.setInequalityConstraintMatrix A = Except.error e) := by
  by_cases hc : A.cols = self.n
  · by_cases hr : A.rows ≤ self.n
    · left
      refine ⟨hc, hr, ?_⟩
      simp [Structure.setInequalityConstraintMatrix, Assert, hc, hr]
      rfl
    · right
      refine ⟨Or.inr (by omega), ?_⟩
      simp [Structure.setInequalityConstraintMatrix, Assert, hc, hr]
      exact ⟨_, rfl⟩
  · right
    refine ⟨Or.inl hc, ?_⟩
    simp [Structure.setInequalityConstraintMatrix, Assert, hc]
    exact ⟨_, rfl⟩

/-- C17: `setEqualityConstraintMatrix(Ae)` and `setInequalityConstraintMatrix(Ai)` fail exactly
when the matrix does not have `n` columns or has more than `n` rows; when they succeed the
stored matrix is the argument and `numEqualityConstraints()` / `numInequalityConstraints()`
is its number of rows. -/
theorem Structure.set_constraint_matrix (self : Structure) (A : Matrix) :
    (Except.failed (self.setEqualityConstraintMatrix A)
      ↔ (A.cols ≠ self.n ∨ self.n < A.rows)) ∧
    (∀ s', self.setEqualityConstraintMatrix A = Except.ok s' →
      s'.equalityConstraintMatrix = A ∧ s'.numEqualityConstraints = A.rows) ∧
    (Except.failed (self.setInequalityConstraintMatrix A)
      ↔ (A.cols ≠ self.n ∨ self.n < A.rows)) ∧
    (∀ s', self.setInequalityConstraintMatrix A = Except.ok s' →
      s'.inequalityConstraintMatrix = A ∧ s'.numInequalityConstraints = A.rows) := by
  refine ⟨?_, ?_, ?_, ?_⟩
  · rcases Structure.setEquality_cases self A with ⟨hc, hr, he⟩ | ⟨hbad, e, he⟩
    · rw [he]
      constructor
      · intro hf; exact absurd hf (by simp [Except.failed])
      · intro hbad; omega
    · rw [he]
      exact ⟨fun _ => hbad, fun _ => trivial⟩
  · intro s' hs
    rcases Structure.setEquality_cases self A with ⟨_, _, he⟩ | ⟨_, e, he⟩
    · rw [he] at hs
      cases hs
      exact ⟨rfl, rfl⟩
    · rw [he] at hs
      cases hs
  · rcases Structure.setInequality_cases self A with ⟨hc, hr, he⟩ | ⟨hbad, e, he⟩
    · rw [he]
      constructor
      · intro hf; exact absurd hf (by simp [Except.failed])
      · intro hbad; omega
    · rw [he]
      exact ⟨fun _ => hbad, fun _ => trivial⟩
  · intro s' hs
    rcases Structure.setInequality_cases self A with ⟨_, _, he⟩ | ⟨_, e, he⟩
    · rw [he] at hs
      cases hs
      exact ⟨rfl, rfl⟩
    · rw [he] at hs
      cases hs

/-- C20: a default-constructed `SaddlePointOptions` has `method = PartialPivLU` and
`rationalize = false`, and `SaddlePointMethod` has exactly the four values `PartialPivLU`,
`FullPivLU`, `Nullspace` and `RangespaceDiagonal`. -/
theorem SaddlePointOptions.defaults :
    ({} : SaddlePointOptions).method = SaddlePointMethod.PartialPivLU ∧
    ({} : SaddlePointOptions).rationalize = false ∧
    (∀ m : SaddlePointMethod,
      m = SaddlePointMethod.PartialPivLU ∨ m = SaddlePointMethod.FullPivLU ∨
      m = SaddlePointMethod.Nullspace ∨ m = SaddlePointMethod.RangespaceDiagonal) ∧
    [SaddlePointMethod.PartialPivLU, SaddlePointMethod.FullPivLU,
      SaddlePointMethod.Nullspace, SaddlePointMethod.RangespaceDiagonal].Nodup := by
  refine ⟨rfl, rfl, ?_, by decide⟩
  intro m
  cases m <;> simp

/-! ## Saddle-point solver -/

theorem coeff_head (v : Vector) (n j : Nat) (hj : j < n) : coeff (head v n) j = coeff v j := by
  unfold coeff head
  simp [List.getD_eq_getElem?_getD, List.getElem?_take, hj]

theorem coeff_segment (v : Vector) (off len k : Nat) (hk : k < len) :
    coeff (segment v off len) k = coeff v (off + k) := by
  unfold coeff segment
  simp [List.getD_eq_getElem?_getD, List.getElem?_take, hk, List.getElem?_drop]

theorem coeff_append_left (a b : Vector) (i : Nat) (hi : i < a.length) :
    coeff (a ++ b) i = coeff a i := List.getD_append a b 0 i hi

theorem coeff_append_right (a b : Vector) (i : Nat) :
    coeff (a ++ b) (a.length + i) = coeff b i := by
  unfold coeff
  rw [List.getD_append_right a b 0 _ (Nat.le_add_right _ _), Nat.add_sub_cancel_left]

/-- Rows of the assembled saddle-point matrix applied to a vector `s = [x; y]`. -/
theorem SaddlePointMatrix.array_row (M : SaddlePointMatrix) (s : Vector) (i : Nat)
    (hi : i < M.n + M.m) :
    coeff (mulVec M.array s) i =
      (∑ j in Finset.range M.nx, M.array.coeff i j * coeff s j)
        + (∑ j in Finset.range M.nf, M.array.coeff i (M.nx + j) * coeff s (M.nx + j))
        + (∑ k in Finset.range M.m, M.array.coeff i (M.n + k) * coeff s (M.n + k)) := by
  rw [coeff_mulVec M.array s i hi]
  have hc : M.array.cols = M.nx + M.nf + M.m := rfl
  rw [hc, Finset.sum_range_add, Finset.sum_range_add]
  rfl

/-- With a linear solve `lu` that is exact on the nonsingular systems, `decompose` followed
by `solve` returns `(x, y)` with `M·[x; y] = [a; b]` on the free rows and on the constraint
rows and `x[i] = a[i]` on every fixed variable, when the assembled matrix is nonsingular. -/
theorem SaddlePointSolver.solve_solves_of_lu (lu : Matrix → Vector → Vector)
    (M : SaddlePointMatrix) (a b : Vector)
    (ha : a.length = M.n) (hb : b.length = M.m)
    (hlu : LuSolves lu (M.n + M.m)) (hns : M.array.Nonsingular) :
    M.Solves a b ((SaddlePointSolver.decompose M).solve lu a b).1
      ((SaddlePointSolver.decompose M).solve lu a b).2 := by
  obtain ⟨hlen, hmul⟩ := hlu M.array (a ++ b) rfl rfl hns (by simp [ha, hb])
  have hx : ∀ j, j < M.n →
      coeff ((SaddlePointSolver.decompose M).solve lu a b).1 j
        = coeff (lu M.array (a ++ b)) j := fun j hj => coeff_head _ _ j hj
  have hy : ∀ k, k < M.m →
      coeff ((SaddlePointSolver.decompose M).solve lu a b).2 k
        = coeff (lu M.array (a ++ b)) (M.n + k) := fun k hk => coeff_segment _ _ _ k hk
  have hrow : ∀ i, i < M.n + M.m →
      coeff (mulVec M.array (lu M.array (a ++ b))) i = coeff (a ++ b) i := by
    intro i _; rw [hmul]
  have hn : M.n = M.nx + M.nf := rfl
  refine ⟨?_, ?_, ?_⟩
  · intro i hi
    have h := hrow i (by omega)
    rw [SaddlePointMatrix.array_row M _ i (by omega),
      coeff_append_left a b i (by omega)] at h
    rw [← h]
    have e1 : (∑ j in Finset.range M.nx,
        M.array.coeff i j * coeff (lu M.array (a ++ b)) j)
        = ∑ j in Finset.range M.nx,
          M.H.coeff i j * coeff ((SaddlePointSolver.decompose M).solve lu a b).1 j := by
      apply Finset.sum_congr rfl
      intro j hj
      have hj' := Finset.mem_range.mp hj
      rw [hx j (by omega), SaddlePointMatrix.array,
        Matrix.coeff_matOfFn _ _ _ i j (by omega) (by omega), if_pos hi, if_pos hj']
    have e2 : (∑ j in Finset.range M.nf,
        M.array.coeff i (M.nx + j) * coeff (lu M.array (a ++ b)) (M.nx + j)) = 0 := by
      apply Finset.sum_eq_zero
      intro j hj
      have hj' := Finset.mem_range.mp hj
      rw [SaddlePointMatrix.array,
        Matrix.coeff_matOfFn _ _ _ i (M.nx + j) (by omega) (by omega), if_pos hi,
        if_neg (by omega), if_pos (by omega), zero_mul]
    have e3 : (∑ k in Finset.range M.m,
        M.array.coeff i (M.n + k) * coeff (lu M.array (a ++ b)) (M.n + k))
        = ∑ k in Finset.range M.m,
          M.A.coeff k i * coeff ((SaddlePointSolver.decompose M).solve lu a b).2 k := by
      apply Finset.sum_congr rfl
      intro k hk
      have hk' := Finset.mem_range.mp hk
      rw [hy k hk', SaddlePointMatrix.array,
        Matrix.coeff_matOfFn _ _ _ i (M.n + k) (by omega) (by omega), if_pos hi,
        if_neg (by omega), if_neg (by omega), Nat.add_sub_cancel_left]
    rw [e1, e2, e3, add_zero]
  · intro i hi1 hi2
    have h := hrow i (by omega)
    rw [coeff_mulVec M.array _ i (by show i < M.n + M.m; omega),
      coeff_append_left a b i (by omega)] at h
    rw [hx i hi2, ← h]
    have hc : M.array.cols = M.n + M.m := rfl
    rw [hc, Finset.sum_eq_single i]
    · rw [SaddlePointMatrix.array, Matrix.coeff_matOfFn _ _ _ i i (by omega) (by omega),
        if_neg (by omega), if_pos hi2, if_pos rfl, one_mul]
    · intro j hj hne
      have hj' := Finset.mem_range.mp hj
      rw [SaddlePointMatrix.array, Matrix.coeff_matOfFn _ _ _ i j (by omega) hj',
        if_neg (by omega), if_pos hi2, if_neg hne, zero_mul]
    · intro hni
      exact absurd (Finset.mem_range.mpr (by omega)) hni
  · intro k hk
    have h := hrow (M.n + k) (by omega)
    have hb' : coeff (a ++ b) (M.n + k) = coeff b k := by
      rw [← ha]; exact coeff_append_right a b k
    rw [hb'] at h
    rw [← h, coeff_mulVec M.array _ (M.n + k) (by show M.n + k < M.n + M.m; omega)]
    have hc : M.array.cols = M.n + M.m := rfl
    rw [hc, Finset.sum_range_add]
    congr 1
    · apply Finset.sum_congr rfl
      intro j hj
      have hj' := Finset.mem_range.mp hj
      rw [hx j hj', SaddlePointMatrix.array,
        Matrix.coeff_matOfFn _ _ _ (M.n + k) j (by omega) (by omega),
        if_neg (by omega), if_neg (by omega), if_pos hj', Nat.add_sub_cancel_left]
    · apply Finset.sum_congr rfl
      intro l hl
      have hl' := Finset.mem_range.mp hl
      rw [hy l hl', SaddlePointMatrix.array,
        Matrix.coeff_matOfFn _ _ _ (M.n + k) (M.n + l) (by omega) (by omega),
        if_neg (by omega), if_neg (by omega), if_neg (by omega), Nat.add_sub_cancel_left,
        Nat.add_sub_cancel_left]

/-! ## Canonicalizer: index exchanges and the pivot search -/

theorem swapIdx_left (a b : Nat) : swapIdx a b a = b := by simp [swapIdx]

theorem swapIdx_right (a b : Nat) : swapIdx a b b = a := by
  unfold swapIdx
  by_cases h : b = a
  · simp [h]
  · simp [h]

theorem swapIdx_of_ne (a b i : Nat) (h1 : i ≠ a) (h2 : i ≠ b) : swapIdx a b i = i := by
  simp [swapIdx, h1, h2]

theorem swapIdx_invol (a b i : Nat) : swapIdx a b (swapIdx a b i) = i := by
  by_cases h1 : i = a
  · subst h1; rw [swapIdx_left, swapIdx_right]
  · by_cases h2 : i = b
    · subst h2; rw [swapIdx_right, swapIdx_left]
    · rw [swapIdx_of_ne a b i h1 h2, swapIdx_of_ne a b i h1 h2]

theorem swapIdx_lt (a b i n : Nat) (ha : a < n) (hb : b < n) (hi : i < n) :
    swapIdx a b i < n := by
  unfold swapIdx
  split_ifs <;> assumption

theorem swapIdx_ge (k b i : Nat) (hb : k ≤ b) (hi : k ≤ i) : k ≤ swapIdx k b i := by
  unfold swapIdx
  split_ifs <;> omega

theorem swapIdx_below (k b i : Nat) (hb : k ≤ b) (hi : i < k) : swapIdx k b i = i :=
  swapIdx_of_ne k b i (by omega) (by omega)

theorem getD_map_range (f : Nat → Nat) (n j : Nat) (hj : j < n) :
    ((List.range n).map f).getD j 0 = f j := by
  simp [List.getD_eq_getElem?_getD, List.getElem?_map, List.getElem?_range hj]

theorem getD_mem (q : Indices) (j : Nat) (hj : j < q.length) : q.getD j 0 ∈ q := by
  rw [List.getD_eq_getElem _ _ hj]; exact List.getElem_mem _

theorem getD_inj (q : Indices) (hq : q.Nodup) (i j : Nat) (hi : i < q.length)
    (hj : j < q.length) (h : q.getD i 0 = q.getD j 0) : i = j := by
  rw [List.getD_eq_getElem _ _ hi, List.getD_eq_getElem _ _ hj] at h
  exact (hq.getElem_inj_iff).mp h

/-- The running maximum over a list of candidate positions. -/
theorem Canonicalizer.foldl_pivot (C : Matrix) (k : Nat) (cands : List (Nat × Nat))
    (best : Nat × Nat) :
    (cands.foldl (fun best c =>
        if k ≤ c.1 ∧ k ≤ c.2 ∧ |C.coeff best.1 best.2| < |C.coeff c.1 c.2| then c else best)
        best = best ∨
      (cands.foldl (fun best c =>
        if k ≤ c.1 ∧ k ≤ c.2 ∧ |C.coeff best.1 best.2| < |C.coeff c.1 c.2| then c else best)
        best ∈ cands ∧
       k ≤ (cands.foldl (fun best c =>
        if k ≤ c.1 ∧ k ≤ c.2 ∧ |C.coeff best.1 best.2| < |C.coeff c.1 c.2| then c else best)
        best).1 ∧
       k ≤ (cands.foldl (fun best c =>
        if k ≤ c.1 ∧ k ≤ c.2 ∧ |C.coeff best.1 best.2| < |C.coeff c.1 c.2| then c else best)
        best).2)) ∧
    |C.coeff best.1 best.2| ≤ |C.coeff (cands.foldl (fun best c =>
        if k ≤ c.1 ∧ k ≤ c.2 ∧ |C.coeff best.1 best.2| < |C.coeff c.1 c.2| then c else best)
        best).1 (cands.foldl (fun best c =>
        if k ≤ c.1 ∧ k ≤ c.2 ∧ |C.coeff best.1 best.2| < |C.coeff c.1 c.2| then c else best)
        best).2| ∧
    (∀ c ∈ cands, k ≤ c.1 → k ≤ c.2 →
      |C.coeff c.1 c.2| ≤ |C.coeff (cands.foldl (fun best c =>
        if k ≤ c.1 ∧ k ≤ c.2 ∧ |C.coeff best.1 best.2| < |C.coeff c.1 c.2| then c else best)
        best).1 (cands.foldl (fun best c =>
        if k ≤ c.1 ∧ k ≤ c.2 ∧ |C.coeff best.1 best.2| < |C.coeff c.1 c.2| then c else best)
        best).2|) := by
  induction cands generalizing best with
  | nil => simp
  | cons c cs ih =>
    simp only [List.foldl_cons]
    by_cases hc : k ≤ c.1 ∧ k ≤ c.2 ∧ |C.coeff best.1 best.2| < |C.coeff c.1 c.2|
    · rw [if_pos hc]
      obtain ⟨h1, h2, h3⟩ := ih c
      refine ⟨Or.inr ?_, le_trans (le_of_lt hc.2.2) h2, ?_⟩
      · rcases h1 with h1 | ⟨h1, h1a, h1b⟩
        · rw [h1]; exact ⟨List.mem_cons_self _ _, hc.1, hc.2.1⟩
        · exact ⟨List.mem_cons_of_mem _ h1, h1a, h1b⟩
      · intro c' hc' hk1 hk2
        rcases List.mem_cons.mp hc' with he | hm
        · rw [he]; exact h2
        · exact h3 c' hm hk1 hk2
    · rw [if_neg hc]
      obtain ⟨h1, h2, h3⟩ := ih best
      refine ⟨?_, h2, ?_⟩
      · rcases h1 with h1 | ⟨h1, h1a, h1b⟩
        · exact Or.inl h1
        · exact Or.inr ⟨List.mem_cons_of_mem _ h1, h1a, h1b⟩
      · intro c' hc' hk1 hk2
        rcases List.mem_cons.mp hc' with he | hm
        · rw [he]
          by_cases hlt : |C.coeff best.1 best.2| < |C.coeff c.1 c.2|
          · exact absurd ⟨he ▸ hk1, he ▸ hk2, hlt⟩ hc
          · exact le_trans (not_lt.mp hlt) h2
        · exact h3 c' hm hk1 hk2

/-- The pivot lies in the remaining block and no entry of the block is larger. -/
theorem Canonicalizer.findPivot_spec (C : Matrix) (k : Nat) (hr : k < C.rows)
    (hc : k < C.cols) :
    k ≤ (Canonicalizer.findPivot C k).1 ∧ (Canonicalizer.findPivot C k).1 < C.rows ∧
    k ≤ (Canonicalizer.findPivot C k).2 ∧ (Canonicalizer.findPivot C k).2 < C.cols ∧
    ∀ i j, k ≤ i → i < C.rows → k ≤ j → j < C.cols →
      |C.coeff i j| ≤ |C.coeff (Canonicalizer.findPivot C k).1 (Canonicalizer.findPivot C k).2| := by
  obtain ⟨h1, _, h3⟩ := Canonicalizer.foldl_pivot C k
    (List.product (List.range C.rows) (List.range C.cols)) (k, k)
  have hin : k ≤ (Canonicalizer.findPivot C k).1 ∧ (Canonicalizer.findPivot C k).1 < C.rows ∧
      k ≤ (Canonicalizer.findPivot C k).2 ∧ (Canonicalizer.findPivot C k).2 < C.cols := by
    rcases h1 with h1 | ⟨h1, h1a, h1b⟩
    · have h1' : Canonicalizer.findPivot C k = (k, k) := h1
      rw [h1']
      exact ⟨le_refl _, hr, le_refl _, hc⟩
    · have hm : Canonicalizer.findPivot C k
          ∈ List.product (List.range C.rows) (List.range C.cols) := h1
      have hm' := List.mem_product.mp hm
      exact ⟨h1a, List.mem_range.mp hm'.1, h1b, List.mem_range.mp hm'.2⟩
  refine ⟨hin.1, hin.2.1, hin.2.2.1, hin.2.2.2, ?_⟩
  intro i j hki hi hkj hj
  exact h3 (i, j) (List.mem_product.mpr ⟨List.mem_range.mpr hi, List.mem_range.mpr hj⟩) hki hkj

/-! ## Canonicalizer: the invariant of the elimination -/

/-- Exchanging rows and columns keeps the invariant and brings the pivot to `(k, k)`. -/
theorem Canonicalizer.swap_inv (W : Matrix) (e : Canonicalizer.Elim)
    (h : Canonicalizer.Inv W e) (pi pj : Nat)
    (hkr : e.k < W.rows) (hkc : e.k < W.cols)
    (hpi1 : e.k ≤ pi) (hpi2 : pi < W.rows) (hpj1 : e.k ≤ pj) (hpj2 : pj < W.cols) :
    Canonicalizer.Inv W (e.swap pi pj) ∧ (e.swap pi pj).k = e.k ∧
    (e.swap pi pj).C.coeff e.k e.k = e.C.coeff pi pj := by
  have hσ : ∀ i, i < W.rows → swapIdx e.k pi i < W.rows :=
    fun i hi => swapIdx_lt _ _ _ _ hkr hpi2 hi
  have hτ : ∀ j, j < W.cols → swapIdx e.k pj j < W.cols :=
    fun j hj => swapIdx_lt _ _ _ _ hkc hpj2 hj
  have hCc : ∀ i j, i < W.rows → j < W.cols →
      (e.swap pi pj).C.coeff i j = e.C.coeff (swapIdx e.k pi i) (swapIdx e.k pj j) := by
    intro i j hi hj
    exact Matrix.coeff_matOfFn _ _ _ i j (by rw [h.rowsC]; exact hi) (by rw [h.colsC]; exact hj)
  have hRc : ∀ i l, i < W.rows → l < W.rows →
      (e.swap pi pj).R.coeff i l = e.R.coeff (swapIdx e.k pi i) l := by
    intro i l hi hl
    exact Matrix.coeff_matOfFn _ _ _ i l (by rw [h.rowsR]; exact hi) (by rw [h.colsR]; exact hl)
  have hq : ∀ j, j < W.cols → (e.swap pi pj).q.getD j 0 = e.q.getD (swapIdx e.k pj j) 0 := by
    intro j hj
    exact getD_map_range _ _ j (by rw [h.lenq]; exact hj)
  refine ⟨?_, rfl, ?_⟩
  · refine ⟨h.rowsC, h.colsC, h.rowsR, h.colsR, ?_, ?_, ?_, ?_, h.kr, h.kc, ?_, ?_⟩
    · show ((List.range e.p.length).map _).length = _
      rw [List.length_map, List.length_range, h.lenp]
    · show ((List.range e.q.length).map _).length = _
      rw [List.length_map, List.length_range, h.lenq]
    · show ((List.range e.q.length).map _).Nodup
      apply List.Nodup.map_on _ (List.nodup_range _)
      intro x hx y hy hxy
      have hx' : x < W.cols := by rw [← h.lenq]; exact List.mem_range.mp hx
      have hy' : y < W.cols := by rw [← h.lenq]; exact List.mem_range.mp hy
      have := getD_inj e.q h.nodupq _ _ (by rw [h.lenq]; exact hτ x hx')
        (by rw [h.lenq]; exact hτ y hy') hxy
      have h2 := congrArg (swapIdx e.k pj) this
      rwa [swapIdx_invol, swapIdx_invol] at h2
    · intro x hx
      have hx' : x ∈ (List.range e.q.length).map
          (fun j => e.q.getD (swapIdx e.k pj j) 0) := hx
      obtain ⟨j, hj, rfl⟩ := List.mem_map.mp hx'
      have hj' : j < W.cols := by rw [← h.lenq]; exact List.mem_range.mp hj
      exact h.ltq _ (getD_mem e.q _ (by rw [h.lenq]; exact hτ j hj'))
    · intro i j hi hj
      rw [hCc i j hi hj, h.rwq _ _ (hσ i hi) (hτ j hj), hq j hj]
      apply Finset.sum_congr rfl
      intro l hl
      rw [hRc i l hi (Finset.mem_range.mp hl)]
    · intro i j hi hj
      have hj' : j < W.cols := by
        have : (e.swap pi pj).k = e.k := rfl
        omega
      have hjk : j < e.k := hj
      rw [hCc i j hi hj', swapIdx_below e.k pj j hpj1 hjk, h.unit _ j (hσ i hi) hjk]
      by_cases hij : i = j
      · subst hij
        rw [swapIdx_below e.k pi i hpi1 hjk]
      · rw [if_neg hij]
        by_cases hik : i < e.k
        · rw [swapIdx_below e.k pi i hpi1 hik, if_neg hij]
        · have := swapIdx_ge e.k pi i hpi1 (by omega)
          rw [if_neg (by omega)]
  · rw [hCc e.k e.k hkr hkc, swapIdx_left, swapIdx_left]

/-- Eliminating with a nonzero pivot at `(k, k)` keeps the invariant and adds a unit column. -/
theorem Canonicalizer.eliminate_inv (W : Matrix) (e : Canonicalizer.Elim)
    (h : Canonicalizer.Inv W e) (hkr : e.k < W.rows) (hkc : e.k < W.cols)
    (ha : e.C.coeff e.k e.k ≠ 0) :
    Canonicalizer.Inv W e.eliminate ∧ e.eliminate.k = e.k + 1 := by
  have hCc : ∀ i j, i < W.rows → j < W.cols →
      e.eliminate.C.coeff i j =
        if i = e.k then e.C.coeff e.k j / e.C.coeff e.k e.k
        else e.C.coeff i j - e.C.coeff i e.k * (e.C.coeff e.k j / e.C.coeff e.k e.k) := by
    intro i j hi hj
    exact Matrix.coeff_matOfFn _ _ _ i j (by rw [h.rowsC]; exact hi) (by rw [h.colsC]; exact hj)
  have hRc : ∀ i l, i < W.rows → l < W.rows →
      e.eliminate.R.coeff i l =
        if i = e.k then e.R.coeff e.k l / e.C.coeff e.k e.k
        else e.R.coeff i l - e.C.coeff i e.k * (e.R.coeff e.k l / e.C.coeff e.k e.k) := by
    intro i l hi hl
    exact Matrix.coeff_matOfFn _ _ _ i l (by rw [h.rowsR]; exact hi) (by rw [h.colsR]; exact hl)
  refine ⟨?_, rfl⟩
  refine ⟨h.rowsC, h.colsC, h.rowsR, h.colsR, h.lenp, h.lenq, h.nodupq, h.ltq, ?_, ?_, ?_, ?_⟩
  · show e.k + 1 ≤ W.rows
    omega
  · show e.k + 1 ≤ W.cols
    omega
  · intro i j hi hj
    rw [hCc i j hi hj]
    have hqE : e.eliminate.q = e.q := rfl
    rw [hqE]
    by_cases hik : i = e.k
    · rw [if_pos hik, h.rwq e.k j hkr hj, Finset.sum_div]
      apply Finset.sum_congr rfl
      intro l hl
      rw [hRc i l hi (Finset.mem_range.mp hl), if_pos hik]
      ring
    · rw [if_neg hik, h.rwq i j hi hj, h.rwq e.k j hkr hj, Finset.sum_div, Finset.mul_sum,
        ← Finset.sum_sub_distrib]
      apply Finset.sum_congr rfl
      intro l hl
      rw [hRc i l hi (Finset.mem_range.mp hl), if_neg hik]
      ring
  · intro i j hi hj
    have hj' : j < e.k + 1 := hj
    rw [hCc i j hi (by omega)]
    by_cases hjk : j = e.k
    · subst hjk
      by_cases hik : i = e.k
      · rw [if_pos hik, if_pos hik, div_self ha]
      · rw [if_neg hik, if_neg hik, div_self ha, mul_one, sub_self]
    · have hjlt : j < e.k := by omega
      have hk0 : e.C.coeff e.k j = 0 := by
        rw [h.unit e.k j hkr hjlt, if_neg (by omega)]
      by_cases hik : i = e.k
      · rw [if_pos hik, hk0, zero_div, if_neg (by omega)]
      · rw [if_neg hik, hk0, zero_div, mul_zero, sub_zero, h.unit i j hi hjlt]

theorem Canonicalizer.step_some (W : Matrix) (e e' : Canonicalizer.Elim)
    (h : Canonicalizer.Inv W e) (hs : Canonicalizer.step e = some e') :
    Canonicalizer.Inv W e' ∧ e'.k = e.k + 1 := by
  unfold Canonicalizer.step at hs
  by_cases hk : e.k < e.C.rows ∧ e.k < e.C.cols
  · rw [if_pos hk] at hs
    have hkr : e.k < W.rows := by rw [← h.rowsC]; exact hk.1
    have hkc : e.k < W.cols := by rw [← h.colsC]; exact hk.2
    obtain ⟨p1, p2, p3, p4, _⟩ := Canonicalizer.findPivot_spec e.C e.k hk.1 hk.2
    by_cases hz : e.C.coeff (Canonicalizer.findPivot e.C e.k).1
        (Canonicalizer.findPivot e.C e.k).2 = 0
    · simp only [hz, if_true] at hs
      cases hs
    · simp only [hz, if_false] at hs
      have he : e' = (e.swap (Canonicalizer.findPivot e.C e.k).1
          (Canonicalizer.findPivot e.C e.k).2).eliminate := (Option.some.inj hs).symm
      obtain ⟨hi, hk', hp⟩ := Canonicalizer.swap_inv W e h _ _ hkr hkc p1
        (by rw [← h.rowsC]; exact p2) p3 (by rw [← h.colsC]; exact p4)
      obtain ⟨hi2, hk2⟩ := Canonicalizer.eliminate_inv W _ hi (by rw [hk']; exact hkr)
        (by rw [hk']; exact hkc) (by rw [hk', hp]; exact hz)
      rw [he]
      exact ⟨hi2, by rw [hk2, hk']⟩
  · rw [if_neg hk] at hs
    cases hs

theorem Canonicalizer.step_none (W : Matrix) (e : Canonicalizer.Elim)
    (h : Canonicalizer.Inv W e) (hs : Canonicalizer.step e = none) :
    Canonicalizer.Terminal W e := by
  unfold Canonicalizer.step at hs
  intro i j hki hi hkj hj
  by_cases hk : e.k < e.C.rows ∧ e.k < e.C.cols
  · rw [if_pos hk] at hs
    obtain ⟨_, _, _, _, p5⟩ := Canonicalizer.findPivot_spec e.C e.k hk.1 hk.2
    by_cases hz : e.C.coeff (Canonicalizer.findPivot e.C e.k).1
        (Canonicalizer.findPivot e.C e.k).2 = 0
    · have := p5 i j hki (by rw [h.rowsC]; exact hi) hkj (by rw [h.colsC]; exact hj)
      rw [hz, abs_zero] at this
      exact abs_eq_zero.mp (le_antisymm this (abs_nonneg _))
    · simp only [hz, if_false] at hs
      cases hs
  · rw [h.rowsC, h.colsC] at hk
    exfalso
    apply hk
    constructor <;> omega

/-- The elimination ends, within `fuel` steps, in a state that keeps the invariant and has no
entry left in the remaining block. -/
theorem Canonicalizer.run_inv (W : Matrix) (fuel : Nat) (e : Canonicalizer.Elim)
    (h : Canonicalizer.Inv W e) (hf : min W.rows W.cols ≤ e.k + fuel) :
    Canonicalizer.Inv W (Canonicalizer.run fuel e) ∧
    Canonicalizer.Terminal W (Canonicalizer.run fuel e) := by
  induction fuel generalizing e with
  | zero =>
    refine ⟨h, ?_⟩
    intro i j hki hi hkj hj
    have := h.kr
    have := h.kc
    simp only [Canonicalizer.run] at hki hkj
    rw [Nat.add_zero] at hf
    rcases Nat.le_total W.rows W.cols with hle | hle
    · rw [Nat.min_eq_left hle] at hf; omega
    · rw [Nat.min_eq_right hle] at hf; omega
  | succ fuel ih =>
    unfold Canonicalizer.run
    cases hs : Canonicalizer.step e with
    | none => exact ⟨h, Canonicalizer.step_none W e h hs⟩
    | some e' =>
      obtain ⟨hi, hk⟩ := Canonicalizer.step_some W e e' h hs
      exact ih e' hi (by omega)

theorem Canonicalizer.init_inv (W : Matrix) :
    Canonicalizer.Inv W
      { C := matOfFn W.rows W.cols W.coeff, R := identity W.rows
        p := List.range W.rows, q := List.range W.cols, k := 0 } := by
  refine ⟨rfl, rfl, rfl, rfl, List.length_range _, List.length_range _, List.nodup_range _,
    fun x hx => List.mem_range.mp hx, Nat.zero_le _, Nat.zero_le _, ?_, ?_⟩
  · intro i j hi hj
    show (matOfFn W.rows W.cols W.coeff).coeff i j
      = ∑ l in Finset.range W.rows, (identity W.rows).coeff i l
          * W.coeff l ((List.range W.cols).getD j 0)
    rw [Matrix.coeff_matOfFn _ _ _ i j hi hj, List.getD_eq_getElem _ _ (by simpa using hj),
      List.getElem_range, Finset.sum_eq_single i]
    · rw [identity, Matrix.coeff_matOfFn _ _ _ i i hi hi, if_pos rfl, one_mul]
    · intro l hl hne
      rw [identity, Matrix.coeff_matOfFn _ _ _ i l hi (Finset.mem_range.mp hl),
        if_neg (Ne.symm hne), zero_mul]
    · intro hni
      exact absurd (Finset.mem_range.mpr hi) hni
  · intro i j _ hj
    exact absurd hj (Nat.not_lt_zero _)

/-- A duplicate-free list of `n` indices below `n` is a reordering of `0…n−1`. -/
theorem perm_range_of_nodup (l : Indices) (n : Nat) (hl : l.length = n) (hn : l.Nodup)
    (hlt : ∀ x ∈ l, x < n) : l.Perm (List.range n) := by
  apply List.perm_of_nodup_nodup_toFinset_eq hn (List.nodup_range n)
  apply Finset.eq_of_subset_of_card_le
  · intro x hx
    rw [List.mem_toFinset] at hx ⊢
    exact List.mem_range.mpr (hlt x hx)
  · rw [List.toFinset_card_of_nodup hn, List.toFinset_card_of_nodup (List.nodup_range n),
      List.length_range, hl]

/-! ## Canonicalizer: the canonical form -/

/-- The final state of the elimination run by `compute`. -/
theorem Canonicalizer.compute_final (W : Matrix) :
    Canonicalizer.Inv W (Canonicalizer.run (min W.rows W.cols)
      { C := matOfFn W.rows W.cols W.coeff, R := identity W.rows
        p := List.range W.rows, q := List.range W.cols, k := 0 }) ∧
    Canonicalizer.Terminal W (Canonicalizer.run (min W.rows W.cols)
      { C := matOfFn W.rows W.cols W.coeff, R := identity W.rows
        p := List.range W.rows, q := List.range W.cols, k := 0 }) :=
  Canonicalizer.run_inv W _ _ (Canonicalizer.init_inv W) (by simp)

/-- Entry `(i, j)` of `R·W·Q` in terms of the column ordering. -/
theorem coeff_mul_mul_permutation (R W : Matrix) (q : Indices) (i j : Nat)
    (hi : i < R.rows) (hj : j < q.length) (hW : W.cols = q.length)
    (hq : ∀ x ∈ q, x < q.length) :
    ((R.mul W).mul (permutationMatrix q)).coeff i j
      = ∑ l in Finset.range R.cols, R.coeff i l * W.coeff l (q.getD j 0) := by
  have hqj : q.getD j 0 < q.length := hq _ (getD_mem q j hj)
  rw [Matrix.coeff_mul (R.mul W) (permutationMatrix q) i j hi hj]
  have hc : (R.mul W).cols = q.length := hW
  rw [hc, Finset.sum_eq_single (q.getD j 0)]
  · rw [permutationMatrix, Matrix.coeff_matOfFn _ _ _ _ j hqj hj, if_pos rfl, mul_one,
      Matrix.coeff_mul R W i _ hi (by rw [hW]; exact hqj)]
  · intro l hl hne
    rw [permutationMatrix, Matrix.coeff_matOfFn _ _ _ l j (Finset.mem_range.mp hl) hj,
      if_neg hne, mul_zero]
  · intro hni
    exact absurd (Finset.mem_range.mpr hqj) hni

/-- Evaluation of `compute` on a matrix of rank two with a dependent third row. -/
theorem Canonicalizer.compute_sample :
    (Canonicalizer.compute sampleW).numBasicVariables = 2 ∧
    (Canonicalizer.compute sampleW).ibasic = [0, 1] ∧
    (Canonicalizer.compute sampleW).inonbasic = [2, 3] ∧
    (Canonicalizer.compute sampleW).ili = [0, 1] ∧
    ((Canonicalizer.compute sampleW).R.mul sampleW).mul (Canonicalizer.compute sampleW).Q
      = ⟨3, 4, [[1, 0, 0, 0], [0, 1, 1, 1], [0, 0, 0, 0]]⟩ := by
  decide!

/-! ## The canonical solver: back-substitution, entry by entry -/

theorem solver.y_eq (lu : Matrix → Vector → Vector) (P : SaddlePointProblemCanonical)
    (solution : SaddlePointVectorCanonical) (hnb : P.nb ≠ 0) :
    (solver lu P solution).y = lu (solver.Ub P) (solver.r P) := by
  show (if P.nb ≠ 0 then lu (solver.Ub P) (solver.r P) else solution.y) = _
  rw [if_pos hnb]

theorem solver.zu_eq (lu : Matrix → Vector → Vector) (P : SaddlePointProblemCanonical)
    (solution : SaddlePointVectorCanonical) (hnu : P.nu ≠ 0) :
    (solver lu P solution).zu
      = cwiseDiv (vsub (solver.uu P) (trMulVec P.lhs.Bu (solver lu P solution).y))
          (vsub P.lhs.Eu P.lhs.Gu) := by
  show (if P.nu ≠ 0 then _ else solution.zu) = _
  rw [if_pos hnu]
  rfl

theorem solver.xs_eq (lu : Matrix → Vector → Vector) (P : SaddlePointProblemCanonical)
    (solution : SaddlePointVectorCanonical) (hns : P.ns ≠ 0) :
    (solver lu P solution).xs
      = cwiseDiv (vsub (solver.us P) (trMulVec P.lhs.Bs (solver lu P solution).y))
          (vsub P.lhs.Gs P.lhs.Es) := by
  show (if P.ns ≠ 0 then _ else solution.xs) = _
  rw [if_pos hns]
  rfl

theorem solver.xb_eq (lu : Matrix → Vector → Vector) (P : SaddlePointProblemCanonical)
    (solution : SaddlePointVectorCanonical) (hnb : P.nb ≠ 0) :
    (solver lu P solution).xb
      = cwiseDiv
          (let xb := solver.ub P
           let xb := if P.ns ≠ 0
             then vsub xb (mulVec P.lhs.Bs (solver lu P solution).xs) else xb
           if P.nu ≠ 0 then vadd xb (mulVec P.lhs.Bu (solver lu P solution).zu) else xb)
          P.lhs.Bb := by
  simp only [solver, if_pos hnb]

theorem solver.zb_eq (lu : Matrix → Vector → Vector) (P : SaddlePointProblemCanonical)
    (solution : SaddlePointVectorCanonical) (hnb : P.nb ≠ 0) :
    (solver lu P solution).zb
      = vsub (cwiseDiv P.rhs.cb P.lhs.Eb) (solver lu P solution).xb := by
  simp only [solver, if_pos hnb]

theorem solver.zs_eq (lu : Matrix → Vector → Vector) (P : SaddlePointProblemCanonical)
    (solution : SaddlePointVectorCanonical) (hns : P.ns ≠ 0) :
    (solver lu P solution).zs
      = vsub (cwiseDiv P.rhs.cs P.lhs.Es) (solver lu P solution).xs := by
  simp only [solver, if_pos hns]

theorem solver.xu_eq (lu : Matrix → Vector → Vector) (P : SaddlePointProblemCanonical)
    (solution : SaddlePointVectorCanonical) (hnu : P.nu ≠ 0) :
    (solver lu P solution).xu
      = vsub (cwiseDiv P.rhs.cu P.lhs.Eu) (solver lu P solution).zu := by
  simp only [solver, if_pos hnu]

/-- A sub-range of size zero is left unwritten. -/
theorem solver.unwritten (lu : Matrix → Vector → Vector) (P : SaddlePointProblemCanonical)
    (solution : SaddlePointVectorCanonical) :
    (P.nb = 0 → (solver lu P solution).y = solution.y ∧
      (solver lu P solution).zb = solution.zb) ∧
    (P.ns = 0 → (solver lu P solution).xs = solution.xs ∧
      (solver lu P solution).zs = solution.zs) ∧
    (P.nu = 0 → (solver lu P solution).xu = solution.xu ∧
      (solver lu P solution).zu = solution.zu) := by
  refine ⟨fun h => ?_, fun h => ?_, fun h => ?_⟩ <;> simp [solver, h]

theorem solver.length_us (P : SaddlePointProblemCanonical) (hwf : P.WellFormed)
    (hns : P.ns ≠ 0) : (solver.us P).length = P.ns := by
  obtain ⟨_, _, _, _, _, _, _, _, _, _, _, has, _⟩ := hwf
  unfold solver.us
  rw [if_pos hns, vsub, length_vecOfFn]; exact has

theorem solver.length_uu (P : SaddlePointProblemCanonical) (hwf : P.WellFormed)
    (hnu : P.nu ≠ 0) : (solver.uu P).length = P.nu := by
  obtain ⟨_, _, _, _, _, _, _, _, _, _, _, _, _, hau, _⟩ := hwf
  unfold solver.uu
  rw [if_pos hnu, vsub, length_vecOfFn]; exact hau

/-- Entry `k` of `xs = (us − tr(Bs)*y)/(Gs − Es)`. -/
theorem solver.coeff_xs (lu : Matrix → Vector → Vector) (P : SaddlePointProblemCanonical)
    (solution : SaddlePointVectorCanonical) (hwf : P.WellFormed) (k : Nat) (hk : k < P.ns) :
    coeff (solver lu P solution).xs k
      = (specus P k - coeff (trMulVec P.lhs.Bs (solver lu P solution).y) k)
          / (coeff P.lhs.Gs k - coeff P.lhs.Es k) := by
  have hns : P.ns ≠ 0 := by omega
  have hl := solver.length_us P hwf hns
  rw [solver.xs_eq lu P solution hns,
    coeff_cwiseDiv _ _ k (by rw [vsub, length_vecOfFn, hl]; exact hk),
    coeff_vsub _ _ k (by rw [hl]; exact hk), solver.coeff_us P hwf k hk,
    coeff_vsub _ _ k hk]

/-- Entry `k` of `zu = (uu − tr(Bu)*y)/(Eu − Gu)`. -/
theorem solver.coeff_zu (lu : Matrix → Vector → Vector) (P : SaddlePointProblemCanonical)
    (solution : SaddlePointVectorCanonical) (hwf : P.WellFormed) (k : Nat) (hk : k < P.nu) :
    coeff (solver lu P solution).zu k
      = (specuu P k - coeff (trMulVec P.lhs.Bu (solver lu P solution).y) k)
          / (coeff P.lhs.Eu k - coeff P.lhs.Gu k) := by
  have hnu : P.nu ≠ 0 := by omega
  have hl := solver.length_uu P hwf hnu
  have hEu : P.lhs.Eu.length = P.nu := hwf.2.2.2.1
  rw [solver.zu_eq lu P solution hnu,
    coeff_cwiseDiv _ _ k (by rw [vsub, length_vecOfFn, hl]; exact hk),
    coeff_vsub _ _ k (by rw [hl]; exact hk), solver.coeff_uu P hwf k hk,
    coeff_vsub _ _ k (by rw [hEu]; exact hk)]

/-- Entry `k` of `zs = cs/Es − xs`. -/
theorem solver.coeff_zs (lu : Matrix → Vector → Vector) (P : SaddlePointProblemCanonical)
    (solution : SaddlePointVectorCanonical) (hwf : P.WellFormed) (k : Nat) (hk : k < P.ns) :
    coeff (solver lu P solution).zs k
      = coeff P.rhs.cs k / coeff P.lhs.Es k - coeff (solver lu P solution).xs k := by
  have hns : P.ns ≠ 0 := by omega
  obtain ⟨_, _, _, _, _, _, _, _, _, _, _, _, hcs, _⟩ := hwf
  rw [solver.zs_eq lu P solution hns,
    coeff_vsub _ _ k (by rw [cwiseDiv, length_vecOfFn, hcs]; exact hk),
    coeff_cwiseDiv _ _ k (by rw [hcs]; exact hk)]

/-- Entry `k` of `xu = cu/Eu − zu`. -/
theorem solver.coeff_xu (lu : Matrix → Vector → Vector) (P : SaddlePointProblemCanonical)
    (solution : SaddlePointVectorCanonical) (hwf : P.WellFormed) (k : Nat) (hk : k < P.nu) :
    coeff (solver lu P solution).xu k
      = coeff P.rhs.cu k / coeff P.lhs.Eu k - coeff (solver lu P solution).zu k := by
  have hnu : P.nu ≠ 0 := by omega
  obtain ⟨_, _, _, _, _, _, _, _, _, _, _, _, _, _, hcu⟩ := hwf
  rw [solver.xu_eq lu P solution hnu,
    coeff_vsub _ _ k (by rw [cwiseDiv, length_vecOfFn, hcu]; exact hk),
    coeff_cwiseDiv _ _ k (by rw [hcu]; exact hk)]

theorem solver.length_xb (lu : Matrix → Vector → Vector) (P : SaddlePointProblemCanonical)
    (solution : SaddlePointVectorCanonical) (hwf : P.WellFormed) (hnb : P.nb ≠ 0) :
    (solver lu P solution).xb.length = P.nb := by
  have hl := solver.length_ub P hwf hnb
  rw [solver.xb_eq lu P solution hnb, cwiseDiv, length_vecOfFn]
  by_cases hns : P.ns = 0 <;> by_cases hnu : P.nu = 0 <;>
    simp [hns, hnu, vsub, vadd, length_vecOfFn, hl]

/-- Entry `i` of `xb = (ub − Bs*xs + Bu*zu)/Bb`. -/
theorem solver.coeff_xb (lu : Matrix → Vector → Vector) (P : SaddlePointProblemCanonical)
    (solution : SaddlePointVectorCanonical) (hwf : P.WellFormed) (i : Nat) (hi : i < P.nb) :
    coeff (solver lu P solution).xb i
      = (specub P i
          - (∑ k in Finset.range P.ns, P.lhs.Bs.coeff i k * coeff (solver lu P solution).xs k)
          + (∑ k in Finset.range P.nu, P.lhs.Bu.coeff i k * coeff (solver lu P solution).zu k))
        / coeff P.lhs.Bb i := by
  have hnb : P.nb ≠ 0 := by omega
  have hl := solver.length_ub P hwf hnb
  have hub := solver.coeff_ub P hwf i hi
  have hwf' := hwf
  obtain ⟨_, _, _, _, hBsr, hBsc, hBur, hBuc, _⟩ := hwf'
  have hlx := solver.length_xb lu P solution hwf hnb
  rw [solver.xb_eq lu P solution hnb, cwiseDiv, length_vecOfFn] at hlx
  rw [solver.xb_eq lu P solution hnb, coeff_cwiseDiv _ _ i (by rw [hlx]; exact hi)]
  congr 1
  by_cases hns : P.ns = 0
  · by_cases hnu : P.nu = 0
    · simp [hns, hnu, hub]
    · simp only [hns, hnu, ne_eq, not_true_eq_false, not_false_eq_true, if_true, if_false,
        Finset.range_zero, Finset.sum_empty, sub_zero]
      rw [coeff_vadd _ _ i (by rw [hl]; exact hi), hub,
        coeff_mulVec _ _ i (by rw [hBur]; exact hi), hBuc]
  · by_cases hnu : P.nu = 0
    · simp only [hns, hnu, ne_eq, not_true_eq_false, not_false_eq_true, if_true, if_false,
        Finset.range_zero, Finset.sum_empty, add_zero]
      rw [coeff_vsub _ _ i (by rw [hl]; exact hi), hub,
        coeff_mulVec _ _ i (by rw [hBsr]; exact hi), hBsc]
    · simp only [hns, hnu, ne_eq, not_false_eq_true, if_true]
      rw [coeff_vadd _ _ i (by rw [vsub, length_vecOfFn, hl]; exact hi),
        coeff_vsub _ _ i (by rw [hl]; exact hi), hub,
        coeff_mulVec _ _ i (by rw [hBsr]; exact hi), hBsc,
        coeff_mulVec _ _ i (by rw [hBur]; exact hi), hBuc]

/-- Entry `i` of `zb = cb/Eb − xb`. -/
theorem solver.coeff_zb (lu : Matrix → Vector → Vector) (P : SaddlePointProblemCanonical)
    (solution : SaddlePointVectorCanonical) (hwf : P.WellFormed) (i : Nat) (hi : i < P.nb) :
    coeff (solver lu P solution).zb i
      = coeff P.rhs.cb i / coeff P.lhs.Eb i - coeff (solver lu P solution).xb i := by
  have hnb : P.nb ≠ 0 := by omega
  obtain ⟨_, _, _, _, _, _, _, _, _, _, hcb, _⟩ := hwf
  rw [solver.zb_eq lu P solution hnb,
    coeff_vsub _ _ i (by rw [cwiseDiv, length_vecOfFn, hcb]; exact hi),
    coeff_cwiseDiv _ _ i (by rw [hcb]; exact hi)]

theorem solver.length_xs (lu : Matrix → Vector → Vector) (P : SaddlePointProblemCanonical)
    (solution : SaddlePointVectorCanonical) (hwf : P.WellFormed) (hns : P.ns ≠ 0) :
    (solver lu P solution).xs.length = P.ns := by
  rw [solver.xs_eq lu P solution hns, cwiseDiv, length_vecOfFn, vsub, length_vecOfFn,
    solver.length_us P hwf hns]

theorem solver.length_xu (lu : Matrix → Vector → Vector) (P : SaddlePointProblemCanonical)
    (solution : SaddlePointVectorCanonical) (hwf : P.WellFormed) (hnu : P.nu ≠ 0) :
    (solver lu P solution).xu.length = P.nu := by
  obtain ⟨_, _, _, _, _, _, _, _, _, _, _, _, _, _, hcu⟩ := hwf
  rw [solver.xu_eq lu P solution hnu, vsub, length_vecOfFn, cwiseDiv, length_vecOfFn, hcu]

/-- Entry `i` of `diag(v) * y`. -/
theorem coeff_mulVec_diag (v y : Vector) (i : Nat) (hi : i < v.length) :
    coeff (mulVec (diag v) y) i = coeff v i * coeff y i := by
  rw [coeff_mulVec _ _ i hi]
  have hc : (diag v).cols = v.length := rfl
  rw [hc, Finset.sum_eq_single i]
  · rw [coeff_diag v i i hi hi, if_pos rfl]
  · intro k hk hne
    rw [coeff_diag v i k hi (Finset.mem_range.mp hk), if_neg (Ne.symm hne), zero_mul]
  · intro hni
    exact absurd (Finset.mem_range.mpr hi) hni

/-- Entry `i` of `Ub * y` for the reduced matrix of the specification. -/
theorem specUb_mulVec (P : SaddlePointProblemCanonical) (hwf : P.WellFormed) (y : Vector)
    (i : Nat) (hi : i < P.nb) :
    coeff (mulVec (specUb P) y) i
      = coeff P.lhs.Bb i * coeff y i
        - (∑ k in Finset.range P.ns, specLs P i k * coeff (trMulVec P.lhs.Bs y) k)
        - (∑ k in Finset.range P.nu, specLu P i k * coeff (trMulVec P.lhs.Bu y) k) := by
  obtain ⟨_, _, _, _, hBsr, hBsc, hBur, hBuc, _⟩ := hwf
  have hr : (specUb P).rows = P.nb := rfl
  have hc : (specUb P).cols = P.nb := rfl
  rw [coeff_mulVec _ _ i (by rw [hr]; exact hi), hc]
  have e1 : ∀ j ∈ Finset.range P.nb, (specUb P).coeff i j * coeff y j
      = (if i = j then coeff P.lhs.Bb i * coeff y j else 0)
        - (∑ k in Finset.range P.ns, specLs P i k * (P.lhs.Bs.coeff j k * coeff y j))
        - (∑ k in Finset.range P.nu, specLu P i k * (P.lhs.Bu.coeff j k * coeff y j)) := by
    intro j hj
    rw [specUb, Matrix.coeff_matOfFn _ _ _ i j hi (Finset.mem_range.mp hj), sub_mul, sub_mul,
      Finset.sum_mul, Finset.sum_mul, ite_mul, zero_mul]
    simp only [mul_assoc]
  rw [Finset.sum_congr rfl e1, Finset.sum_sub_distrib, Finset.sum_sub_distrib,
    Finset.sum_ite_eq, if_pos (Finset.mem_range.mpr hi)]
  congr 1
  · congr 1
    rw [Finset.sum_comm]
    apply Finset.sum_congr rfl
    intro k hk
    rw [coeff_trMulVec _ _ k (by rw [hBsc]; exact Finset.mem_range.mp hk), hBsr,
      Finset.mul_sum]
  · rw [Finset.sum_comm]
    apply Finset.sum_congr rfl
    intro k hk
    rw [coeff_trMulVec _ _ k (by rw [hBuc]; exact Finset.mem_range.mp hk), hBur,
      Finset.mul_sum]

/-- The formulas of `solver` for `xb` and `xu` give `diag(Bb)*xb + Bs*xs + Bu*xu = b` when
every entry of `Bb` is nonzero, whatever value `lu` yields for `y`; the quotients by the other
divisors cancel in this identity. -/
theorem solver.feasibility_identity (lu : Matrix → Vector → Vector)
    (P : SaddlePointProblemCanonical) (solution : SaddlePointVectorCanonical)
    (hwf : P.WellFormed) (hBb : ∀ i, i < P.nb → coeff P.lhs.Bb i ≠ 0) :
    vadd (vadd (mulVec (diag P.lhs.Bb) (solver lu P solution).xb)
        (mulVec P.lhs.Bs (solver lu P solution).xs))
      (mulVec P.lhs.Bu (solver lu P solution).xu) = P.rhs.b := by
  have hwf' := hwf
  obtain ⟨hlB, _, _, _, hBsr, hBsc, hBur, hBuc, _, hb, _⟩ := hwf'
  have hd : (mulVec (diag P.lhs.Bb) (solver lu P solution).xb).length = P.nb := by
    rw [length_mulVec]; exact hlB
  apply vector_ext
  · rw [vadd, length_vecOfFn, vadd, length_vecOfFn, hd, hb]
  · intro i hi
    rw [vadd, length_vecOfFn, vadd, length_vecOfFn, hd] at hi
    rw [coeff_vadd _ _ i (by rw [vadd, length_vecOfFn, hd]; exact hi),
      coeff_vadd _ _ i (by rw [hd]; exact hi),
      coeff_mulVec_diag _ _ i (by rw [hlB]; exact hi),
      coeff_mulVec _ _ i (by rw [hBsr]; exact hi), hBsc,
      coeff_mulVec _ _ i (by rw [hBur]; exact hi), hBuc,
      solver.coeff_xb lu P solution hwf i hi, mul_div_cancel₀ _ (hBb i hi)]
    have e : ∀ k ∈ Finset.range P.nu,
        P.lhs.Bu.coeff i k * coeff (solver lu P solution).xu k
          = P.lhs.Bu.coeff i k * (coeff P.rhs.cu k / coeff P.lhs.Eu k)
            - P.lhs.Bu.coeff i k * coeff (solver lu P solution).zu k := by
      intro k hk
      rw [solver.coeff_xu lu P solution hwf k (Finset.mem_range.mp hk), mul_sub]
    rw [Finset.sum_congr rfl e, Finset.sum_sub_distrib, specub]
    ring

/-- The formulas of `solver` for `zb`, `zs` and `xu` give `Eb∘(xb + zb) = cb`,
`Es∘(xs + zs) = cs` and `Eu∘(xu + zu) = cu` when every entry of `Eb`, `Es` and `Eu` is nonzero,
whatever value `lu` yields for `y`. -/
theorem solver.complementarity_identity (lu : Matrix → Vector → Vector)
    (P : SaddlePointProblemCanonical) (solution : SaddlePointVectorCanonical)
    (hwf : P.WellFormed)
    (hEb : ∀ i, i < P.nb → coeff P.lhs.Eb i ≠ 0)
    (hEs : ∀ k, k < P.ns → coeff P.lhs.Es k ≠ 0)
    (hEu : ∀ k, k < P.nu → coeff P.lhs.Eu k ≠ 0) :
    cwiseMul P.lhs.Eb (vadd (solver lu P solution).xb (solver lu P solution).zb) = P.rhs.cb ∧
    cwiseMul P.lhs.Es (vadd (solver lu P solution).xs (solver lu P solution).zs) = P.rhs.cs ∧
    cwiseMul P.lhs.Eu (vadd (solver lu P solution).xu (solver lu P solution).zu)
      = P.rhs.cu := by
  have hwf' := hwf
  obtain ⟨_, hlEb, hlEs, hlEu, _, _, _, _, _, _, hcb, _, hcs, _, hcu⟩ := hwf'
  refine ⟨?_, ?_, ?_⟩
  · apply vector_ext
    · rw [cwiseMul, length_vecOfFn, hlEb, hcb]
    · intro i hi
      rw [cwiseMul, length_vecOfFn, hlEb] at hi
      have hnb : P.nb ≠ 0 := by omega
      rw [coeff_cwiseMul _ _ i (by rw [hlEb]; exact hi),
        coeff_vadd _ _ i (by rw [solver.length_xb lu P solution hwf hnb]; exact hi),
        solver.coeff_zb lu P solution hwf i hi]
      have := hEb i hi
      field_simp
      ring
  · apply vector_ext
    · rw [cwiseMul, length_vecOfFn, hlEs, hcs]
    · intro k hk
      rw [cwiseMul, length_vecOfFn, hlEs] at hk
      have hns : P.ns ≠ 0 := by omega
      rw [coeff_cwiseMul _ _ k (by rw [hlEs]; exact hk),
        coeff_vadd _ _ k (by rw [solver.length_xs lu P solution hwf hns]; exact hk),
        solver.coeff_zs lu P solution hwf k hk]
      have := hEs k hk
      field_simp
      ring
  · apply vector_ext
    · rw [cwiseMul, length_vecOfFn, hlEu, hcu]
    · intro k hk
      rw [cwiseMul, length_vecOfFn, hlEu] at hk
      have hnu : P.nu ≠ 0 := by omega
      rw [coeff_cwiseMul _ _ k (by rw [hlEu]; exact hk),
        coeff_vadd _ _ k (by rw [solver.length_xu lu P solution hwf hnu]; exact hk),
        solver.coeff_xu lu P solution hwf k hk]
      have := hEu k hk
      field_simp
      ring

/-- C21: when every entry of `Bb`, `Eb`, `Es`, `Eu`, `Gs − Es` and `Eu − Gu` is nonzero, `Ub` is
invertible and the linear solve is exact, the output of `solver` satisfies the stationarity
rows `Gb∘xb + Bb∘y + Eb∘zb = ab`, `Gs∘xs + tr(Bs)*y + Es∘zs = as` and
`Gu∘xu + tr(Bu)*y + Eu∘zu = au`. -/
theorem solver.stationarity_rows (lu : Matrix → Vector → Vector)
    (P : SaddlePointProblemCanonical) (solution : SaddlePointVectorCanonical)
    (hwf : P.WellFormed) (hlu : LuSolves lu P.nb) (hUb : (specUb P).Nonsingular)
    (hBb : ∀ i, i < P.nb → coeff P.lhs.Bb i ≠ 0)
    (hEb : ∀ i, i < P.nb → coeff P.lhs.Eb i ≠ 0)
    (hEs : ∀ k, k < P.ns → coeff P.lhs.Es k ≠ 0)
    (hEu : ∀ k, k < P.nu → coeff P.lhs.Eu k ≠ 0)
    (hGE : ∀ k, k < P.ns → coeff P.lhs.Gs k - coeff P.lhs.Es k ≠ 0)
    (hEG : ∀ k, k < P.nu → coeff P.lhs.Eu k - coeff P.lhs.Gu k ≠ 0) :
    vadd (vadd (cwiseMul P.lhs.Gb (solver lu P solution).xb)
        (cwiseMul P.lhs.Bb (solver lu P solution).y))
      (cwiseMul P.lhs.Eb (solver lu P solution).zb) = P.rhs.ab ∧
    vadd (vadd (cwiseMul P.lhs.Gs (solver lu P solution).xs)
        (trMulVec P.lhs.Bs (solver lu P solution).y))
      (cwiseMul P.lhs.Es (solver lu P solution).zs) = P.rhs.as ∧
    vadd (vadd (cwiseMul P.lhs.Gu (solver lu P solution).xu)
        (trMulVec P.lhs.Bu (solver lu P solution).y))
      (cwiseMul P.lhs.Eu (solver lu P solution).zu) = P.rhs.au := by
  have hwf' := hwf
  obtain ⟨hlBb, hlEb, hlEs, hlEu, hBsr, hBsc, hBur, hBuc, hab, hb, hcb, has, hcs, hau, hcu⟩ :=
    hwf'
  have hlGb : P.lhs.Gb.length = P.nb := rfl
  have hlGs : P.lhs.Gs.length = P.ns := rfl
  have hlGu : P.lhs.Gu.length = P.nu := rfl
  refine ⟨?_, ?_, ?_⟩
  · apply vector_ext
    · rw [vadd, length_vecOfFn, vadd, length_vecOfFn, cwiseMul, length_vecOfFn, hlGb, hab]
    · intro i hi
      rw [vadd, length_vecOfFn, vadd, length_vecOfFn, cwiseMul, length_vecOfFn, hlGb] at hi
      have hnb : P.nb ≠ 0 := by omega
      have hy : (solver lu P solution).y = lu (specUb P) (specRhs P) := by
        rw [solver.y_eq lu P solution hnb, solver.Ub_eq P hwf hnb, solver.r_eq P hwf hnb]
      have hY : mulVec (specUb P) (solver lu P solution).y = specRhs P := by
        rw [hy]
        exact (hlu (specUb P) (specRhs P) rfl rfl hUb (length_vecOfFn _ _)).2
      have hYi := specUb_mulVec P hwf (solver lu P solution).y i hi
      rw [hY, specRhs, coeff_vecOfFn _ _ i hi] at hYi
      have hA1 : specLb P i * (∑ k in Finset.range P.ns,
            P.lhs.Bs.coeff i k * coeff (solver lu P solution).xs k)
          = (∑ k in Finset.range P.ns,
              specLs P i k * coeff (trMulVec P.lhs.Bs (solver lu P solution).y) k)
            - (∑ k in Finset.range P.ns, specLs P i k * specus P k) := by
        rw [Finset.mul_sum, ← Finset.sum_sub_distrib]
        apply Finset.sum_congr rfl
        intro k hk
        rw [solver.coeff_xs lu P solution hwf k (Finset.mem_range.mp hk), specLs, specTs]
        ring
      have hA2 : specLb P i * (∑ k in Finset.range P.nu,
            P.lhs.Bu.coeff i k * coeff (solver lu P solution).zu k)
          = (∑ k in Finset.range P.nu, specLu P i k * specuu P k)
            - (∑ k in Finset.range P.nu,
              specLu P i k * coeff (trMulVec P.lhs.Bu (solver lu P solution).y) k) := by
        rw [Finset.mul_sum, ← Finset.sum_sub_distrib]
        apply Finset.sum_congr rfl
        intro k hk
        rw [solver.coeff_zu lu P solution hwf k (Finset.mem_range.mp hk), specLu, specTu]
        ring
      have hE : coeff P.lhs.Eb i * (coeff P.rhs.cb i / coeff P.lhs.Eb i) = coeff P.rhs.cb i :=
        mul_div_cancel₀ _ (hEb i hi)
      have hL : specLb P i * coeff P.lhs.Bb i = coeff P.lhs.Gb i - coeff P.lhs.Eb i :=
        div_mul_cancel₀ _ (hBb i hi)
      have hxb : coeff P.lhs.Bb i * coeff (solver lu P solution).xb i
          = specub P i
            - (∑ k in Finset.range P.ns,
                P.lhs.Bs.coeff i k * coeff (solver lu P solution).xs k)
            + (∑ k in Finset.range P.nu,
                P.lhs.Bu.coeff i k * coeff (solver lu P solution).zu k) := by
        rw [solver.coeff_xb lu P solution hwf i hi]
        exact mul_div_cancel₀ _ (hBb i hi)
      rw [coeff_vadd _ _ i (by
          rw [vadd, length_vecOfFn, cwiseMul, length_vecOfFn, hlGb]; exact hi),
        coeff_vadd _ _ i (by rw [cwiseMul, length_vecOfFn, hlGb]; exact hi),
        coeff_cwiseMul _ _ i (by rw [hlGb]; exact hi),
        coeff_cwiseMul _ _ i (by rw [hlBb]; exact hi),
        coeff_cwiseMul _ _ i (by rw [hlEb]; exact hi),
        solver.coeff_zb lu P solution hwf i hi]
      rw [specvb] at hYi
      linear_combination hE - hYi - hA1 + hA2
        - coeff (solver lu P solution).xb i * hL + specLb P i * hxb
  · apply vector_ext
    · rw [vadd, length_vecOfFn, vadd, length_vecOfFn, cwiseMul, length_vecOfFn, hlGs, has]
    · intro k hk
      rw [vadd, length_vecOfFn, vadd, length_vecOfFn, cwiseMul, length_vecOfFn, hlGs] at hk
      rw [coeff_vadd _ _ k (by
          rw [vadd, length_vecOfFn, cwiseMul, length_vecOfFn, hlGs]; exact hk),
        coeff_vadd _ _ k (by rw [cwiseMul, length_vecOfFn, hlGs]; exact hk),
        coeff_cwiseMul _ _ k (by rw [hlGs]; exact hk),
        coeff_cwiseMul _ _ k (by rw [hlEs]; exact hk),
        solver.coeff_zs lu P solution hwf k hk, solver.coeff_xs lu P solution hwf k hk,
        specus]
      have h1 := hEs k hk
      have h2 := hGE k hk
      field_simp
      ring
  · apply vector_ext
    · rw [vadd, length_vecOfFn, vadd, length_vecOfFn, cwiseMul, length_vecOfFn, hlGu, hau]
    · intro k hk
      rw [vadd, length_vecOfFn, vadd, length_vecOfFn, cwiseMul, length_vecOfFn, hlGu] at hk
      rw [coeff_vadd _ _ k (by
          rw [vadd, length_vecOfFn, cwiseMul, length_vecOfFn, hlGu]; exact hk),
        coeff_vadd _ _ k (by rw [cwiseMul, length_vecOfFn, hlGu]; exact hk),
        coeff_cwiseMul _ _ k (by rw [hlGu]; exact hk),
        coeff_cwiseMul _ _ k (by rw [hlEu]; exact hk),
        solver.coeff_xu lu P solution hwf k hk, solver.coeff_zu lu P solution hwf k hk,
        specuu]
      have h1 := hEu k hk
      have h2 := hEG k hk
      field_simp
      ring

/-- A diagonal matrix without zero on its diagonal is nonsingular. -/
theorem nonsingular_diag (v : Vector) (h : ∀ i, i < v.length → coeff v i ≠ 0) :
    (diag v).Nonsingular := by
  refine ⟨rfl, fun r hr => ⟨cwiseDiv r v, ?_, ?_⟩⟩
  · rw [cwiseDiv, length_vecOfFn, hr]; rfl
  · have hrl : r.length = v.length := hr
    apply vector_ext
    · rw [length_mulVec, hr]
    · intro i hi
      rw [length_mulVec] at hi
      have hi' : i < v.length := hi
      rw [coeff_mulVec_diag v _ i hi', coeff_cwiseDiv _ _ i (by rw [hrl]; exact hi')]
      exact mul_div_cancel₀ _ (h i hi')

/-- C24: when the `s` and `u` sub-ranges are empty (`ns = nu = 0`), `nb > 0` and every entry
of `Bb` and `Eb` is nonzero, `solver` skips their contributions: `Ub = diag(Bb)`, and with an
exact linear solve it returns `xb = b/Bb`, `y = (ab − cb − ((Gb − Eb)/Bb)∘b)/Bb` and
`zb = cb/Eb − xb`, leaving `xs`, `xu`, `zs` and `zu` as they were. -/
theorem solver.empty_subranges (lu : Matrix → Vector → Vector)
    (P : SaddlePointProblemCanonical) (solution : SaddlePointVectorCanonical)
    (hwf : P.WellFormed) (hns : P.ns = 0) (hnu : P.nu = 0) (hnb : 0 < P.nb)
    (hlu : LuSolves lu P.nb)
    (hBb : ∀ i, i < P.nb → coeff P.lhs.Bb i ≠ 0)
    (_hEb : ∀ i, i < P.nb → coeff P.lhs.Eb i ≠ 0) :
    solver.Ub P = diag P.lhs.Bb ∧
    (solver lu P solution).xb = cwiseDiv P.rhs.b P.lhs.Bb ∧
    (solver lu P solution).y
      = cwiseDiv (vsub (vsub P.rhs.ab P.rhs.cb)
          (cwiseMul (cwiseDiv (vsub P.lhs.Gb P.lhs.Eb) P.lhs.Bb) P.rhs.b)) P.lhs.Bb ∧
    (solver lu P solution).zb
      = vsub (cwiseDiv P.rhs.cb P.lhs.Eb) (cwiseDiv P.rhs.b P.lhs.Bb) ∧
    (solver lu P solution).xs = solution.xs ∧ (solver lu P solution).xu = solution.xu ∧
    (solver lu P solution).zs = solution.zs ∧ (solver lu P solution).zu = solution.zu := by
  have hnb' : P.nb ≠ 0 := by omega
  obtain ⟨hlBb, _, _, _, _, _, _, _, hab, _⟩ := hwf
  have hUb : solver.Ub P = diag P.lhs.Bb := by
    simp [solver.Ub, solver.Tb, hns, hnu, hnb']
  have hr : solver.r P = vsub (vsub P.rhs.ab P.rhs.cb)
      (cwiseMul (cwiseDiv (vsub P.lhs.Gb P.lhs.Eb) P.lhs.Bb) P.rhs.b) := by
    simp [solver.r, solver.vb, solver.Lb, solver.ub, hns, hnu, hnb']
  have hxb : (solver lu P solution).xb = cwiseDiv P.rhs.b P.lhs.Bb := by
    rw [solver.xb_eq lu P solution hnb']
    simp [solver.ub, hns, hnu, hnb']
  have hrl : (solver.r P).length = P.nb := by
    rw [hr, vsub, length_vecOfFn, vsub, length_vecOfFn, hab]
  have hBb' : ∀ i, i < P.lhs.Bb.length → coeff P.lhs.Bb i ≠ 0 := by
    intro i hi; exact hBb i (by rw [← hlBb]; exact hi)
  obtain ⟨hyl, hym⟩ := hlu (diag P.lhs.Bb) (solver.r P) hlBb hlBb
    (nonsingular_diag _ hBb') hrl
  refine ⟨hUb, hxb, ?_, ?_, ?_, ?_, ?_, ?_⟩
  · rw [solver.y_eq lu P solution hnb', hUb, ← hr]
    apply vector_ext
    · rw [hyl, cwiseDiv, length_vecOfFn, hrl]
    · intro i hi
      rw [hyl] at hi
      have hm : coeff (mulVec (diag P.lhs.Bb) (lu (diag P.lhs.Bb) (solver.r P))) i
          = coeff (solver.r P) i := by rw [hym]
      rw [coeff_mulVec_diag _ _ i (by rw [hlBb]; exact hi)] at hm
      rw [coeff_cwiseDiv _ _ i (by rw [hrl]; exact hi), ← hm]
      exact (mul_div_cancel_left₀ _ (hBb i hi)).symm
  · rw [solver.zb_eq lu P solution hnb', hxb]
  · exact ((solver.unwritten lu P solution).2.1 hns).1
  · exact ((solver.unwritten lu P solution).2.2 hnu).1
  · exact ((solver.unwritten lu P solution).2.1 hns).2
  · exact ((solver.unwritten lu P solution).2.2 hnu).2

/-- Evaluation of C21 on the sample problem, whose solution is `xb = 3/2`, `xs = 3/4`,
`xu = 1/4`, `y = 1/2`, `zb = −1/2`, `zs = −3/4`, `zu = 3/4`. -/
theorem solver.stationarity_rows_witness :
    (vadd (vadd (cwiseMul sampleCanonical.lhs.Gb
          (solver luSolve1 sampleCanonical emptySolution).xb)
        (cwiseMul sampleCanonical.lhs.Bb (solver luSolve1 sampleCanonical emptySolution).y))
      (cwiseMul sampleCanonical.lhs.Eb (solver luSolve1 sampleCanonical emptySolution).zb)
        = sampleCanonical.rhs.ab ∧
    vadd (vadd (cwiseMul sampleCanonical.lhs.Gs
          (solver luSolve1 sampleCanonical emptySolution).xs)
        (trMulVec sampleCanonical.lhs.Bs (solver luSolve1 sampleCanonical emptySolution).y))
      (cwiseMul sampleCanonical.lhs.Es (solver luSolve1 sampleCanonical emptySolution).zs)
        = sampleCanonical.rhs.as ∧
    vadd (vadd (cwiseMul sampleCanonical.lhs.Gu
          (solver luSolve1 sampleCanonical emptySolution).xu)
        (trMulVec sampleCanonical.lhs.Bu (solver luSolve1 sampleCanonical emptySolution).y))
      (cwiseMul sampleCanonical.lhs.Eu (solver luSolve1 sampleCanonical emptySolution).zu)
        = sampleCanonical.rhs.au) ∧
    solver luSolve1 sampleCanonical emptySolution
      = { xb := [3/2], xs := [3/4], xu := [1/4], y := [1/2], zb := [-1/2], zs := [-3/4],
          zu := [3/4] } :=
  ⟨solver.stationarity_rows luSolve1 sampleCanonical emptySolution (by decide)
      luSolve1_solves (nonsingular_one _ rfl rfl (by decide!))
      (by decide!) (by decide!) (by decide!) (by decide!) (by decide!) (by decide!),
    by decide!⟩

/-- Evaluation of C24 on the problem with `Bb = [2]`, `Gb = [3]`, `Eb = [1]`, `ab = [7]`,
`b = [4]`, `cb = [1]`: `xb = [2]`, `y = [1]`, `zb = [−1]`. -/
theorem solver.empty_subranges_witness :
    solver.Ub diagonalCanonical = diag [2] ∧
    (solver luSolve1 diagonalCanonical emptySolution).xb = [2] ∧
    (solver luSolve1 diagonalCanonical emptySolution).y = [1] ∧
    (solver luSolve1 diagonalCanonical emptySolution).zb = [-1] ∧
    (solver luSolve1 diagonalCanonical emptySolution).xs = [] :=
  have h := solver.empty_subranges luSolve1 diagonalCanonical emptySolution (by decide)
    rfl rfl (by decide) luSolve1_solves (by decide!) (by decide!)
  ⟨h.1, h.2.1.trans (by decide!), h.2.2.1.trans (by decide!), h.2.2.2.1.trans (by decide!),
    h.2.2.2.2.1⟩

/-! ## Stability2: the classification is complete -/

/-- Membership in the three ranges after `update`, for an index of the previous `jsu`. -/
theorem Stability2.mem_status_update (st : Stability2) (args : StabilityUpdateArgs) (i : Nat)
    (hi : i ∈ st.jsu) :
    (i ∈ (st.update args).status.juu ↔ is_upper_unstable args (st.updateS args) i = true) ∧
    (i ∈ (st.update args).status.jlu ↔
      (is_upper_unstable args (st.updateS args) i = false ∧
        is_lower_unstable args (st.updateS args) i = true)) ∧
    (i ∈ (st.update args).status.js ↔
      (is_upper_unstable args (st.updateS args) i = false ∧
        is_lower_unstable args (st.updateS args) i = false)) := by
  obtain ⟨hjs, hjlu, hjuu⟩ := Stability2.status_update st args _ rfl _ rfl
  rw [hjs, hjlu, hjuu]
  simp only [List.mem_filter, hi, true_and, Bool.not_eq_true']

/-- An index cannot be lower-unstable and upper-unstable at once. -/
theorem unstable_exclusive (args : StabilityUpdateArgs) (s : Vector) (i : Nat)
    (h : is_lower_unstable args s i = true) : is_upper_unstable args s i = false := by
  simp only [is_lower_unstable, is_upper_unstable, Bool.and_eq_true, decide_eq_true_eq,
    Bool.and_eq_false_iff, decide_eq_false_iff_not] at h ⊢
  right
  exact not_lt.mpr (le_of_lt h.2)

/-- C25: `update` classifies completely.  In a state reached from `Stability2(nx)`, after
`update` an index `i < nx` is in `juu` if and only if `x[i] = xupper[i]` and `s[i] < 0`, in
`jlu` if and only if `x[i] = xlower[i]` and `s[i] > 0`, and in `js` if and only if neither
condition holds. -/
theorem Stability2.update_classifies (nx : Nat) (st : Stability2)
    (h : Stability2.Reachable nx st) (args : StabilityUpdateArgs) (i : Nat) (hi : i < nx) :
    (i ∈ (st.update args).status.juu ↔
      (coeff args.x i = coeff args.xupper i ∧ coeff (st.update args).status.s i < 0)) ∧
    (i ∈ (st.update args).status.jlu ↔
      (coeff args.x i = coeff args.xlower i ∧ coeff (st.update args).status.s i > 0)) ∧
    (i ∈ (st.update args).status.js ↔
      (¬ (coeff args.x i = coeff args.xupper i ∧ coeff (st.update args).status.s i < 0) ∧
        ¬ (coeff args.x i = coeff args.xlower i ∧
          coeff (st.update args).status.s i > 0))) := by
  have hmem : i ∈ st.jsu :=
    (Stability2.reachable_inv nx st h).1.mem_iff.mpr (List.mem_range.mpr hi)
  obtain ⟨h1, h2, h3⟩ := Stability2.mem_status_update st args i hmem
  have hs : (st.update args).status.s = st.updateS args := rfl
  have hu : is_upper_unstable args (st.updateS args) i = true ↔
      (coeff args.x i = coeff args.xupper i ∧ coeff (st.updateS args) i < 0) := by
    simp [is_upper_unstable]
  have hl : is_lower_unstable args (st.updateS args) i = true ↔
      (coeff args.x i = coeff args.xlower i ∧ coeff (st.updateS args) i > 0) := by
    simp [is_lower_unstable]
  rw [hs]
  refine ⟨h1.trans hu, ?_, ?_⟩
  · rw [h2, ← hl]
    constructor
    · exact fun hh => hh.2
    · exact fun hh => ⟨unstable_exclusive args _ i hh, hh⟩
  · rw [h3, ← hl, ← hu]
    simp

/-- Evaluation of C25 on arguments whose variable `1` sits on its upper bound with
`s[1] = −2`: it is classified upper-unstable. -/
theorem Stability2.update_classifies_witness :
    (1 ∈ ((Stability2.new 2).update boundArgs).status.juu ↔
      (coeff boundArgs.x 1 = coeff boundArgs.xupper 1 ∧
        coeff ((Stability2.new 2).update boundArgs).status.s 1 < 0)) ∧
    ((Stability2.new 2).update boundArgs).status.js = [0] ∧
    ((Stability2.new 2).update boundArgs).status.jlu = [] ∧
    ((Stability2.new 2).update boundArgs).status.juu = [1] :=
  ⟨(Stability2.update_classifies 2 (Stability2.new 2) Stability2.Reachable.new boundArgs 1
      (by decide)).1,
    by decide!, by decide!, by decide!⟩

/-- C27: after `update`, every basic index (element of `jb`, a variable index) lies in the
stable range `js`, whatever `x`, `g` and the bounds are; hence `nlu + nuu` is at most the
number of indices that are not basic, `nx − |jb|` for distinct basic indices, and at most
`|jn|` when every index that is not basic is listed in `jn`. -/
theorem Stability2.basic_in_stable (nx : Nat) (st : Stability2)
    (h : Stability2.Reachable nx st) (args : StabilityUpdateArgs)
    (hjb : ∀ i ∈ args.jb, i < nx) :
    (∀ i ∈ args.jb, i ∈ (st.update args).status.js) ∧
    (args.jb.Nodup → (st.update args).nlu + (st.update args).nuu + args.jb.length ≤ nx) ∧
    ((∀ i, i < nx → i ∉ args.jb → i ∈ args.jn) →
      (st.update args).nlu + (st.update args).nuu ≤ args.jn.length) := by
  obtain ⟨hperm, _⟩ := Stability2.reachable_inv nx st h
  obtain ⟨hperm', hsum'⟩ :=
    Stability2.reachable_inv nx _ (Stability2.Reachable.update st args h)
  obtain ⟨sjs, sjlu, sjuu, scat⟩ := Stability2.status_slices _ hsum'
  have hlen' : (st.update args).jsu.length = nx := by
    rw [hperm'.length_eq, List.length_range]
  have hbasic : ∀ i ∈ args.jb, i ∈ (st.update args).status.js := by
    intro i hi
    have hmem : i ∈ st.jsu := hperm.mem_iff.mpr (List.mem_range.mpr (hjb i hi))
    have hs0 := Stability2.update_s_basic st args i hi
    rw [(Stability2.mem_status_update st args i hmem).2.2]
    simp [is_upper_unstable, is_lower_unstable, hs0]
  have hljs : (st.update args).status.js.length = (st.update args).ns := by
    rw [sjs, List.length_take]; omega
  have hljlu : (st.update args).status.jlu.length = (st.update args).nlu := by
    rw [sjlu, List.length_take, List.length_drop]; omega
  have hljuu : (st.update args).status.juu.length = (st.update args).nuu := by
    rw [sjuu, List.length_drop, List.length_drop]; omega
  refine ⟨hbasic, ?_, ?_⟩
  · intro hnd
    have := (hnd.subperm (fun i hi => hbasic i hi)).length_le
    omega
  · intro hcover
    have hnd : ((st.update args).status.js ++ (st.update args).status.jlu
        ++ (st.update args).status.juu).Nodup := by
      rw [scat]; exact hperm'.nodup_iff.mpr (List.nodup_range nx)
    rw [List.append_assoc] at hnd
    obtain ⟨_, hndu, hdisj⟩ := List.nodup_append.mp hnd
    have hsub : (st.update args).status.jlu ++ (st.update args).status.juu ⊆ args.jn := by
      intro i hi
      have hin : i ∈ (st.update args).jsu := by
        rw [← scat, List.append_assoc]; exact List.mem_append_right _ hi
      have hlt : i < nx := List.mem_range.mp (hperm'.mem_iff.mp hin)
      exact hcover i hlt (fun hb => hdisj (hbasic i hb) hi)
    have := (hndu.subperm hsub).length_le
    rw [List.length_append, hljlu, hljuu] at this
    exact this

/-- Evaluation of C27 on arguments whose basic variable `0` sits on its lower bound: it is
stable, and the only unstable variable is the nonbasic one. -/
theorem Stability2.basic_in_stable_witness :
    0 ∈ ((Stability2.new 2).update boundArgs).status.js ∧
    ((Stability2.new 2).update boundArgs).nlu + ((Stability2.new 2).update boundArgs).nuu
      + 1 ≤ 2 ∧
    ((Stability2.new 2).update boundArgs).nlu + ((Stability2.new 2).update boundArgs).nuu
      ≤ 1 ∧
    ((Stability2.new 2).update boundArgs).nuu = 1 :=
  have h := Stability2.basic_in_stable 2 (Stability2.new 2) Stability2.Reachable.new boundArgs
    (by decide)
  ⟨h.1 0 (by decide), h.2.1 (by decide), h.2.2 (by decide), by decide!⟩

/-! ## Stepper: `decompose` recomputes the bound slacks -/

/-- Evaluation of `decompose` on the sample inputs, once after a `decompose` of another
problem and once alone. -/
theorem Stepper.decompose_recomputes_sample :
    (((Stepper.new idleSolver sampleOptions sampleConstraints).decompose idleSolver
      fixedBoundedProblem).decompose idleSolver sampleProblem).L = [1, 1/10, 1] ∧
    ((Stepper.new idleSolver sampleOptions sampleConstraints).decompose idleSolver
      sampleProblem).L = [1, 1/10, 1] ∧
    ((Stepper.new idleSolver sampleOptions sampleConstraints).decompose idleSolver
      fixedBoundedProblem).L = [2, 1/10, 1] := by
  decide!

/-! ## NewtonStep: the projection onto the bounds -/

theorem coeff_cwiseMax (a b : Vector) (i : Nat) (hi : i < a.length) :
    coeff (cwiseMax a b) i = max (coeff a i) (coeff b i) := coeff_vecOfFn _ _ i hi

theorem coeff_cwiseMin (a b : Vector) (i : Nat) (hi : i < a.length) :
    coeff (cwiseMin a b) i = min (coeff a i) (coeff b i) := coeff_vecOfFn _ _ i hi

/-- C28: `apply` projects only `x` onto the box.  When the assertions of `sanitycheck` hold,
`apply` returns, and for every component `i` of `x`,
`u.x[i] = min(max(uo.x[i] + du.x[i], xlower[i]), xupper[i])`, so that
`xlower[i] ≤ u.x[i] ≤ xupper[i]` whenever `xlower[i] ≤ xupper[i]` and
`u.x[i] = uo.x[i] + du.x[i]` whenever that sum lies within the bounds; `u.p = uo.p + du.p` and
`u.w = uo.w + du.w`, `du` being the step stored by the linear solver. -/
theorem NewtonStep.apply_projects {M A : Type} (ls : LinearSolver σ M A)
    (self : NewtonStep σ) (F : ResidualFunction M A) (uo : MasterVector)
    (hl : self.xlower.length = self.dims.nx) (hu : self.xupper.length = self.dims.nx) :
    (self.apply ls F uo).isSome = true ∧
    ∀ (self' : NewtonStep σ) (u : MasterVector), self.apply ls F uo = some (self', u) →
      self'.du = (ls.solve (ls.decompose self.linearsolver F.canonicalJacobianMatrix)
        F.canonicalJacobianMatrix F.canonicalResidualVector self.du).2 ∧
      self'.xlower = self.xlower ∧ self'.xupper = self.xupper ∧
      (∀ i, i < uo.x.length →
        coeff u.x i = min (max (coeff uo.x i + coeff self'.du.x i) (coeff self.xlower i))
          (coeff self.xupper i)) ∧
      (∀ i, i < uo.x.length → coeff self.xlower i ≤ coeff self.xupper i →
        coeff self.xlower i ≤ coeff u.x i ∧ coeff u.x i ≤ coeff self.xupper i) ∧
      (∀ i, i < uo.x.length → coeff self.xlower i ≤ coeff uo.x i + coeff self'.du.x i →
        coeff uo.x i + coeff self'.du.x i ≤ coeff self.xupper i →
        coeff u.x i = coeff uo.x i + coeff self'.du.x i) ∧
      u.p = vadd uo.p self'.du.p ∧ u.w = vadd uo.w self'.du.w := by
  have hs : self.sanitycheck = true := by
    simp [NewtonStep.sanitycheck, hl, hu]
  have hx : ∀ i, i < uo.x.length →
      coeff (cwiseMin (cwiseMax (vadd uo.x (ls.solve
          (ls.decompose self.linearsolver F.canonicalJacobianMatrix)
          F.canonicalJacobianMatrix F.canonicalResidualVector self.du).2.x) self.xlower)
          self.xupper) i
        = min (max (coeff uo.x i + coeff (ls.solve
            (ls.decompose self.linearsolver F.canonicalJacobianMatrix)
            F.canonicalJacobianMatrix F.canonicalResidualVector self.du).2.x i)
            (coeff self.xlower i)) (coeff self.xupper i) := by
    intro i hi
    rw [coeff_cwiseMin _ _ i (by rw [cwiseMax, length_vecOfFn, vadd, length_vecOfFn]; exact hi),
      coeff_cwiseMax _ _ i (by rw [vadd, length_vecOfFn]; exact hi), coeff_vadd _ _ i hi]
  constructor
  · simp only [NewtonStep.apply, hs, if_true, Option.isSome_some]
  · intro self' u h
    simp only [NewtonStep.apply, hs, if_true, Option.some.injEq, Prod.mk.injEq] at h
    obtain ⟨h1, h2⟩ := h
    subst h1 h2
    refine ⟨rfl, rfl, rfl, hx, ?_, ?_, rfl, rfl⟩
    · intro i hi hb
      show _ ≤ coeff (cwiseMin _ _) i ∧ coeff (cwiseMin _ _) i ≤ _
      rw [hx i hi]
      exact ⟨le_min (le_max_right _ _) hb, min_le_right _ _⟩
    · intro i hi h1 h2
      show coeff (cwiseMin _ _) i = _
      rw [hx i hi, max_eq_left h1, min_eq_left h2]

/-- Evaluation of C28 on the sample inputs: `x₀ = 1/2 + 1` is cut back to its upper bound
`1`, `x₁ = 1/2 + 1/4` is kept, and `p = 3 − 5` is not projected. -/
theorem NewtonStep.apply_projects_witness :
    (sampleNewtonStep.apply (fixedStepSolver sampleNewton) ⟨(), ()⟩ sampleMaster).isSome
      = true ∧
    (sampleNewtonStep.apply (fixedStepSolver sampleNewton) ⟨(), ()⟩ sampleMaster).map Prod.snd
      = some { x := [1, 3/4], p := [-2], w := [] } :=
  ⟨(NewtonStep.apply_projects (fixedStepSolver sampleNewton) sampleNewtonStep ⟨(), ()⟩
      sampleMaster rfl rfl).1,
    by decide!⟩

/-! ## Structure: the partitions of the variables -/

/-- The stable partition of `0…n−1` along a list of distinct indices below `n`. -/
theorem partition_range (n : Nat) (inds : Indices) (hnd : inds.Nodup)
    (hlt : ∀ i ∈ inds, i < n) :
    tail (partitionRightStable (indices n) inds) inds.length
      = (List.range n).filter (fun i => decide (i ∈ inds)) ∧
    head (partitionRightStable (indices n) inds) (n - inds.length)
      = (List.range n).filter (fun i => !decide (i ∈ inds)) ∧
    ((List.range n).filter (fun i => decide (i ∈ inds))).Perm inds := by
  have hperm : ((List.range n).filter (fun i => decide (i ∈ inds))).Perm inds := by
    rw [List.perm_ext_iff_of_nodup ((List.nodup_range n).filter _) hnd]
    intro a
    simp only [List.mem_filter, List.mem_range, decide_eq_true_eq]
    exact ⟨fun h => h.2, fun h => ⟨hlt a h, h⟩⟩
  have hadd := length_filter_not_add (List.range n) (fun i => decide (i ∈ inds))
  rw [List.length_range, hperm.length_eq] at hadd
  refine ⟨?_, ?_, hperm⟩
  · unfold tail partitionRightStable indices
    exact drop_length_append _ _ _ (by
      rw [List.length_append, hperm.length_eq]; omega)
  · unfold head partitionRightStable indices
    exact take_length_append _ _ _ (by omega)

/-- The two sides of the stable partition of `0…n−1` split the variables along `inds`. -/
theorem splits_partition_range (n : Nat) (inds : Indices) (hnd : inds.Nodup)
    (hlt : ∀ i ∈ inds, i < n) :
    SplitsVariables n inds (tail (partitionRightStable (indices n) inds) inds.length)
      (head (partitionRightStable (indices n) inds) (n - inds.length)) := by
  obtain ⟨h1, h2, hperm⟩ := partition_range n inds hnd hlt
  have hadd := length_filter_not_add (List.range n) (fun i => decide (i ∈ inds))
  rw [List.length_range, hperm.length_eq] at hadd
  rw [h1, h2]
  refine ⟨hperm, ?_, (List.nodup_range n).filter _, ?_, hperm.length_eq, by omega⟩
  · intro i
    simp [List.mem_filter]
  · intro a ha hb
    simp only [List.mem_filter, List.mem_range, decide_eq_true_eq, Bool.not_eq_true',
      decide_eq_false_iff_not] at ha hb
    exact hb.2 ha.2

/-- C29: for every `n` and every list `inds` of distinct indices below `n`, after
`Structure(n).setVariablesWithLowerBounds(inds)` the list `variablesWithLowerBounds()` holds
exactly the entries of `inds` and `variablesWithoutLowerBounds()` exactly the remaining indices
of `0…n−1`, the two being disjoint with lengths `|inds|` and `n − |inds|`; the same holds for
the upper-bound and fixed-value setters and accessors, and each setter leaves the results of
the accessors of the other two partitions unchanged, on every structure. -/
theorem Structure.set_variables_partition (n : Nat) (inds : Indices) (hnd : inds.Nodup)
    (hlt : ∀ i ∈ inds, i < n) :
    SplitsVariables n inds
      ((Structure.new n).setVariablesWithLowerBounds inds).variablesWithLowerBounds
      ((Structure.new n).setVariablesWithLowerBounds inds).variablesWithoutLowerBounds ∧
    SplitsVariables n inds
      ((Structure.new n).setVariablesWithUpperBounds inds).variablesWithUpperBounds
      ((Structure.new n).setVariablesWithUpperBounds inds).variablesWithoutUpperBounds ∧
    SplitsVariables n inds
      ((Structure.new n).setVariablesWithFixedValues inds).variablesWithFixedValues
      ((Structure.new n).setVariablesWithFixedValues inds).variablesWithoutFixedValues ∧
    (∀ self : Structure,
      (self.setVariablesWithLowerBounds inds).variablesWithUpperBounds
        = self.variablesWithUpperBounds ∧
      (self.setVariablesWithLowerBounds inds).variablesWithoutUpperBounds
        = self.variablesWithoutUpperBounds ∧
      (self.setVariablesWithLowerBounds inds).variablesWithFixedValues
        = self.variablesWithFixedValues ∧
      (self.setVariablesWithLowerBounds inds).variablesWithoutFixedValues
        = self.variablesWithoutFixedValues ∧
      (self.setVariablesWithUpperBounds inds).variablesWithLowerBounds
        = self.variablesWithLowerBounds ∧
      (self.setVariablesWithUpperBounds inds).variablesWithoutLowerBounds
        = self.variablesWithoutLowerBounds ∧
      (self.setVariablesWithUpperBounds inds).variablesWithFixedValues
        = self.variablesWithFixedValues ∧
      (self.setVariablesWithUpperBounds inds).variablesWithoutFixedValues
        = self.variablesWithoutFixedValues ∧
      (self.setVariablesWithFixedValues inds).variablesWithLowerBounds
        = self.variablesWithLowerBounds ∧
      (self.setVariablesWithFixedValues inds).variablesWithoutLowerBounds
        = self.variablesWithoutLowerBounds ∧
      (self.setVariablesWithFixedValues inds).variablesWithUpperBounds
        = self.variablesWithUpperBounds ∧
      (self.setVariablesWithFixedValues inds).variablesWithoutUpperBounds
        = self.variablesWithoutUpperBounds) :=
  ⟨splits_partition_range n inds hnd hlt, splits_partition_range n inds hnd hlt,
    splits_partition_range n inds hnd hlt,
    fun _ => ⟨rfl, rfl, rfl, rfl, rfl, rfl, rfl, rfl, rfl, rfl, rfl, rfl⟩⟩

/-- Evaluation of C29 for `n = 3` and `inds = [2, 0]`: the variables with a lower bound are
listed as `[0, 2]`, those without as `[1]`. -/
theorem Structure.set_variables_partition_witness :
    SplitsVariables 3 [2, 0]
      ((Structure.new 3).setVariablesWithLowerBounds [2, 0]).variablesWithLowerBounds
      ((Structure.new 3).setVariablesWithLowerBounds [2, 0]).variablesWithoutLowerBounds ∧
    ((Structure.new 3).setVariablesWithLowerBounds [2, 0]).variablesWithLowerBounds = [0, 2] ∧
    ((Structure.new 3).setVariablesWithLowerBounds [2, 0]).variablesWithoutLowerBounds = [1] :=
  ⟨(Structure.set_variables_partition 3 [2, 0] (by decide) (by decide)).1, by decide,
    by decide⟩

/-! ## Stepper: the layout of the combined vectors -/

theorem coeff_append (a b : Vector) (j : Nat) :
    coeff (a ++ b) j = if j < a.length then coeff a j else coeff b (j - a.length) := by
  by_cases h : j < a.length
  · rw [if_pos h]; exact coeff_append_left a b j h
  · rw [if_neg h]
    have := coeff_append_right a b (j - a.length)
    rwa [Nat.add_sub_cancel' (by omega)] at this

/-- A vector of length `n + m + n + n` is the concatenation of its four blocks. -/
theorem four_blocks (v : Vector) (n m : Nat) (hl : v.length = 3 * n + m) :
    v = vecOfFn n (fun i => coeff v i) ++ vecOfFn m (fun i => coeff v (n + i))
      ++ vecOfFn n (fun i => coeff v (n + m + i))
      ++ vecOfFn n (fun i => coeff v (2 * n + m + i)) := by
  apply vector_ext
  · simp only [List.length_append, length_vecOfFn]; omega
  · intro j hj
    simp only [coeff_append, List.length_append, length_vecOfFn]
    by_cases h1 : j < n
    · rw [if_pos (by omega), if_pos (by omega), if_pos h1, coeff_vecOfFn _ _ j h1]
    · by_cases h2 : j < n + m
      · rw [if_pos (by omega), if_pos (by omega), if_neg h1,
          coeff_vecOfFn _ _ (j - n) (by omega)]
        congr 1; omega
      · by_cases h3 : j < n + m + n
        · rw [if_pos h3, if_neg h2, coeff_vecOfFn _ _ (j - (n + m)) (by omega)]
          congr 1; omega
        · rw [if_neg h3, coeff_vecOfFn _ _ (j - (n + m + n)) (by omega)]
          congr 1; omega

/-- With a solver that returns a solution of the size of the system, the step vector keeps
the length `3n + m` in every reachable state. -/
theorem Stepper.reachable_step_length (slv : IpSaddlePointSolver σ) (P : Options → Prop)
    (c : Constraints) (st : Stepper σ) (ready : Bool)
    (h : Stepper.Reachable slv P c st ready)
    (hslv : ∀ (s0 : σ) (r : Vector) (n m : Nat) (s : Vector), r.length = 3 * n + m →
      s.length = 3 * n + m → (slv.solve s0 r n m s).2.length = 3 * n + m) :
    st.s.length = 3 * st.n + st.m := by
  induction h with
  | new o ho => simp [Stepper.new, zeros]
  | setOptions st ready o ho _ ih => exact ih
  | decompose st ready p _ ih => exact ih
  | solve st ready p hst ih =>
    obtain ⟨_, _, _, _, _, _, _, h8, _⟩ := Stepper.reachable_shape slv P c st ready hst
    exact hslv _ _ _ _ _ ((Stepper.length_solveR st p).trans h8) ih

/-- C30: in every reachable state, `step()` and `residual()` return vectors of length
`3n + m` with the dimensions `(n, m)`, laid out as `[Δx (n), Δy (m), Δz (n), Δw (n)]` and
`[a (n), b (m), c (n), d (n)]`; the saddle-point solver fills a solution of the size of the
system.  Both vectors are all zeros on a freshly constructed stepper. -/
theorem Stepper.combined_vectors (slv : IpSaddlePointSolver σ) (P : Options → Prop)
    (c : Constraints) (st : Stepper σ) (ready : Bool)
    (h : Stepper.Reachable slv P c st ready)
    (hslv : ∀ (s0 : σ) (r : Vector) (n m : Nat) (s : Vector), r.length = 3 * n + m →
      s.length = 3 * n + m → (slv.solve s0 r n m s).2.length = 3 * n + m)
    (o : Options) :
    st.step.2 = (c.numVariables, c.numLinearEqualityConstraints) ∧
    st.residual.2 = (c.numVariables, c.numLinearEqualityConstraints) ∧
    st.step.1.length = 3 * c.numVariables + c.numLinearEqualityConstraints ∧
    st.residual.1.length = 3 * c.numVariables + c.numLinearEqualityConstraints ∧
    st.step.1 = vecOfFn c.numVariables st.dx ++ vecOfFn c.numLinearEqualityConstraints st.dy
      ++ vecOfFn c.numVariables st.dz ++ vecOfFn c.numVariables st.dw ∧
    st.residual.1 = vecOfFn c.numVariables st.a ++ vecOfFn c.numLinearEqualityConstraints st.b
      ++ vecOfFn c.numVariables st.c ++ vecOfFn c.numVariables st.d ∧
    (Stepper.new slv o c).step.1
      = zeros (3 * c.numVariables + c.numLinearEqualityConstraints) ∧
    (Stepper.new slv o c).residual.1
      = zeros (3 * c.numVariables + c.numLinearEqualityConstraints) := by
  obtain ⟨_, h2, h3, _, _, _, _, h8, _⟩ := Stepper.reachable_shape slv P c st ready h
  have hs := Stepper.reachable_step_length slv P c st ready h hslv
  have hd : st.d = fun i => coeff st.r (2 * st.n + st.m + i) := by
    funext i
    unfold Stepper.d
    rw [h8]
    congr 1; omega
  refine ⟨?_, ?_, ?_, ?_, ?_, ?_, rfl, rfl⟩
  · show (st.n, st.m) = _
    rw [h2, h3]
  · show (st.n, st.m) = _
    rw [h2, h3]
  · rw [← h2, ← h3]; exact hs
  · rw [← h2, ← h3]; exact h8
  · rw [← h2, ← h3]
    exact four_blocks st.s st.n st.m hs
  · rw [← h2, ← h3, hd]
    exact four_blocks st.r st.n st.m h8

/-- Evaluation of C30 after `decompose` and `solve` on the sample inputs, with the solver
that returns the right-hand side: ten entries, in blocks of `3`, `1`, `3` and `3`. -/
theorem Stepper.combined_vectors_witness :
    (((Stepper.new echoSolver sampleOptions sampleConstraints).decompose echoSolver
      sampleProblem).solve echoSolver sampleProblem).step.1.length = 3 * 3 + 1 ∧
    (((Stepper.new echoSolver sampleOptions sampleConstraints).decompose echoSolver
      sampleProblem).solve echoSolver sampleProblem).residual.1.length = 3 * 3 + 1 ∧
    (Stepper.new echoSolver sampleOptions sampleConstraints).step.1 = zeros 10 :=
  have h := Stepper.combined_vectors echoSolver (fun _ => True) sampleConstraints _ true
    (Stepper.Reachable.solve _ _ sampleProblem
      (Stepper.Reachable.decompose _ _ sampleProblem
        (Stepper.Reachable.new sampleOptions trivial)))
    (fun _ _ _ _ _ hr _ => hr) sampleOptions
  ⟨h.2.2.1, h.2.2.2.1, h.2.2.2.2.2.2.1⟩

/-! ## Canonicalizer: the row operations are invertible -/

/-- A sum over `0…r−1` is not changed by an exchange of two indices below `r`. -/
theorem sum_swapIdx (a b r : Nat) (ha : a < r) (hb : b < r) (f : Nat → Scalar) :
    (∑ l in Finset.range r, f (swapIdx a b l)) = ∑ l in Finset.range r, f l := by
  apply Finset.sum_nbij' (swapIdx a b) (swapIdx a b)
  · intro l hl
    exact Finset.mem_range.mpr (swapIdx_lt a b l r ha hb (Finset.mem_range.mp hl))
  · intro l hl
    exact Finset.mem_range.mpr (swapIdx_lt a b l r ha hb (Finset.mem_range.mp hl))
  · intro l _
    exact swapIdx_invol a b l
  · intro l _
    exact swapIdx_invol a b l
  · intro l _
    rfl

theorem isLeftInverse_identity (r : Nat) :
    IsLeftInverse r (fun i l => if i = l then 1 else 0) (identity r) := by
  intro i j hi hj
  dsimp only
  rw [Finset.sum_eq_single i]
  · rw [if_pos rfl, one_mul, identity, Matrix.coeff_matOfFn _ _ _ i j hi hj]
  · intro l _ hne
    rw [if_neg (Ne.symm hne), zero_mul]
  · intro hni
    exact absurd (Finset.mem_range.mpr hi) hni

/-- An exchange of rows keeps the left inverse, with the same exchange of its columns. -/
theorem Canonicalizer.swap_leftInverse (W : Matrix) (e : Canonicalizer.Elim)
    (h : Canonicalizer.Inv W e) (pi pj : Nat) (hkr : e.k < W.rows) (hpi : pi < W.rows)
    (Ri : Nat → Nat → Scalar) (hRi : IsLeftInverse W.rows Ri e.R) :
    IsLeftInverse W.rows (fun i l => Ri i (swapIdx e.k pi l)) (e.swap pi pj).R := by
  intro i j hi hj
  have hRc : ∀ l, l < W.rows →
      (e.swap pi pj).R.coeff l j = e.R.coeff (swapIdx e.k pi l) j := by
    intro l hl
    exact Matrix.coeff_matOfFn _ _ _ l j (by rw [h.rowsR]; exact hl) (by rw [h.colsR]; exact hj)
  have e1 : (∑ l in Finset.range W.rows,
        Ri i (swapIdx e.k pi l) * (e.swap pi pj).R.coeff l j)
      = ∑ l in Finset.range W.rows,
        (fun t => Ri i t * e.R.coeff t j) (swapIdx e.k pi l) := by
    apply Finset.sum_congr rfl
    intro l hl
    rw [hRc l (Finset.mem_range.mp hl)]
  rw [e1]
  exact (sum_swapIdx e.k pi W.rows hkr hpi (fun t => Ri i t * e.R.coeff t j)).trans
    (hRi i j hi hj)

/-- The elimination with a nonzero pivot keeps a left inverse: column `k` of the inverse
becomes the old inverse times column `k` of `C`. -/
theorem Canonicalizer.eliminate_leftInverse (W : Matrix) (e : Canonicalizer.Elim)
    (h : Canonicalizer.Inv W e) (hkr : e.k < W.rows) (ha : e.C.coeff e.k e.k ≠ 0)
    (Ri : Nat → Nat → Scalar) (hRi : IsLeftInverse W.rows Ri e.R) :
    IsLeftInverse W.rows
      (fun i l => if l = e.k then ∑ t in Finset.range W.rows, Ri i t * e.C.coeff t e.k
        else Ri i l) e.eliminate.R := by
  intro i j hi hj
  have hRc : ∀ l, l < W.rows →
      e.eliminate.R.coeff l j =
        if l = e.k then e.R.coeff e.k j / e.C.coeff e.k e.k
        else e.R.coeff l j - e.C.coeff l e.k * (e.R.coeff e.k j / e.C.coeff e.k e.k) := by
    intro l hl
    exact Matrix.coeff_matOfFn _ _ _ l j (by rw [h.rowsR]; exact hl) (by rw [h.colsR]; exact hj)
  have e1 : ∀ l ∈ Finset.range W.rows,
      (if l = e.k then ∑ t in Finset.range W.rows, Ri i t * e.C.coeff t e.k else Ri i l)
          * e.eliminate.R.coeff l j
        = (Ri i l * e.R.coeff l j
            - (Ri i l * e.C.coeff l e.k) * (e.R.coeff e.k j / e.C.coeff e.k e.k))
          + (if l = e.k then (∑ t in Finset.range W.rows, Ri i t * e.C.coeff t e.k)
              * (e.R.coeff e.k j / e.C.coeff e.k e.k) else 0) := by
    intro l hl
    rw [hRc l (Finset.mem_range.mp hl)]
    by_cases hlk : l = e.k
    · rw [if_pos hlk, if_pos hlk, if_pos hlk, hlk]
      field_simp
      ring
    · rw [if_neg hlk, if_neg hlk, if_neg hlk]
      ring
  dsimp only
  rw [Finset.sum_congr rfl e1, Finset.sum_add_distrib, Finset.sum_sub_distrib,
    ← Finset.sum_mul, Finset.sum_ite_eq' (Finset.range W.rows) e.k,
    if_pos (Finset.mem_range.mpr hkr), hRi i j hi hj]
  ring

theorem Canonicalizer.step_leftInverse (W : Matrix) (e e' : Canonicalizer.Elim)
    (h : Canonicalizer.Inv W e) (hs : Canonicalizer.step e = some e')
    (hl : ∃ Ri, IsLeftInverse W.rows Ri e.R) : ∃ Ri, IsLeftInverse W.rows Ri e'.R := by
  obtain ⟨Ri, hRi⟩ := hl
  unfold Canonicalizer.step at hs
  by_cases hk : e.k < e.C.rows ∧ e.k < e.C.cols
  · rw [if_pos hk] at hs
    have hkr : e.k < W.rows := by rw [← h.rowsC]; exact hk.1
    have hkc : e.k < W.cols := by rw [← h.colsC]; exact hk.2
    obtain ⟨p1, p2, p3, p4, _⟩ := Canonicalizer.findPivot_spec e.C e.k hk.1 hk.2
    by_cases hz : e.C.coeff (Canonicalizer.findPivot e.C e.k).1
        (Canonicalizer.findPivot e.C e.k).2 = 0
    · simp only [hz, if_true] at hs
      cases hs
    · simp only [hz, if_false] at hs
      have he : e' = (e.swap (Canonicalizer.findPivot e.C e.k).1
          (Canonicalizer.findPivot e.C e.k).2).eliminate := (Option.some.inj hs).symm
      have hpi : (Canonicalizer.findPivot e.C e.k).1 < W.rows := by
        rw [← h.rowsC]; exact p2
      obtain ⟨hi, hk', hp⟩ := Canonicalizer.swap_inv W e h _ _ hkr hkc p1 hpi p3
        (by rw [← h.colsC]; exact p4)
      have h1 := Canonicalizer.swap_leftInverse W e h (Canonicalizer.findPivot e.C e.k).1
        (Canonicalizer.findPivot e.C e.k).2 hkr hpi Ri hRi
      have h2 := Canonicalizer.eliminate_leftInverse W _ hi (by rw [hk']; exact hkr)
        (by rw [hk', hp]; exact hz) _ h1
      rw [he]
      exact ⟨_, h2⟩
  · rw [if_neg hk] at hs
    cases hs

/-- The matrix `R` accumulated by the elimination has a left inverse. -/
theorem Canonicalizer.run_leftInverse (W : Matrix) (fuel : Nat) (e : Canonicalizer.Elim)
    (h : Canonicalizer.Inv W e) (hl : ∃ Ri, IsLeftInverse W.rows Ri e.R) :
    ∃ Ri, IsLeftInverse W.rows Ri (Canonicalizer.run fuel e).R := by
  induction fuel generalizing e with
  | zero => exact hl
  | succ fuel ih =>
    unfold Canonicalizer.run
    cases hs : Canonicalizer.step e with
    | none => exact hl
    | some e' =>
      exact ih e' (Canonicalizer.step_some W e e' h hs).1
        (Canonicalizer.step_leftInverse W e e' h hs hl)

/-! ## Canonicalizer: invertibility and rank, with the matrices of Mathlib -/

theorem sum_fin_eq_range (n : Nat) (f : Nat → Scalar) :
    (∑ l : Fin n, f l) = ∑ l in Finset.range n, f l :=
  (Finset.sum_range f).symm

/-- A matrix with a left inverse is a unit. -/
theorem isUnit_of_isLeftInverse (r : Nat) (Ri : Nat → Nat → Scalar) (R : Matrix)
    (h : IsLeftInverse r Ri R) : IsUnit (toMat R r r) := by
  apply Matrix.isUnit_of_left_inverse (B := (fun i l => Ri i l : Mat r r))
  ext i j
  rw [Matrix.mul_apply, Matrix.one_apply]
  have := h i j i.2 j.2
  rw [← sum_fin_eq_range r (fun l => Ri i l * R.coeff l j)] at this
  rw [show (∑ l : Fin r, (fun i l => Ri i l : Mat r r) i l * toMat R r r l j)
      = ∑ l : Fin r, Ri i l * R.coeff l j from rfl, this]
  simp only [Fin.ext_iff]

/-- The permutation matrix of a duplicate-free ordering of `0…n−1` is invertible. -/
theorem isUnit_det_permutationMatrix (q : Indices) (n : Nat) (hl : q.length = n)
    (hnd : q.Nodup) (hlt : ∀ x ∈ q, x < n) :
    IsUnit (toMat (permutationMatrix q) n n).det := by
  apply Matrix.isUnit_det_of_left_inverse (B := (toMat (permutationMatrix q) n n).transpose)
  ext j j'
  rw [Matrix.mul_apply, Matrix.one_apply]
  have hc : ∀ (l a : Fin n), toMat (permutationMatrix q) n n l a
      = if (l : Nat) = q.getD a 0 then 1 else 0 := by
    intro l a
    exact Matrix.coeff_matOfFn _ _ _ l a (by rw [hl]; exact l.2) (by rw [hl]; exact a.2)
  have hqj : q.getD j 0 < n := hlt _ (getD_mem q j (by rw [hl]; exact j.2))
  rw [Finset.sum_eq_single (⟨q.getD j 0, hqj⟩ : Fin n)]
  · rw [Matrix.transpose_apply, hc, hc, if_pos rfl, one_mul]
    by_cases hjj : j = j'
    · subst hjj
      rw [if_pos rfl, if_pos rfl]
    · rw [if_neg hjj, if_neg]
      intro he
      have := getD_inj q hnd j j' (by rw [hl]; exact j.2) (by rw [hl]; exact j'.2) he
      exact hjj (Fin.ext this)
  · intro l _ hne
    rw [Matrix.transpose_apply, hc, if_neg, zero_mul]
    intro he
    exact hne (Fin.ext he)
  · intro hni
    exact absurd (Finset.mem_univ _) hni

/-- The current matrix of the elimination is `R·W·Q` as a product of matrices. -/
theorem toMat_canonical (W C R : Matrix) (q : Indices) (hl : q.length = W.cols)
    (hlt : ∀ x ∈ q, x < W.cols)
    (hrwq : ∀ i j, i < W.rows → j < W.cols →
      C.coeff i j = ∑ l in Finset.range W.rows, R.coeff i l * W.coeff l (q.getD j 0)) :
    toMat C W.rows W.cols
      = toMat R W.rows W.rows * toMat W W.rows W.cols
        * toMat (permutationMatrix q) W.cols W.cols := by
  ext i j
  have hqj : q.getD j 0 < W.cols := hlt _ (getD_mem q j (by rw [hl]; exact j.2))
  have hc : ∀ (l a : Fin W.cols), toMat (permutationMatrix q) W.cols W.cols l a
      = if (l : Nat) = q.getD a 0 then 1 else 0 := by
    intro l a
    exact Matrix.coeff_matOfFn _ _ _ l a (by rw [hl]; exact l.2) (by rw [hl]; exact a.2)
  rw [Matrix.mul_apply, Finset.sum_eq_single (⟨q.getD j 0, hqj⟩ : Fin W.cols)]
  · rw [hc, if_pos rfl, mul_one, Matrix.mul_apply]
    show C.coeff i j = ∑ l : Fin W.rows, R.coeff i l * W.coeff l (q.getD j 0)
    rw [sum_fin_eq_range W.rows (fun l => R.coeff i l * W.coeff l (q.getD j 0))]
    exact hrwq i j i.2 j.2
  · intro l _ hne
    rw [hc, if_neg, mul_zero]
    intro he
    exact hne (Fin.ext he)
  · intro hni
    exact absurd (Finset.mem_univ _) hni

/-- A matrix whose first `k` columns are unit columns and whose rows from `k` on are zero
has rank `k`. -/
theorem rank_canonical (C : Matrix) (r n k : Nat) (hkr : k ≤ r) (hkn : k ≤ n)
    (hunit : ∀ i j, i < r → j < k → C.coeff i j = if i = j then 1 else 0)
    (hzero : ∀ i j, k ≤ i → i < r → k ≤ j → j < n → C.coeff i j = 0) :
    Matrix.rank (toMat C r n) = k := by
  apply le_antisymm
  · have hfac : toMat C r n
        = eyeMat r k * toMat C k n := by
      ext i j
      rw [Matrix.mul_apply]
      by_cases hik : (i : Nat) < k
      · rw [Finset.sum_eq_single (⟨i, hik⟩ : Fin k)]
        · simp [toMat, eyeMat]
        · intro l _ hne
          have : ¬ (i : Nat) = l := fun he => hne (Fin.ext he.symm)
          simp [eyeMat, this]
        · intro hni
          exact absurd (Finset.mem_univ _) hni
      · have hz : toMat C r n i j = 0 := by
          show C.coeff i j = 0
          by_cases hjk : (j : Nat) < k
          · rw [hunit i j i.2 hjk, if_neg (by omega)]
          · exact hzero i j (by omega) i.2 (by omega) j.2
        rw [hz]
        symm
        apply Finset.sum_eq_zero
        intro l _
        have : ¬ (i : Nat) = l := by
          have := l.2
          omega
        simp [eyeMat, this]
    rw [hfac]
    exact (Matrix.rank_mul_le_left _ _).trans (Matrix.rank_le_width _)
  · have hone : (1 : Mat k k)
        = eyeMat k r * toMat C r n
          * eyeMat n k := by
      ext i j
      have hjn : (j : Nat) < n := lt_of_lt_of_le j.2 hkn
      have hir : (i : Nat) < r := lt_of_lt_of_le i.2 hkr
      rw [Matrix.one_apply, Matrix.mul_apply,
        Finset.sum_eq_single (⟨j, hjn⟩ : Fin n)]
      · rw [Matrix.mul_apply, Finset.sum_eq_single (⟨i, hir⟩ : Fin r)]
        · simp only [eyeMat, if_true, one_mul, mul_one]
          show _ = C.coeff i j
          rw [hunit i j hir j.2]
          simp only [Fin.ext_iff]
        · intro l _ hne
          have : ¬ (i : Nat) = l := fun he => hne (Fin.ext he.symm)
          simp [eyeMat, this]
        · intro hni
          exact absurd (Finset.mem_univ _) hni
      · intro l _ hne
        have : ¬ (l : Nat) = j := fun he => hne (Fin.ext he)
        simp [eyeMat, this]
      · intro hni
        exact absurd (Finset.mem_univ _) hni
    have h1 : Matrix.rank (1 : Mat k k) = k := by
      rw [Matrix.rank_one, Fintype.card_fin]
    calc k = Matrix.rank (1 : Mat k k) := h1.symm
      _ ≤ Matrix.rank (eyeMat k r
            * toMat C r n) := by
          rw [hone]; exact Matrix.rank_mul_le_left _ _
      _ ≤ Matrix.rank (toMat C r n) := Matrix.rank_mul_le_right _ _

/-! ## Canonicalizer: the rows selected by the pivots -/

theorem Canonicalizer.swap_rowInv (W : Matrix) (e : Canonicalizer.Elim)
    (h : Canonicalizer.Inv W e) (hp : Canonicalizer.RowInv W e) (pi pj : Nat)
    (hkr : e.k < W.rows) (hpi1 : e.k ≤ pi) (hpi2 : pi < W.rows) :
    Canonicalizer.RowInv W (e.swap pi pj) := by
  have hσ : ∀ i, i < W.rows → swapIdx e.k pi i < W.rows :=
    fun i hi => swapIdx_lt _ _ _ _ hkr hpi2 hi
  have hpg : ∀ l, l < W.rows → (e.swap pi pj).p.getD l 0 = e.p.getD (swapIdx e.k pi l) 0 := by
    intro l hl
    exact getD_map_range _ _ l (by rw [h.lenp]; exact hl)
  have hRc : ∀ i l, i < W.rows → l < W.rows →
      (e.swap pi pj).R.coeff i l = e.R.coeff (swapIdx e.k pi i) l := by
    intro i l hi hl
    exact Matrix.coeff_matOfFn _ _ _ i l (by rw [h.rowsR]; exact hi) (by rw [h.colsR]; exact hl)
  refine ⟨?_, ?_, ?_⟩
  · show ((List.range e.p.length).map _).Nodup
    apply List.Nodup.map_on _ (List.nodup_range _)
    intro x hx y hy hxy
    have hx' : x < W.rows := by rw [← h.lenp]; exact List.mem_range.mp hx
    have hy' : y < W.rows := by rw [← h.lenp]; exact List.mem_range.mp hy
    have := getD_inj e.p hp.nodupp _ _ (by rw [h.lenp]; exact hσ x hx')
      (by rw [h.lenp]; exact hσ y hy') hxy
    have h2 := congrArg (swapIdx e.k pi) this
    rwa [swapIdx_invol, swapIdx_invol] at h2
  · intro x hx
    have hx' : x ∈ (List.range e.p.length).map
        (fun j => e.p.getD (swapIdx e.k pi j) 0) := hx
    obtain ⟨j, hj, rfl⟩ := List.mem_map.mp hx'
    have hj' : j < W.rows := by rw [← h.lenp]; exact List.mem_range.mp hj
    exact hp.ltp _ (getD_mem e.p _ (by rw [h.lenp]; exact hσ j hj'))
  · intro i l hi hkl hl
    have hkl' : e.k ≤ l := hkl
    have hpl : e.p.getD (swapIdx e.k pi l) 0 < W.rows :=
      hp.ltp _ (getD_mem e.p _ (by rw [h.lenp]; exact hσ l hl))
    rw [hpg l hl, hRc i _ hi hpl,
      hp.unitR _ _ (hσ i hi) (swapIdx_ge e.k pi l hpi1 hkl') (hσ l hl)]
    by_cases hil : i = l
    · rw [if_pos hil, if_pos (by rw [hil])]
    · rw [if_neg hil, if_neg]
      intro he
      have h2 := congrArg (swapIdx e.k pi) he
      rw [swapIdx_invol, swapIdx_invol] at h2
      exact hil h2

theorem Canonicalizer.eliminate_rowInv (W : Matrix) (e : Canonicalizer.Elim)
    (h : Canonicalizer.Inv W e) (hp : Canonicalizer.RowInv W e) (hkr : e.k < W.rows) :
    Canonicalizer.RowInv W e.eliminate := by
  have hRc : ∀ i l, i < W.rows → l < W.rows →
      e.eliminate.R.coeff i l =
        if i = e.k then e.R.coeff e.k l / e.C.coeff e.k e.k
        else e.R.coeff i l - e.C.coeff i e.k * (e.R.coeff e.k l / e.C.coeff e.k e.k) := by
    intro i l hi hl
    exact Matrix.coeff_matOfFn _ _ _ i l (by rw [h.rowsR]; exact hi) (by rw [h.colsR]; exact hl)
  refine ⟨hp.nodupp, hp.ltp, ?_⟩
  intro i l hi hkl hl
  have hkl' : e.k + 1 ≤ l := hkl
  have hpE : e.eliminate.p = e.p := rfl
  have hpl : e.p.getD l 0 < W.rows := hp.ltp _ (getD_mem e.p _ (by rw [h.lenp]; exact hl))
  have hk0 : e.R.coeff e.k (e.p.getD l 0) = 0 := by
    rw [hp.unitR e.k l hkr (by omega) hl, if_neg (by omega)]
  rw [hpE, hRc i _ hi hpl, hk0, zero_div, mul_zero, sub_zero]
  by_cases hik : i = e.k
  · rw [if_pos hik, if_neg (by omega)]
  · rw [if_neg hik, hp.unitR i l hi (by omega) hl]

theorem Canonicalizer.step_rowInv (W : Matrix) (e e' : Canonicalizer.Elim)
    (h : Canonicalizer.Inv W e) (hs : Canonicalizer.step e = some e')
    (hp : Canonicalizer.RowInv W e) : Canonicalizer.RowInv W e' := by
  unfold Canonicalizer.step at hs
  by_cases hk : e.k < e.C.rows ∧ e.k < e.C.cols
  · rw [if_pos hk] at hs
    have hkr : e.k < W.rows := by rw [← h.rowsC]; exact hk.1
    have hkc : e.k < W.cols := by rw [← h.colsC]; exact hk.2
    obtain ⟨p1, p2, p3, p4, _⟩ := Canonicalizer.findPivot_spec e.C e.k hk.1 hk.2
    by_cases hz : e.C.coeff (Canonicalizer.findPivot e.C e.k).1
        (Canonicalizer.findPivot e.C e.k).2 = 0
    · simp only [hz, if_true] at hs
      cases hs
    · simp only [hz, if_false] at hs
      have he : e' = (e.swap (Canonicalizer.findPivot e.C e.k).1
          (Canonicalizer.findPivot e.C e.k).2).eliminate := (Option.some.inj hs).symm
      have hpi : (Canonicalizer.findPivot e.C e.k).1 < W.rows := by
        rw [← h.rowsC]; exact p2
      obtain ⟨hi, hk', _⟩ := Canonicalizer.swap_inv W e h _ _ hkr hkc p1 hpi p3
        (by rw [← h.colsC]; exact p4)
      have h1 := Canonicalizer.swap_rowInv W e h hp (Canonicalizer.findPivot e.C e.k).1
        (Canonicalizer.findPivot e.C e.k).2 hkr p1 hpi
      rw [he]
      exact Canonicalizer.eliminate_rowInv W _ hi h1 (by rw [hk']; exact hkr)
  · rw [if_neg hk] at hs
    cases hs

/-- The elimination keeps the invariant of the row ordering. -/
theorem Canonicalizer.run_rowInv (W : Matrix) (fuel : Nat) (e : Canonicalizer.Elim)
    (h : Canonicalizer.Inv W e) (hp : Canonicalizer.RowInv W e) :
    Canonicalizer.RowInv W (Canonicalizer.run fuel e) := by
  induction fuel generalizing e with
  | zero => exact hp
  | succ fuel ih =>
    unfold Canonicalizer.run
    cases hs : Canonicalizer.step e with
    | none => exact hp
    | some e' =>
      exact ih e' (Canonicalizer.step_some W e e' h hs).1
        (Canonicalizer.step_rowInv W e e' h hs hp)

theorem Canonicalizer.init_rowInv (W : Matrix) :
    Canonicalizer.RowInv W
      { C := matOfFn W.rows W.cols W.coeff, R := identity W.rows
        p := List.range W.rows, q := List.range W.cols, k := 0 } := by
  refine ⟨List.nodup_range _, fun x hx => List.mem_range.mp hx, ?_⟩
  intro i l hi _ hl
  show (identity W.rows).coeff i ((List.range W.rows).getD l 0) = _
  rw [getD_range W.rows l hl, identity, Matrix.coeff_matOfFn _ _ _ i l hi hl]

/-- A sum over `0…r−1` taken in the order of a duplicate-free list of the `r` indices. -/
theorem sum_reorder (p : Indices) (r : Nat) (hl : p.length = r) (hn : p.Nodup)
    (hlt : ∀ x ∈ p, x < r) (f : Nat → Scalar) :
    (∑ l in Finset.range r, f (p.getD l 0)) = ∑ c in Finset.range r, f c := by
  apply Finset.sum_nbij (fun l => p.getD l 0)
  · intro l hl'
    exact Finset.mem_range.mpr (hlt _ (getD_mem p l (by
      rw [hl]; exact Finset.mem_range.mp hl')))
  · intro a ha b hb hab
    have ha' : a < p.length := by rw [hl]; exact Finset.mem_range.mp ha
    have hb' : b < p.length := by rw [hl]; exact Finset.mem_range.mp hb
    exact getD_inj p hn a b ha' hb' hab
  · intro c hc
    have hc' : c ∈ List.range r := List.mem_range.mpr (Finset.mem_range.mp hc)
    have hmem : c ∈ p := (perm_range_of_nodup p r hl hn hlt).symm.subset hc'
    obtain ⟨l, hl', hlc⟩ := List.getElem_of_mem hmem
    refine ⟨l, Finset.mem_coe.mpr (Finset.mem_range.mpr (by rw [← hl]; exact hl')), ?_⟩
    show p.getD l 0 = c
    rw [List.getD_eq_getElem _ _ hl']
    exact hlc
  · intro l _
    rfl

/-- The rows of `W` selected by the first `k` entries of the row ordering are linearly
independent. -/
theorem Canonicalizer.rows_independent (W : Matrix) (e : Canonicalizer.Elim)
    (h : Canonicalizer.Inv W e) (hp : Canonicalizer.RowInv W e) :
    LinearIndependent ℚ
      (fun (t : Fin e.k) (j : Fin W.cols) => W.coeff (e.p.getD t 0) j) := by
  have hX : Matrix.rank (Matrix.of
      (fun (t : Fin e.k) (j : Fin W.cols) => W.coeff (e.p.getD t 0) j)) = e.k := by
    apply le_antisymm (Matrix.rank_le_height _)
    have hk := rank_canonical e.C e.k W.cols e.k le_rfl h.kc
      (fun i j hi hj => h.unit i j (lt_of_lt_of_le hi h.kr) hj)
      (fun i j h1 h2 _ _ => absurd h2 (by omega))
    have hfac : toMat e.C e.k W.cols
        = (Matrix.of (fun (i l : Fin e.k) => e.R.coeff i (e.p.getD l 0)))
          * Matrix.of (fun (t : Fin e.k) (j : Fin W.cols) => W.coeff (e.p.getD t 0) j)
          * toMat (permutationMatrix e.q) W.cols W.cols := by
      ext i j
      have hir : (i : Nat) < W.rows := lt_of_lt_of_le i.2 h.kr
      have hqj : e.q.getD j 0 < W.cols := h.ltq _ (getD_mem e.q j (by rw [h.lenq]; exact j.2))
      have hc : ∀ (l a : Fin W.cols), toMat (permutationMatrix e.q) W.cols W.cols l a
          = if (l : Nat) = e.q.getD a 0 then 1 else 0 := by
        intro l a
        exact Matrix.coeff_matOfFn _ _ _ l a (by rw [h.lenq]; exact l.2)
          (by rw [h.lenq]; exact a.2)
      rw [Matrix.mul_apply, Finset.sum_eq_single (⟨e.q.getD j 0, hqj⟩ : Fin W.cols)]
      · rw [hc, if_pos rfl, mul_one, Matrix.mul_apply]
        show e.C.coeff i j
          = ∑ l : Fin e.k, e.R.coeff i (e.p.getD l 0) * W.coeff (e.p.getD l 0) (e.q.getD j 0)
        rw [sum_fin_eq_range e.k
            (fun l => e.R.coeff i (e.p.getD l 0) * W.coeff (e.p.getD l 0) (e.q.getD j 0)),
          h.rwq i j hir j.2,
          ← sum_reorder e.p W.rows h.lenp hp.nodupp hp.ltp
            (fun c => e.R.coeff i c * W.coeff c (e.q.getD j 0))]
        have hsplit : W.rows = e.k + (W.rows - e.k) := by have := h.kr; omega
        rw [hsplit, Finset.sum_range_add]
        have hz : (∑ x in Finset.range (W.rows - e.k),
            e.R.coeff i (e.p.getD (e.k + x) 0)
              * W.coeff (e.p.getD (e.k + x) 0) (e.q.getD j 0)) = 0 := by
          apply Finset.sum_eq_zero
          intro x hx
          have hx' := Finset.mem_range.mp hx
          rw [hp.unitR i (e.k + x) hir (by omega) (by omega), if_neg, zero_mul]
          have := i.2
          omega
        rw [hz, add_zero]
      · intro l _ hne
        rw [hc, if_neg, mul_zero]
        intro he
        exact hne (Fin.ext he)
      · intro hni
        exact absurd (Finset.mem_univ _) hni
    calc e.k = Matrix.rank (toMat e.C e.k W.cols) := hk.symm
      _ ≤ Matrix.rank ((Matrix.of (fun (i l : Fin e.k) => e.R.coeff i (e.p.getD l 0)))
          * Matrix.of (fun (t : Fin e.k) (j : Fin W.cols) => W.coeff (e.p.getD t 0) j)) := by
        rw [hfac]; exact Matrix.rank_mul_le_left _ _
      _ ≤ _ := Matrix.rank_mul_le_right _ _
  rw [linearIndependent_iff_card_eq_finrank_span, Fintype.card_fin]
  rw [Matrix.rank_eq_finrank_span_row] at hX
  exact hX.symm

/-- The rank of `W` is the number of pivots found by the elimination. -/
theorem Canonicalizer.rank_final (W : Matrix) (e : Canonicalizer.Elim)
    (h : Canonicalizer.Inv W e) (ht : Canonicalizer.Terminal W e)
    (hl : ∃ Ri, IsLeftInverse W.rows Ri e.R) :
    Matrix.rank (toMat W W.rows W.cols) = e.k := by
  obtain ⟨Ri, hRi⟩ := hl
  have hC := toMat_canonical W e.C e.R e.q h.lenq h.ltq h.rwq
  have hk := rank_canonical e.C W.rows W.cols e.k h.kr h.kc h.unit ht
  have hR : IsUnit (Matrix.det (toMat e.R W.rows W.rows)) :=
    (Matrix.isUnit_iff_isUnit_det _).mp (isUnit_of_isLeftInverse W.rows Ri e.R hRi)
  have hQ := isUnit_det_permutationMatrix e.q W.cols h.lenq h.nodupq h.ltq
  rw [hC, Matrix.rank_mul_eq_left_of_isUnit_det _ _ hQ,
    Matrix.rank_mul_eq_right_of_isUnit_det _ _ hR] at hk
  exact hk

/-- The matrix `R` returned by `compute` has a left inverse. -/
theorem Canonicalizer.compute_leftInverse (W : Matrix) :
    ∃ Ri, IsLeftInverse W.rows Ri (Canonicalizer.run (min W.rows W.cols)
      { C := matOfFn W.rows W.cols W.coeff, R := identity W.rows
        p := List.range W.rows, q := List.range W.cols, k := 0 }).R :=
  Canonicalizer.run_leftInverse W _ _ (Canonicalizer.init_inv W)
    ⟨_, isLeftInverse_identity W.rows⟩

/-- The row indices `ili` returned by `compute` are distinct row indices of `W`, and the rows
of `W` they select are linearly independent. -/
theorem Canonicalizer.compute_ili (W : Matrix) :
    (Canonicalizer.compute W).ili.Nodup ∧
    (∀ x ∈ (Canonicalizer.compute W).ili, x < W.rows) ∧
    LinearIndependent ℚ (fun (t : Fin (Canonicalizer.compute W).numBasicVariables)
      (j : Fin W.cols) => W.coeff ((Canonicalizer.compute W).ili.getD t 0) j) := by
  obtain ⟨hinv, _⟩ := Canonicalizer.compute_final W
  have hp := Canonicalizer.run_rowInv W (min W.rows W.cols) _ (Canonicalizer.init_inv W)
    (Canonicalizer.init_rowInv W)
  have hind := Canonicalizer.rows_independent W _ hinv hp
  refine ⟨?_, ?_, ?_⟩
  · exact List.Nodup.sublist (List.take_sublist _ _) hp.nodupp
  · intro x hx
    exact hp.ltp x (List.mem_of_mem_take hx)
  · have hget : ∀ t : Fin (Canonicalizer.compute W).numBasicVariables,
        (Canonicalizer.compute W).ili.getD t 0
          = (Canonicalizer.compute W).rowordering.getD t 0 := by
      intro t
      show (List.take _ _).getD t 0 = _
      rw [List.getD_eq_getElem?_getD, List.getD_eq_getElem?_getD, List.getElem?_take]
      exact congrArg (fun o => Option.getD o 0) (if_pos t.2)
    simp only [hget]
    exact hind

/-- C19: after `compute(W)`, `R·W·Q = [I S]` on the first `nb` rows and zero on the others,
with `R` an invertible `r×r` matrix and `Q` the permutation matrix of the column ordering; the
number of basic variables is the rank of `W`, that is the number of its linearly independent
rows, it is the length of `ili` and at most `min(r, n)`; the basic and non-basic index lists
are disjoint and together hold every column index `0…n−1` exactly once; the entries of `ili`
are distinct row indices and the rows of `W` they select are linearly independent.  (It holds
for every `W`, in particular when `r ≤ n`.) -/
theorem Canonicalizer.compute_canonical_form (W : Matrix) :
    ((Canonicalizer.compute W).R.mul W).mul (Canonicalizer.compute W).Q
      = matOfFn W.rows W.cols (fun i j =>
          if i < (Canonicalizer.compute W).numBasicVariables
          then (Canonicalizer.compute W).C.coeff i j else 0) ∧
    (Canonicalizer.compute W).R.rows = W.rows ∧
    (Canonicalizer.compute W).R.cols = W.rows ∧
    IsUnit (toMat (Canonicalizer.compute W).R W.rows W.rows) ∧
    (Canonicalizer.compute W).numBasicVariables = Matrix.rank (toMat W W.rows W.cols) ∧
    (Canonicalizer.compute W).numBasicVariables = (Canonicalizer.compute W).ili.length ∧
    (Canonicalizer.compute W).numBasicVariables ≤ min W.rows W.cols ∧
    (Canonicalizer.compute W).ibasic.length = (Canonicalizer.compute W).numBasicVariables ∧
    (Canonicalizer.compute W).inonbasic.length
      = W.cols - (Canonicalizer.compute W).numBasicVariables ∧
    List.Disjoint (Canonicalizer.compute W).ibasic (Canonicalizer.compute W).inonbasic ∧
    ((Canonicalizer.compute W).ibasic ++ (Canonicalizer.compute W).inonbasic).Perm
      (List.range W.cols) ∧
    (Canonicalizer.compute W).ili.Nodup ∧
    (∀ x ∈ (Canonicalizer.compute W).ili, x < W.rows) ∧
    LinearIndependent ℚ (fun (t : Fin (Canonicalizer.compute W).numBasicVariables)
      (j : Fin W.cols) => W.coeff ((Canonicalizer.compute W).ili.getD t 0) j) := by
  have hili := Canonicalizer.compute_ili W
  rw [← and_assoc, ← and_assoc, ← and_assoc, ← and_assoc, ← and_assoc, ← and_assoc,
    ← and_assoc, ← and_assoc, ← and_assoc, ← and_assoc]
  refine ⟨?_, hili⟩
  simp only [and_assoc]
  obtain ⟨hinv, hterm⟩ := Canonicalizer.compute_final W
  have hli := Canonicalizer.compute_leftInverse W
  generalize he : Canonicalizer.run (min W.rows W.cols)
      { C := matOfFn W.rows W.cols W.coeff, R := identity W.rows
        p := List.range W.rows, q := List.range W.cols, k := 0 } = e at hinv hterm hli
  have hK : Canonicalizer.compute W =
      { R := e.R, S := matOfFn e.k (W.cols - e.k) (fun i j => e.C.coeff i (e.k + j))
        ordering := e.q, rowordering := e.p, nb := e.k } := by
    unfold Canonicalizer.compute
    simp only [he]
  rw [hK]
  simp only [Canonicalizer.numBasicVariables, Canonicalizer.ili, Canonicalizer.ibasic,
    Canonicalizer.inonbasic, Canonicalizer.numNonBasicVariables, Canonicalizer.numVariables,
    Canonicalizer.Q, Canonicalizer.C, head, tail]
  have hkr := hinv.kr
  have hkc := hinv.kc
  have hdrop : e.q.length - (e.q.length - e.k) = e.k := by
    rw [hinv.lenq]; omega
  rw [hdrop]
  refine ⟨?_, hinv.rowsR, hinv.colsR, ?_, ?_, ?_, ?_, ?_, ?_, ?_, ?_⟩
  · have hE : (e.R.mul W).mul (permutationMatrix e.q)
        = matOfFn (e.R.mul W).rows (permutationMatrix e.q).cols
            ((e.R.mul W).mul (permutationMatrix e.q)).coeff := matOfFn_eta _ _ _
    have hr : (e.R.mul W).rows = W.rows := hinv.rowsR
    have hc : (permutationMatrix e.q).cols = W.cols := hinv.lenq
    rw [hE, hr, hc]
    apply matOfFn_ext
    intro i j hi hj
    rw [coeff_mul_mul_permutation e.R W e.q i j (by rw [hinv.rowsR]; exact hi)
        (by rw [hinv.lenq]; exact hj) hinv.lenq.symm
        (fun x hx => by rw [hinv.lenq]; exact hinv.ltq x hx),
      hinv.colsR, ← hinv.rwq i j hi hj]
    by_cases hik : i < e.k
    · rw [if_pos hik, Matrix.coeff_matOfFn _ _ _ i j hik (by rw [hinv.lenq]; exact hj)]
      by_cases hjk : j < e.k
      · rw [if_pos hjk, hinv.unit i j hi hjk]
      · rw [if_neg hjk, Matrix.coeff_matOfFn _ _ _ i (j - e.k) hik (by omega)]
        congr 1
        omega
    · rw [if_neg hik]
      by_cases hjk : j < e.k
      · rw [hinv.unit i j hi hjk, if_neg (by omega)]
      · exact hterm i j (by omega) hi (by omega) hj
  · obtain ⟨Ri, hRi⟩ := hli
    exact isUnit_of_isLeftInverse W.rows Ri e.R hRi
  · exact (Canonicalizer.rank_final W e hinv hterm hli).symm
  · rw [List.length_take, hinv.lenp]; omega
  · exact Nat.le_min.mpr ⟨hkr, hkc⟩
  · rw [List.length_take, hinv.lenq]; omega
  · rw [List.length_drop, hinv.lenq]
  · have hnd : (e.q.take e.k ++ e.q.drop e.k).Nodup := by
      rw [List.take_append_drop]; exact hinv.nodupq
    exact (List.nodup_append.mp hnd).2.2
  · rw [List.take_append_drop]
    exact perm_range_of_nodup e.q W.cols hinv.lenq hinv.nodupq hinv.ltq

/-! ## The full-pivoting solve is exact on the nonsingular systems -/

/-- The matrix-vector product of the embedding is that of Mathlib. -/
theorem toVec_mulVec (A : Matrix) (v : Vector) :
    toVec (mulVec A v) A.rows = Matrix.mulVec (toMat A A.rows A.cols) (toVec v A.cols) := by
  funext i
  show coeff (mulVec A v) i = ∑ j : Fin A.cols, A.coeff i j * coeff v j
  rw [coeff_mulVec A v i i.2, sum_fin_eq_range A.cols (fun j => A.coeff i j * coeff v j)]

/-- A vector is determined by its entries. -/
theorem vector_eq_of_toVec (v w : Vector) (n : Nat) (hv : v.length = n) (hw : w.length = n)
    (h : toVec v n = toVec w n) : v = w := by
  apply vector_ext v w (by rw [hv, hw])
  intro i hi
  exact congrFun h ⟨i, by rw [← hv]; exact hi⟩

/-- A nonsingular matrix of the embedding is invertible. -/
theorem isUnit_of_nonsingular (M : Matrix) (n : Nat) (hr : M.rows = n) (hc : M.cols = n)
    (h : M.Nonsingular) : IsUnit (toMat M n n) := by
  subst hr
  apply Matrix.mulVec_surjective_iff_isUnit.mp
  intro v
  obtain ⟨y, _, hy⟩ := h.2 (vecOfFn M.rows (fun i => if hi : i < M.rows then v ⟨i, hi⟩ else 0))
    (length_vecOfFn _ _)
  refine ⟨toVec y M.rows, ?_⟩
  have := toVec_mulVec M y
  rw [hc] at this
  rw [← this, hy]
  funext i
  show coeff (vecOfFn M.rows _) i = v i
  rw [coeff_vecOfFn _ _ i i.2, dif_pos i.2]

/-- On a nonsingular square matrix of size `n` the elimination finds `n` pivots. -/
theorem Canonicalizer.compute_full_of_nonsingular (M : Matrix) (n : Nat) (hr : M.rows = n)
    (hc : M.cols = n) (h : M.Nonsingular) :
    (Canonicalizer.compute M).numBasicVariables = n := by
  subst hr
  obtain ⟨hinv, hterm⟩ := Canonicalizer.compute_final M
  have hli := Canonicalizer.compute_leftInverse M
  have hrank : Matrix.rank (toMat M M.rows M.cols)
      = (Canonicalizer.compute M).numBasicVariables :=
    Canonicalizer.rank_final M _ hinv hterm hli
  have hu := isUnit_of_nonsingular M M.rows rfl hc h
  rw [hc, Matrix.rank_of_isUnit _ hu, Fintype.card_fin] at hrank
  exact hrank.symm

/-- When the elimination finds `n` pivots on a square matrix of size `n`, `R·M·Q = I` and so
`M·(Q·R) = I`. -/
theorem Canonicalizer.compute_inverse (M : Matrix) (n : Nat) (hr : M.rows = n)
    (hc : M.cols = n) (hk : (Canonicalizer.compute M).numBasicVariables = n) :
    toMat M n n * (toMat (Canonicalizer.compute M).Q n n
      * toMat (Canonicalizer.compute M).R n n) = 1 := by
  subst hr
  obtain ⟨hinv, _⟩ := Canonicalizer.compute_final M
  generalize he : Canonicalizer.run (min M.rows M.cols)
      { C := matOfFn M.rows M.cols M.coeff, R := identity M.rows
        p := List.range M.rows, q := List.range M.cols, k := 0 } = e at hinv
  have hK : Canonicalizer.compute M =
      { R := e.R, S := matOfFn e.k (M.cols - e.k) (fun i j => e.C.coeff i (e.k + j))
        ordering := e.q, rowordering := e.p, nb := e.k } := by
    unfold Canonicalizer.compute
    simp only [he]
  rw [hK] at hk ⊢
  simp only [Canonicalizer.Q]
  have hk' : e.k = M.rows := hk
  have hC := toMat_canonical M e.C e.R e.q hinv.lenq hinv.ltq hinv.rwq
  rw [hc] at hC
  have hone : toMat e.C M.rows M.rows = 1 := by
    ext i j
    rw [Matrix.one_apply]
    show e.C.coeff i j = _
    rw [hinv.unit i j i.2 (by rw [hk']; exact j.2)]
    simp only [Fin.ext_iff]
  rw [hone] at hC
  have h1 : toMat e.R M.rows M.rows
      * (toMat M M.rows M.rows * toMat (permutationMatrix e.q) M.rows M.rows) = 1 := by
    rw [← Matrix.mul_assoc]; exact hC.symm
  have h2 := Matrix.mul_eq_one_comm.mp h1
  rw [Matrix.mul_assoc] at h2
  exact h2

/-- A square matrix on which the elimination finds as many pivots as it has rows is
nonsingular. -/
theorem nonsingular_of_full_rank (M : Matrix) (hsq : M.rows = M.cols)
    (hk : (Canonicalizer.compute M).numBasicVariables = M.rows) : M.Nonsingular := by
  have hu : IsUnit (toMat M M.rows M.rows) :=
    Matrix.isUnit_of_right_inverse (Canonicalizer.compute_inverse M M.rows rfl hsq.symm hk)
  refine ⟨hsq, fun r hr => ?_⟩
  obtain ⟨v, hv⟩ := Matrix.mulVec_surjective_iff_isUnit.mpr hu (toVec r M.rows)
  refine ⟨vecOfFn M.cols (fun j => if hj : j < M.rows then v ⟨j, hj⟩ else 0),
    length_vecOfFn _ _, ?_⟩
  apply vector_eq_of_toVec _ _ M.rows (length_mulVec _ _) hr
  rw [toVec_mulVec, ← hv]
  have hcols : M.cols = M.rows := hsq.symm
  funext i
  show ∑ j : Fin M.cols, M.coeff i j * coeff (vecOfFn M.cols _) j
    = ∑ j : Fin M.rows, M.coeff i j * v j
  rw [sum_fin_eq_range M.cols (fun j => M.coeff i j * coeff (vecOfFn M.cols
      (fun j => if hj : j < M.rows then v ⟨j, hj⟩ else 0)) j), hcols,
    ← sum_fin_eq_range M.rows (fun j => M.coeff i j * coeff (vecOfFn M.rows
      (fun j => if hj : j < M.rows then v ⟨j, hj⟩ else 0)) j)]
  apply Finset.sum_congr rfl
  intro j _
  rw [coeff_vecOfFn _ _ j j.2, dif_pos j.2]

/-- The full-pivoting solve returns the solution of every nonsingular system. -/
theorem fullPivLU_solves (n : Nat) : LuSolves fullPivLU n := by
  intro M r hr hc hns hrl
  have hQr : (Canonicalizer.compute M).Q.rows = n := by
    obtain ⟨hinv, _⟩ := Canonicalizer.compute_final M
    show (Canonicalizer.compute M).ordering.length = n
    rw [← hc]
    exact hinv.lenq
  have hRr : (Canonicalizer.compute M).R.rows = n := by
    obtain ⟨hinv, _⟩ := Canonicalizer.compute_final M
    rw [← hr]
    exact hinv.rowsR
  have hRc : (Canonicalizer.compute M).R.cols = n := by
    obtain ⟨hinv, _⟩ := Canonicalizer.compute_final M
    rw [← hr]
    exact hinv.colsR
  have hQc : (Canonicalizer.compute M).Q.cols = n := hQr
  have hlen : (fullPivLU M r).length = n := by
    rw [fullPivLU, length_mulVec, hQr]
  refine ⟨hlen, ?_⟩
  apply vector_eq_of_toVec _ _ n (by rw [length_mulVec, hr]) hrl
  have e1 := toVec_mulVec M (fullPivLU M r)
  have e2 := toVec_mulVec (Canonicalizer.compute M).Q (mulVec (Canonicalizer.compute M).R r)
  have e3 := toVec_mulVec (Canonicalizer.compute M).R r
  rw [hr, hc] at e1
  rw [hQr, hQc] at e2
  rw [hRr, hRc] at e3
  rw [e1, fullPivLU, e2, e3, Matrix.mulVec_mulVec, Matrix.mulVec_mulVec,
    Matrix.mul_assoc, Canonicalizer.compute_inverse M n hr hc
      (Canonicalizer.compute_full_of_nonsingular M n hr hc hns), Matrix.one_mulVec]

/-! ## Saddle-point solver: the claims -/

/-- C18, refuted as stated: for the singular matrix `M = [0]` and `a = [1]` no `(x, y)` at
all satisfies `M·[x; y] = [a; b]`, so neither does the pair returned by the solver. -/
theorem SaddlePointSolver.singular_matrix_counterexample :
    singularSaddle.array = ⟨1, 1, [[0]]⟩ ∧
    (¬ ∃ x y : Vector, singularSaddle.Solves [1] [] x y) ∧
    ¬ singularSaddle.Solves [1] []
      ((SaddlePointSolver.decompose singularSaddle).solve fullPivLU [1] []).1
      ((SaddlePointSolver.decompose singularSaddle).solve fullPivLU [1] []).2 := by
  have h : ¬ ∃ x y : Vector, singularSaddle.Solves [1] [] x y := by
    rintro ⟨x, y, h1, _, _⟩
    have := h1 0 (by decide)
    simp [singularSaddle, SaddlePointMatrix.m, Matrix.coeff, coeff] at this
  exact ⟨by decide!, h, fun hs => h ⟨_, _, hs⟩⟩

/-- C18, amended: for every saddle-point matrix `M` whose assembled matrix (the rows and
columns of the `nf` fixed variables, the last ones, replaced by the identity block) is
nonsingular and every right-hand side `(a, b)`, `decompose` followed by `solve` with the
full-pivoting method returns `(x, y)` with `M·[x; y] = [a; b]` on the free rows and on the
constraint rows and `x[i] = a[i]` on every fixed variable; so does `solve` with any method
whose linear solve is exact on the nonsingular systems. -/
theorem SaddlePointSolver.solve_solves (M : SaddlePointMatrix) (a b : Vector)
    (ha : a.length = M.n) (hb : b.length = M.m) (hns : M.array.Nonsingular) :
    M.Solves a b ((SaddlePointSolver.decompose M).solve fullPivLU a b).1
      ((SaddlePointSolver.decompose M).solve fullPivLU a b).2 ∧
    ∀ lu : Matrix → Vector → Vector, LuSolves lu (M.n + M.m) →
      M.Solves a b ((SaddlePointSolver.decompose M).solve lu a b).1
        ((SaddlePointSolver.decompose M).solve lu a b).2 :=
  ⟨SaddlePointSolver.solve_solves_of_lu fullPivLU M a b ha hb (fullPivLU_solves _) hns,
    fun lu hlu => SaddlePointSolver.solve_solves_of_lu lu M a b ha hb hlu hns⟩

/-- Evaluation of the amended C18 on a matrix with two free variables, one fixed variable and
one constraint: `x = [4/3, 5/3, 7]` and `y = [−4/3]` for `a = [3, 5, 7]` and `b = [10]`, with
`x₂ = a₂ = 7` on the fixed variable. -/
theorem SaddlePointSolver.solve_solves_witness :
    mixedSaddle.array = ⟨4, 4, [[2, 1, 0, 1], [1, 3, 0, 1], [0, 0, 1, 0], [1, 1, 1, 0]]⟩ ∧
    mixedSaddle.array.Nonsingular ∧
    mixedSaddle.Solves [3, 5, 7] [10]
      ((SaddlePointSolver.decompose mixedSaddle).solve fullPivLU [3, 5, 7] [10]).1
      ((SaddlePointSolver.decompose mixedSaddle).solve fullPivLU [3, 5, 7] [10]).2 ∧
    (SaddlePointSolver.decompose mixedSaddle).solve fullPivLU [3, 5, 7] [10]
      = ([4/3, 5/3, 7], [-4/3]) :=
  have hns : mixedSaddle.array.Nonsingular :=
    nonsingular_of_full_rank _ rfl (by decide!)
  ⟨by decide!, hns,
    (SaddlePointSolver.solve_solves mixedSaddle [3, 5, 7] [10] rfl rfl hns).1, by decide!⟩

/-! ## The canonical solver in exact arithmetic: the feasibility and complementarity rows -/

/-- When `solver.exact` has a value, no divisor is zero and the value is the record computed
by `solver` from the `y` of the linear solve. -/
theorem solver.exact_some (lu : Matrix → Vector → Option Vector)
    (P : SaddlePointProblemCanonical) (solution S : SaddlePointVectorCanonical)
    (h : solver.exact lu P solution = some S) :
    (∀ d ∈ solver.divisors P, d ≠ 0) ∧
    (P.nb ≠ 0 → ∃ y, lu (solver.Ub P) (solver.r P) = some y ∧ S.y = y) ∧
    ∃ lu' : Matrix → Vector → Vector, S = solver lu' P solution := by
  unfold solver.exact at h
  by_cases hd : (solver.divisors P).all (fun d => decide (d ≠ 0)) = true
  · rw [if_pos hd] at h
    have hd' : ∀ d ∈ solver.divisors P, d ≠ 0 := by
      intro d hmem
      have := List.all_eq_true.mp hd d hmem
      simpa using this
    by_cases hnb : P.nb ≠ 0
    · rw [if_pos hnb] at h
      cases hy : lu (solver.Ub P) (solver.r P) with
      | none => rw [hy] at h; simp at h
      | some y =>
        rw [hy] at h
        simp only [Option.map_some', Option.some.injEq] at h
        refine ⟨hd', fun _ => ⟨y, rfl, ?_⟩, ⟨fun _ _ => y, h.symm⟩⟩
        rw [← h, solver.y_eq _ P solution hnb]
    · rw [if_neg hnb] at h
      simp only [Option.some.injEq] at h
      exact ⟨hd', fun hc => absurd hc hnb, ⟨fun _ _ => solution.y, h.symm⟩⟩
  · rw [if_neg hd] at h
    simp at h

/-- When no divisor is zero and the linear solve has a value, `solver.exact` has one. -/
theorem solver.exact_isSome (lu : Matrix → Vector → Option Vector)
    (P : SaddlePointProblemCanonical) (solution : SaddlePointVectorCanonical)
    (hd : ∀ d ∈ solver.divisors P, d ≠ 0)
    (hy : P.nb ≠ 0 → (lu (solver.Ub P) (solver.r P)).isSome = true) :
    (solver.exact lu P solution).isSome = true := by
  have hd' : (solver.divisors P).all (fun d => decide (d ≠ 0)) = true := by
    rw [List.all_eq_true]
    intro d hmem
    simpa using hd d hmem
  unfold solver.exact
  rw [if_pos hd']
  by_cases hnb : P.nb ≠ 0
  · rw [if_pos hnb]
    cases h : lu (solver.Ub P) (solver.r P) with
    | none => have := hy hnb; rw [h] at this; simp at this
    | some y => simp
  · rw [if_neg hnb]; rfl

/-- When a divisor is zero, `solver.exact` has no value, whatever the linear solve is. -/
theorem solver.exact_none_of_zero_divisor (lu : Matrix → Vector → Option Vector)
    (P : SaddlePointProblemCanonical) (solution : SaddlePointVectorCanonical)
    (h : (0 : Scalar) ∈ solver.divisors P) : solver.exact lu P solution = none := by
  cases hS : solver.exact lu P solution with
  | none => rfl
  | some S => exact absurd rfl ((solver.exact_some lu P solution S hS).1 0 h)

/-- When the reduced system has no solution, `solver.exact` has no value for any linear
solve that returns only solutions of the system it is given. -/
theorem solver.exact_none_of_unsolvable (lu : Matrix → Vector → Option Vector)
    (P : SaddlePointProblemCanonical) (solution : SaddlePointVectorCanonical)
    (hnb : P.nb ≠ 0)
    (hlu : ∀ M r y, lu M r = some y → mulVec M y = r)
    (h : ¬ ∃ y : Vector, mulVec (solver.Ub P) y = solver.r P) :
    solver.exact lu P solution = none := by
  cases hS : solver.exact lu P solution with
  | none => rfl
  | some S =>
    obtain ⟨y, hy, _⟩ := (solver.exact_some lu P solution S hS).2.1 hnb
    exact absurd ⟨y, hlu _ _ _ hy⟩ h

theorem coeff_mem (v : Vector) (i : Nat) (hi : i < v.length) : coeff v i ∈ v := by
  unfold coeff
  rw [List.getD_eq_getElem _ _ hi]
  exact List.getElem_mem _

/-- The entries of `Bb`, `Eb`, `Es` and `Eu` are among the divisors of `solver`. -/
theorem solver.divisors_entries (P : SaddlePointProblemCanonical) (hwf : P.WellFormed)
    (hd : ∀ d ∈ solver.divisors P, d ≠ 0) :
    (∀ i, i < P.nb → coeff P.lhs.Bb i ≠ 0) ∧ (∀ i, i < P.nb → coeff P.lhs.Eb i ≠ 0) ∧
    (∀ k, k < P.ns → coeff P.lhs.Es k ≠ 0) ∧ (∀ k, k < P.nu → coeff P.lhs.Eu k ≠ 0) := by
  obtain ⟨hlBb, hlEb, hlEs, hlEu, _⟩ := hwf
  refine ⟨fun i hi => hd _ ?_, fun i hi => hd _ ?_, fun k hk => hd _ ?_, fun k hk => hd _ ?_⟩
  · have hnb : P.nb ≠ 0 := by omega
    simp only [solver.divisors, if_pos hnb, List.mem_append]
    exact Or.inl (Or.inl (Or.inl (Or.inl (Or.inl
      (coeff_mem _ i (by rw [hlBb]; exact hi))))))
  · have hnb : P.nb ≠ 0 := by omega
    simp only [solver.divisors, if_pos hnb, List.mem_append]
    exact Or.inl (Or.inr (coeff_mem _ i (by rw [hlEb]; exact hi)))
  · have hns : P.ns ≠ 0 := by omega
    simp only [solver.divisors, if_pos hns, List.mem_append]
    exact Or.inr (coeff_mem _ k (by rw [hlEs]; exact hk))
  · have hnu : P.nu ≠ 0 := by omega
    simp only [solver.divisors, if_pos hnu, List.mem_append]
    exact Or.inl (Or.inl (Or.inr (coeff_mem _ k (by rw [hlEu]; exact hk))))

/-- C22, refuted as stated: in both problems `nb > 0` and every entry of `Bb` is nonzero.  In
the first no division is by zero, but `Ub = [0]` is singular and the reduced system `0·y = 1`
has no solution, so the linear solve yields no value for `y`; in the second `Gs − Es = [0]`,
so `xs = (us − tr(Bs)*y)/(Gs − Es)` is a quotient by zero whatever `y` is.  In both the solver
has no output in exact arithmetic, and none that satisfies the feasibility row. -/
theorem solver.feasibility_row_counterexample :
    (singularCanonical.WellFormed ∧ 0 < singularCanonical.nb ∧
      (∀ i, i < singularCanonical.nb → coeff singularCanonical.lhs.Bb i ≠ 0) ∧
      (∀ d ∈ solver.divisors singularCanonical, d ≠ 0) ∧
      solver.Ub singularCanonical = ⟨1, 1, [[0]]⟩ ∧ solver.r singularCanonical = [1] ∧
      (¬ ∃ y : Vector, mulVec (solver.Ub singularCanonical) y = solver.r singularCanonical) ∧
      ∀ lu : Matrix → Vector → Option Vector,
        (∀ M r y, lu M r = some y → mulVec M y = r) →
        ¬ ∃ S, solver.exact lu singularCanonical emptySolution = some S ∧
          vadd (vadd (mulVec (diag singularCanonical.lhs.Bb) S.xb)
              (mulVec singularCanonical.lhs.Bs S.xs))
            (mulVec singularCanonical.lhs.Bu S.xu) = singularCanonical.rhs.b) ∧
    (zeroGapCanonical.WellFormed ∧ 0 < zeroGapCanonical.nb ∧
      (∀ i, i < zeroGapCanonical.nb → coeff zeroGapCanonical.lhs.Bb i ≠ 0) ∧
      vsub zeroGapCanonical.lhs.Gs zeroGapCanonical.lhs.Es = [0] ∧
      ∀ lu : Matrix → Vector → Option Vector,
        ¬ ∃ S, solver.exact lu zeroGapCanonical emptySolution = some S ∧
          vadd (vadd (mulVec (diag zeroGapCanonical.lhs.Bb) S.xb)
              (mulVec zeroGapCanonical.lhs.Bs S.xs))
            (mulVec zeroGapCanonical.lhs.Bu S.xu) = zeroGapCanonical.rhs.b) := by
  have hU : solver.Ub singularCanonical = ⟨1, 1, [[0]]⟩ := by decide!
  have hr : solver.r singularCanonical = [1] := by decide!
  have hno : ¬ ∃ y : Vector,
      mulVec (solver.Ub singularCanonical) y = solver.r singularCanonical := by
    rintro ⟨y, hy⟩
    rw [hU, hr, mulVec_one _ rfl rfl] at hy
    simp [Matrix.coeff] at hy
  refine ⟨⟨by decide, by decide, by decide!, by decide!, hU, hr, hno, ?_⟩,
    ⟨by decide, by decide, by decide!, by decide!, ?_⟩⟩
  · rintro lu hlu ⟨S, hS, _⟩
    rw [solver.exact_none_of_unsolvable lu singularCanonical emptySolution (by decide)
      hlu hno] at hS
    cases hS
  · rintro lu ⟨S, hS, _⟩
    rw [solver.exact_none_of_zero_divisor lu zeroGapCanonical emptySolution
      (by decide!)] at hS
    cases hS

/-- C22, amended: in exact arithmetic, when no division of `solver` is by zero (the entries of
`Bb`, `Eb`, `Es`, `Eu`, `Gs − Es` and `Eu − Gu` are nonzero) and the linear solve returns a
value `y`, the solver has an output, and every output satisfies the feasibility row
`diag(Bb)*xb + Bs*xs + Bu*xu = b`, whatever the value `y` is: it need not solve the reduced
system. -/
theorem solver.feasibility_row_defined (lu : Matrix → Vector → Option Vector)
    (P : SaddlePointProblemCanonical) (solution : SaddlePointVectorCanonical)
    (hwf : P.WellFormed) :
    ((∀ d ∈ solver.divisors P, d ≠ 0) →
      (P.nb ≠ 0 → (lu (solver.Ub P) (solver.r P)).isSome = true) →
      (solver.exact lu P solution).isSome = true) ∧
    (∀ S, solver.exact lu P solution = some S →
      vadd (vadd (mulVec (diag P.lhs.Bb) S.xb) (mulVec P.lhs.Bs S.xs))
        (mulVec P.lhs.Bu S.xu) = P.rhs.b) := by
  refine ⟨solver.exact_isSome lu P solution, fun S hS => ?_⟩
  obtain ⟨hd, _, lu', hlu'⟩ := solver.exact_some lu P solution S hS
  rw [hlu']
  exact solver.feasibility_identity lu' P solution hwf (solver.divisors_entries P hwf hd).1

/-- Evaluation of the amended C22 on the sample problem, once with the exact solve `y = 1/2`
and once with a solve that returns `y = 7`: `2·(3/2) + 3/4 + 1/4 = 4` and
`2·(3/2) − 5/2 + 7/2 = 4`. -/
theorem solver.feasibility_row_defined_witness :
    sampleCanonical.WellFormed ∧
    (solver.exact luExact1 sampleCanonical emptySolution).isSome = true ∧
    solver.exact luExact1 sampleCanonical emptySolution = some sampleSolution ∧
    vadd (vadd (mulVec (diag sampleCanonical.lhs.Bb) sampleSolution.xb)
        (mulVec sampleCanonical.lhs.Bs sampleSolution.xs))
      (mulVec sampleCanonical.lhs.Bu sampleSolution.xu) = sampleCanonical.rhs.b ∧
    solver.exact (fun _ _ => some [7]) sampleCanonical emptySolution = some offSolution ∧
    vadd (vadd (mulVec (diag sampleCanonical.lhs.Bb) offSolution.xb)
        (mulVec sampleCanonical.lhs.Bs offSolution.xs))
      (mulVec sampleCanonical.lhs.Bu offSolution.xu) = sampleCanonical.rhs.b :=
  have h1 : solver.exact luExact1 sampleCanonical emptySolution = some sampleSolution := by
    decide!
  have h2 : solver.exact (fun _ _ => some [7]) sampleCanonical emptySolution
      = some offSolution := by decide!
  ⟨by decide,
    (solver.feasibility_row_defined luExact1 sampleCanonical emptySolution (by decide)).1
      (by decide!) (by decide!),
    h1, (solver.feasibility_row_defined luExact1 sampleCanonical emptySolution
      (by decide)).2 _ h1,
    h2, (solver.feasibility_row_defined (fun _ _ => some [7]) sampleCanonical emptySolution
      (by decide)).2 _ h2⟩

/-- C23, refuted as stated: every entry of `Eb`, `Es` and `Eu` is nonzero in both problems.
In the first `Bb = [0]`, so `Lb = (Gb − Eb)/Bb` and `xb` are quotients by zero whatever the
linear solve is; in the second no division is by zero but `Ub = [0]` is singular and the
reduced system has no solution, so the linear solve yields no value for `y`.  In both the
solver has no output in exact arithmetic, and none that satisfies the complementarity row
`Eb∘(xb + zb) = cb`. -/
theorem solver.complementarity_rows_counterexample :
    (zeroDivisorCanonical.WellFormed ∧
      (∀ i, i < zeroDivisorCanonical.nb → coeff zeroDivisorCanonical.lhs.Eb i ≠ 0) ∧
      zeroDivisorCanonical.ns = 0 ∧ zeroDivisorCanonical.nu = 0 ∧
      coeff zeroDivisorCanonical.lhs.Bb 0 = 0 ∧
      ∀ lu : Matrix → Vector → Option Vector,
        ¬ ∃ S, solver.exact lu zeroDivisorCanonical emptySolution = some S ∧
          cwiseMul zeroDivisorCanonical.lhs.Eb (vadd S.xb S.zb)
            = zeroDivisorCanonical.rhs.cb) ∧
    (singularCanonical.WellFormed ∧
      (∀ i, i < singularCanonical.nb → coeff singularCanonical.lhs.Eb i ≠ 0) ∧
      (∀ k, k < singularCanonical.ns → coeff singularCanonical.lhs.Es k ≠ 0) ∧
      singularCanonical.nu = 0 ∧
      (¬ ∃ y : Vector, mulVec (solver.Ub singularCanonical) y = solver.r singularCanonical) ∧
      ∀ lu : Matrix → Vector → Option Vector,
        (∀ M r y, lu M r = some y → mulVec M y = r) →
        ¬ ∃ S, solver.exact lu singularCanonical emptySolution = some S ∧
          cwiseMul singularCanonical.lhs.Eb (vadd S.xb S.zb) = singularCanonical.rhs.cb) := by
  have hU : solver.Ub singularCanonical = ⟨1, 1, [[0]]⟩ := by decide!
  have hr : solver.r singularCanonical = [1] := by decide!
  have hno : ¬ ∃ y : Vector,
      mulVec (solver.Ub singularCanonical) y = solver.r singularCanonical := by
    rintro ⟨y, hy⟩
    rw [hU, hr, mulVec_one _ rfl rfl] at hy
    simp [Matrix.coeff] at hy
  refine ⟨⟨by decide, by decide!, rfl, rfl, by decide!, ?_⟩,
    ⟨by decide, by decide!, by decide!, rfl, hno, ?_⟩⟩
  · rintro lu ⟨S, hS, _⟩
    rw [solver.exact_none_of_zero_divisor lu zeroDivisorCanonical emptySolution
      (by decide!)] at hS
    cases hS
  · rintro lu hlu ⟨S, hS, _⟩
    rw [solver.exact_none_of_unsolvable lu singularCanonical emptySolution (by decide)
      hlu hno] at hS
    cases hS

/-- C23, amended: in exact arithmetic, when no division of `solver` is by zero (the entries of
`Bb`, `Eb`, `Es`, `Eu`, `Gs − Es` and `Eu − Gu` are nonzero) and the linear solve returns a
value, the solver has an output, and every output satisfies the complementarity rows
`Eb∘(xb + zb) = cb`, `Es∘(xs + zs) = cs` and `Eu∘(xu + zu) = cu`. -/
theorem solver.complementarity_rows_defined (lu : Matrix → Vector → Option Vector)
    (P : SaddlePointProblemCanonical) (solution : SaddlePointVectorCanonical)
    (hwf : P.WellFormed) :
    ((∀ d ∈ solver.divisors P, d ≠ 0) →
      (P.nb ≠ 0 → (lu (solver.Ub P) (solver.r P)).isSome = true) →
      (solver.exact lu P solution).isSome = true) ∧
    (∀ S, solver.exact lu P solution = some S →
      cwiseMul P.lhs.Eb (vadd S.xb S.zb) = P.rhs.cb ∧
      cwiseMul P.lhs.Es (vadd S.xs S.zs) = P.rhs.cs ∧
      cwiseMul P.lhs.Eu (vadd S.xu S.zu) = P.rhs.cu) := by
  refine ⟨solver.exact_isSome lu P solution, fun S hS => ?_⟩
  obtain ⟨hd, _, lu', hlu'⟩ := solver.exact_some lu P solution S hS
  obtain ⟨_, hEb, hEs, hEu⟩ := solver.divisors_entries P hwf hd
  rw [hlu']
  exact solver.complementarity_identity lu' P solution hwf hEb hEs hEu

/-- Evaluation of the amended C23 on the sample problem: `1·(3/2 − 1/2) = 1`,
`2·(3/4 − 3/4) = 0`, `3·(1/4 + 3/4) = 3`. -/
theorem solver.complementarity_rows_defined_witness :
    sampleCanonical.WellFormed ∧
    (solver.exact luExact1 sampleCanonical emptySolution).isSome = true ∧
    solver.exact luExact1 sampleCanonical emptySolution = some sampleSolution ∧
    cwiseMul sampleCanonical.lhs.Eb (vadd sampleSolution.xb sampleSolution.zb) = [1] ∧
    cwiseMul sampleCanonical.lhs.Es (vadd sampleSolution.xs sampleSolution.zs) = [0] ∧
    cwiseMul sampleCanonical.lhs.Eu (vadd sampleSolution.xu sampleSolution.zu) = [3] :=
  have h1 : solver.exact luExact1 sampleCanonical emptySolution = some sampleSolution := by
    decide!
  ⟨by decide,
    (solver.complementarity_rows_defined luExact1 sampleCanonical emptySolution
      (by decide)).1 (by decide!) (by decide!),
    h1, (solver.complementarity_rows_defined luExact1 sampleCanonical emptySolution
      (by decide)).2 _ h1⟩

/-! ## Stepper: the step of the all-stable scenario, the claims -/

/-- The matrix handed to the saddle-point solver by `decompose` does not depend on the
solver. -/
theorem Stepper.decompose_matrix_solver_free (slv : IpSaddlePointSolver σ) (o : Options)
    (c : Constraints) (p : StepperProblem) :
    ((Stepper.new slv o c).decompose slv p).matrix p
      = ((Stepper.new idleSolver o c).decompose idleSolver p).matrix p := rfl

/-- The residual vector assembled by `solve` does not depend on the solver. -/
theorem Stepper.solve_residual_solver_free (slv : IpSaddlePointSolver σ) (o : Options)
    (c : Constraints) (p : StepperProblem) :
    (((Stepper.new slv o c).decompose slv p).solve slv p).residual.1
      = (((Stepper.new idleSolver o c).decompose idleSolver p).solve idleSolver
          p).residual.1 := rfl

/-- The solver `denseSolver` returns a solution of the size of the system. -/
theorem denseSolver_length (s0 : Option IpSaddlePointMatrix) (r : Vector) (n m : Nat)
    (s : Vector) (_hr : r.length = 3 * n + m) (hs : s.length = 3 * n + m) :
    (denseSolver.solve s0 r n m s).2.length = 3 * n + m := by
  cases s0 with
  | none => exact hs
  | some M =>
    show (fullPivLU (M.array n m) r).length = 3 * n + m
    rw [fullPivLU, length_mulVec]
    obtain ⟨hinv, _⟩ := Canonicalizer.compute_final (M.array n m)
    exact hinv.lenq

/-- C12, refuted as stated: in the all-stable scenario with `n = m = 1`, `H = [1]`, `A = [1]`,
`x = z = y = [1]`, `g = [2]`, `b = [1]` and `mu = 1`, whatever the saddle-point solver is, the
stepper hands it the matrix with `Z = [1]`, `W = [0]`, `L = [1]`, `U = [1]` and the residual
`[−2, 0, 0, 0]` of `3n + m = 4` entries, whose first entry is `−(g + Aᵀ·y − z − w) = −2` while
the right-hand side of the claim has `−(g − Aᵀ·y − z) = 0` there, and the step has 4
entries, not `2n + m = 3`, for every solver that keeps the size of the storage `s` it writes
to.  Every solution of that system is `[Δx, Δy, Δz, Δw] = [0, −2, 0, 0]`, on which the first
row of the matrix of the claim fails, `H·Δx − Aᵀ·Δy − Δz = 2`; it is the step found by full
pivoting. -/
theorem Stepper.step_solves_counterexample :
    (∀ (τ : Type) (slv : IpSaddlePointSolver τ),
      ((Stepper.new slv stableOptions stableConstraints).decompose slv
          stableProblem).matrix stableProblem
        = { H := ⟨1, 1, [[1]]⟩, A := ⟨1, 1, [[1]]⟩, Z := [1], W := [0], L := [1], U := [1]
            ifixed := [] } ∧
      (((Stepper.new slv stableOptions stableConstraints).decompose slv
          stableProblem).solve slv stableProblem).residual.1 = [-2, 0, 0, 0] ∧
      (Stepper.new slv stableOptions stableConstraints).step.1.length = 4 ∧
      ((∀ (s0 : τ) (r : Vector) (n m : Nat) (s : Vector), r.length = 3 * n + m →
          s.length = 3 * n + m → (slv.solve s0 r n m s).2.length = 3 * n + m) →
        (((Stepper.new slv stableOptions stableConstraints).decompose slv
          stableProblem).solve slv stableProblem).step.1.length = 4)) ∧
    -(coeff stableProblem.g 0
        - coeff (trMulVec stableConstraints.equalityConstraintMatrix stableProblem.y) 0
        - coeff stableProblem.z 0) = 0 ∧
    (∀ s : Vector,
      IpSaddlePointMatrix.Solves { H := ⟨1, 1, [[1]]⟩, A := ⟨1, 1, [[1]]⟩, Z := [1], W := [0]
                                   L := [1], U := [1], ifixed := [] } 1 1 [-2, 0, 0, 0] s →
      (coeff s 0 = 0 ∧ coeff s 1 = -2 ∧ coeff s 2 = 0 ∧ coeff s 3 = 0) ∧
      ¬ (coeff (mulVec stableProblem.H (head s 1)) 0
          - coeff (trMulVec stableConstraints.equalityConstraintMatrix (segment s 1 1)) 0
          - coeff s 2
        = -(coeff stableProblem.g 0
            - coeff (trMulVec stableConstraints.equalityConstraintMatrix stableProblem.y) 0
            - coeff stableProblem.z 0))) ∧
    (((Stepper.new denseSolver stableOptions stableConstraints).decompose denseSolver
        stableProblem).solve denseSolver stableProblem).step.1 = [0, -2, 0, 0] ∧
    (((Stepper.new denseSolver stableOptions stableConstraints).decompose denseSolver
        stableProblem).solve denseSolver stableProblem).step.1.length ≠ 2 * 1 + 1 := by
  refine ⟨fun τ slv => ⟨?_, ?_, ?_, ?_⟩, by decide!, ?_, by decide!, by decide!⟩
  · rw [Stepper.decompose_matrix_solver_free]
    show IpSaddlePointMatrix.mk _ _ _ _ _ _ _ = _
    rw [IpSaddlePointMatrix.mk.injEq]
    exact ⟨by decide!, by decide!, by decide!, by decide!, by decide!, by decide!,
      by decide!⟩
  · rw [Stepper.solve_residual_solver_free]
    decide!
  · show (zeros (3 * 1 + 1)).length = 4
    rfl
  · intro hslv
    exact Stepper.reachable_step_length slv (fun _ => True) stableConstraints _ true
      (Stepper.Reachable.solve _ _ stableProblem
        (Stepper.Reachable.decompose _ _ stableProblem
          (Stepper.Reachable.new stableOptions trivial))) hslv
  · intro s ⟨h1, _, h3, h4, h5⟩
    have e1 := h1 0 (by decide) (by simp)
    have e3 := h3 0 (by decide)
    have e4 := h4 0 (by decide)
    have e5 := h5 0 (by decide)
    have hH : ∀ v : Vector, coeff (mulVec (⟨1, 1, [[1]]⟩ : Matrix) v) 0 = coeff v 0 := by
      intro v
      rw [coeff_mulVec _ _ 0 (by decide)]
      simp [Matrix.coeff]
    have hA : ∀ v : Vector, coeff (trMulVec (⟨1, 1, [[1]]⟩ : Matrix) v) 0 = coeff v 0 := by
      intro v
      rw [coeff_trMulVec _ _ 0 (by decide)]
      simp [Matrix.coeff]
    have hhead : coeff (head s 1) 0 = coeff s 0 := coeff_head s 1 0 (by decide)
    have hseg : coeff (segment s 1 1) 0 = coeff s 1 := by
      rw [coeff_segment s 1 1 0 (by decide)]
    have hfill : fillIndexed (head s 1) [] 0 = head s 1 := rfl
    simp only [hH, hA, hfill, hhead, hseg] at e1 e3
    have c0 : coeff ([-2, 0, 0, 0] : Vector) 0 = -2 := by decide!
    have c1 : coeff ([-2, 0, 0, 0] : Vector) (1 + 0) = 0 := by decide!
    have c2 : coeff ([-2, 0, 0, 0] : Vector) (1 + 1 + 0) = 0 := by decide!
    have c3 : coeff ([-2, 0, 0, 0] : Vector) (2 * 1 + 1 + 0) = 0 := by decide!
    have z0 : coeff ([1] : Vector) 0 = 1 := by decide!
    have w0 : coeff ([0] : Vector) 0 = 0 := by decide!
    rw [c0] at e1
    rw [c1] at e3
    rw [c2] at e4
    rw [c3] at e5
    simp only [z0, w0] at e4 e5
    have s0 : coeff s 0 = 0 := e3
    have s2 : coeff s 2 = 0 := by
      have : coeff s (1 + 1 + 0) = 0 := by linarith
      exact this
    have s3 : coeff s 3 = 0 := by
      have : coeff s (2 * 1 + 1 + 0) = 0 := by linarith
      exact this
    have s1 : coeff s 1 = -2 := by
      have e2 : coeff s (1 + 1 + 0) = 0 := s2
      have e3' : coeff s (2 * 1 + 1 + 0) = 0 := s3
      rw [e2, e3', s0] at e1
      linarith
    refine ⟨⟨s0, s1, s2, s3⟩, ?_⟩
    have hH' : coeff (mulVec stableProblem.H (head s 1)) 0 = coeff s 0 :=
      (hH _).trans hhead
    have hA' : coeff (trMulVec stableConstraints.equalityConstraintMatrix (segment s 1 1)) 0
        = coeff s 1 := (hA _).trans hseg
    have hrhs : -(coeff stableProblem.g 0
        - coeff (trMulVec stableConstraints.equalityConstraintMatrix stableProblem.y) 0
        - coeff stableProblem.z 0) = 0 := by decide!
    rw [hH', hA', hrhs, s0, s1, s2]
    norm_num

/-- C12, amended: on a freshly constructed stepper whose variables all have the lower bound
`0 < x`, none an upper bound and none fixed, after `decompose` and `solve` the step has
`3n + m` entries `[Δx Δy Δz Δw]` (blocks at offsets `0`, `n`, `n + m`, `2n + m`) and satisfies
`H·Δx + Aᵀ·Δy − Δz = −(g + Aᵀ·y − z − w)`, `A·Δx = −(A·x − b)`,
`z∘Δx + x∘Δz = −(x∘z − mu)` and `Δw = 0`, the saddle-point solver filling a solution of the
size of the system that solves the interior-point system it was handed. -/
theorem Stepper.step_solves_primal_dual (slv : IpSaddlePointSolver σ) (o : Options)
    (c : Constraints) (p : StepperProblem)
    (hlow : c.variablesWithLowerBounds = List.range c.numVariables)
    (hupp : c.variablesWithUpperBounds = [])
    (hfix : c.variablesWithFixedValues = [])
    (hx : ∀ i, i < c.numVariables → 0 < coeff p.x i)
    (hxl : ∀ i, i < c.numVariables → coeff p.xlower i = 0)
    (hslv : ∀ (s0 : σ) (r : Vector) (n m : Nat) (s : Vector), r.length = 3 * n + m →
      s.length = 3 * n + m → (slv.solve s0 r n m s).2.length = 3 * n + m)
    (hsol : (((Stepper.new slv o c).decompose slv p).matrix p).Solves
      c.numVariables c.numLinearEqualityConstraints
      (((Stepper.new slv o c).decompose slv p).solve slv p).r
      (((Stepper.new slv o c).decompose slv p).solve slv p).s) :
    (((Stepper.new slv o c).decompose slv p).solve slv p).step.1.length
      = 3 * c.numVariables + c.numLinearEqualityConstraints ∧
    (∀ i, i < c.numVariables →
      coeff (mulVec p.H
          (head (((Stepper.new slv o c).decompose slv p).solve slv p).step.1
            c.numVariables)) i
        + coeff (trMulVec c.equalityConstraintMatrix
          (segment (((Stepper.new slv o c).decompose slv p).solve slv p).step.1
            c.numVariables c.numLinearEqualityConstraints)) i
        - (((Stepper.new slv o c).decompose slv p).solve slv p).dz i
      = -(coeff p.g i + coeff (trMulVec c.equalityConstraintMatrix p.y) i
          - coeff p.z i - coeff p.w i)) ∧
    (∀ k, k < c.numLinearEqualityConstraints →
      coeff (mulVec c.equalityConstraintMatrix
          (head (((Stepper.new slv o c).decompose slv p).solve slv p).step.1
            c.numVariables)) k
      = -(coeff (mulVec c.equalityConstraintMatrix p.x) k - coeff p.b k)) ∧
    (∀ i, i < c.numVariables →
      coeff p.z i * (((Stepper.new slv o c).decompose slv p).solve slv p).dx i
        + coeff p.x i * (((Stepper.new slv o c).decompose slv p).solve slv p).dz i
      = -(coeff p.x i * coeff p.z i - o.mu)) ∧
    (∀ i, i < c.numVariables →
      (((Stepper.new slv o c).decompose slv p).solve slv p).dw i = 0) := by
  have hreach : Stepper.Reachable slv (fun _ => True) c
      (((Stepper.new slv o c).decompose slv p).solve slv p) true :=
    Stepper.Reachable.solve _ _ p
      (Stepper.Reachable.decompose _ _ p (Stepper.Reachable.new o trivial))
  obtain ⟨_, h2, h3, _⟩ := Stepper.reachable_shape slv (fun _ => True) c _ _ hreach
  have hlen := Stepper.reachable_step_length slv (fun _ => True) c _ _ hreach hslv
  rw [h2, h3] at hlen
  exact ⟨hlen, Stepper.step_solves_rows slv o c p hlow hupp hfix hx hxl hsol⟩

/-- Evaluation of the amended C12 on the all-stable scenario with `n = 2`, `m = 1`,
`H = [[2, 1], [1, 3]]`, `A = [1 1]`, `x = (1, 2)`, `z = (1, 3)`, `y = 1`, `g = (2, 3)`,
`b = 4` and `mu = 1`, the dense system being solved with full pivoting: the residual is
`[−2, −1, 1, 0, −5, 0, 0]` and the step `[10/11, 1/11, −53/11, −10/11, −29/11, 0, 0]`. -/
theorem Stepper.step_solves_primal_dual_witness :
    (((Stepper.new denseSolver stableOptions pairConstraints).decompose denseSolver
      pairProblem).solve denseSolver pairProblem).residual.1 = [-2, -1, 1, 0, -5, 0, 0] ∧
    (((Stepper.new denseSolver stableOptions pairConstraints).decompose denseSolver
      pairProblem).solve denseSolver pairProblem).step.1
        = [10/11, 1/11, -53/11, -10/11, -29/11, 0, 0] ∧
    (((Stepper.new denseSolver stableOptions pairConstraints).decompose denseSolver
      pairProblem).solve denseSolver pairProblem).step.1.length = 3 * 2 + 1 ∧
    coeff (mulVec pairProblem.H (head (((Stepper.new denseSolver stableOptions
          pairConstraints).decompose denseSolver pairProblem).solve denseSolver
          pairProblem).step.1 2)) 0
        + coeff (trMulVec pairConstraints.equalityConstraintMatrix (segment
          (((Stepper.new denseSolver stableOptions pairConstraints).decompose denseSolver
          pairProblem).solve denseSolver pairProblem).step.1 2 1)) 0
        - (((Stepper.new denseSolver stableOptions pairConstraints).decompose denseSolver
          pairProblem).solve denseSolver pairProblem).dz 0 = -2 ∧
    (((Stepper.new denseSolver stableOptions pairConstraints).decompose denseSolver
      pairProblem).solve denseSolver pairProblem).dw 1 = 0 :=
  have h := Stepper.step_solves_primal_dual denseSolver stableOptions pairConstraints
    pairProblem rfl rfl rfl (by decide!) (by decide!) denseSolver_length (by decide!)
  ⟨by decide!, by decide!, h.1, (h.2.1 0 (by decide)).trans (by decide!),
    h.2.2.2.2 1 (by decide)⟩

end Optima
